import Mathlib

/-!
# Datastore backup envelope (`lib/backupds`)

A shallow embedding of `Datastore.Backup` (datastore.go) and `ReadBackup` (read.go).

* A byte is a natural number; every byte the encoders emit is reduced modulo 256.
* The sink of `Backup` is described by which of its `Write` calls fail; the bytes it
  accepted are part of the state threaded through `Backup`.
* The source of `ReadBackup` is the list of bytes still unread; a read on the empty list
  reports the end of the source.
* The callback of `ReadBackup` is a function of the earlier invocations and of the
  current key and value, so it may be stateful; every invocation is recorded.
* The library routines the two functions call (cbor-gen headers, `crypto/sha256`,
  `datastore.NewKey` with `path.Clean`) are embedded as executable definitions.
-/

abbrev Byte := Nat

/-- A Go `error` value coming from outside the package (sink, store, callback). -/
structure GoError where
  msg : String
deriving DecidableEq, Repr

/-! ## `crypto/sha256` -/

namespace sha256

def chunk : Nat := 64

/-- The round constants `_K`. -/
def K : List Nat := [
  1116352408, 1899447441, 3049323471, 3921009573, 961987163, 1508970993,
  2453635748, 2870763221, 3624381080, 310598401, 607225278, 1426881987,
  1925078388, 2162078206, 2614888103, 3248222580, 3835390401, 4022224774,
  264347078, 604807628, 770255983, 1249150122, 1555081692, 1996064986,
  2554220882, 2821834349, 2952996808, 3210313671, 3336571891, 3584528711,
  113926993, 338241895, 666307205, 773529912, 1294757372, 1396182291,
  1695183700, 1986661051, 2177026350, 2456956037, 2730485921, 2820302411,
  3259730800, 3345764771, 3516065817, 3600352804, 4094571909, 275423344,
  430227734, 506948616, 659060556, 883997877, 958139571, 1322822218,
  1537002063, 1747873779, 1955562222, 2024104815, 2227730452, 2361852424,
  2428436474, 2756734187, 3204031479, 3329325298]

/-- The eight 32-bit chaining words `h[0..7]` of a digest. -/
structure Digest where
  h0 : Nat
  h1 : Nat
  h2 : Nat
  h3 : Nat
  h4 : Nat
  h5 : Nat
  h6 : Nat
  h7 : Nat
deriving DecidableEq, Repr

/-- The initial chaining value (`init0` .. `init7`). -/
def init : Digest :=
  ⟨1779033703, 3144134277, 1013904242, 2773480762,
   1359893119, 2600822924, 528734635, 1541459225⟩

/-- Truncation to `uint32`. -/
def u32 (x : Nat) : Nat := x % 4294967296

/-- The rotation `bits.RotateLeft32(x, -n)` of a 32-bit word. -/
def rotr (x n : Nat) : Nat := u32 ((x >>> n) ||| (x <<< (32 - n)))

/-- Big-endian words of a block: `w[i] = p[j]<<24 | p[j+1]<<16 | p[j+2]<<8 | p[j+3]`. -/
def words : List Byte → List Nat
  | b0 :: b1 :: b2 :: b3 :: rest =>
      u32 ((b0 <<< 24) ||| (b1 <<< 16) ||| (b2 <<< 8) ||| b3) :: words rest
  | _ => []

/-- The 64 rounds of `blockGeneric` on one block. The list `w` is the window
`w[i..i+15]` of the message schedule, extended by `w[i+16]` at every round. -/
def rounds : List Nat → List Nat → Digest → Digest
  | [], _, s => s
  | k :: ks, w, ⟨a, b, c, d, e, f, g, h⟩ =>
      let wi := w.getD 0 0
      let v1 := w.getD 14 0
      let s1 := (rotr v1 17) ^^^ (rotr v1 19) ^^^ (v1 >>> 10)
      let v2 := w.getD 1 0
      let s0 := (rotr v2 7) ^^^ (rotr v2 18) ^^^ (v2 >>> 3)
      let wn := u32 (s1 + w.getD 9 0 + s0 + wi)
      let t1 := u32 (h + ((rotr e 6) ^^^ (rotr e 11) ^^^ (rotr e 25))
                  + ((e &&& f) ^^^ ((e ^^^ 4294967295) &&& g)) + k + wi)
      let t2 := u32 (((rotr a 2) ^^^ (rotr a 13) ^^^ (rotr a 22))
                  + ((a &&& b) ^^^ (a &&& c) ^^^ (b &&& c)))
      rounds ks (w.drop 1 ++ [wn]) ⟨u32 (t1 + t2), a, b, c, u32 (d + t1), e, f, g⟩

/-- One 64-byte block folded into the chaining value. -/
def block (s : Digest) (p : List Byte) : Digest :=
  let r := rounds K (words (p.take chunk)) s
  ⟨u32 (s.h0 + r.h0), u32 (s.h1 + r.h1), u32 (s.h2 + r.h2), u32 (s.h3 + r.h3),
   u32 (s.h4 + r.h4), u32 (s.h5 + r.h5), u32 (s.h6 + r.h6), u32 (s.h7 + r.h7)⟩

/-- The loop `for len(p) >= chunk` of `blockGeneric`, for `n` whole blocks. -/
def blocks : Nat → Digest → List Byte → Digest
  | 0, s, _ => s
  | n + 1, s, p => blocks n (block s p) (p.drop chunk)

/-- Big-endian bytes of a 32-bit word (`binary.BigEndian.PutUint32`). -/
def be32 (x : Nat) : List Byte :=
  [(x >>> 24) % 256, (x >>> 16) % 256, (x >>> 8) % 256, x % 256]

/-- Big-endian bytes of a 64-bit word (`binary.BigEndian.PutUint64`). -/
def be64 (x : Nat) : List Byte :=
  [(x >>> 56) % 256, (x >>> 48) % 256, (x >>> 40) % 256, (x >>> 32) % 256,
   (x >>> 24) % 256, (x >>> 16) % 256, (x >>> 8) % 256, x % 256]

/-- The padding `checkSum` appends: `0x80`, zeros up to 56 modulo 64, the bit length. -/
def padding (len : Nat) : List Byte :=
  let t := if len % 64 < 56 then 56 - len % 64 else 64 + 56 - len % 64
  128 :: List.replicate (t - 1) 0 ++ be64 (len <<< 3)

/-- Modelled from the spec: `crypto/sha256` of the Go standard library, which the spec names
as the digest of the checksum field; the definition follows FIPS 180-4 as the library
does. The digest of everything written to a fresh hasher: `hasher.Sum(nil)` after the
bytes `data` were written, which is `sha256.Sum256(data)`. -/
def Sum256 (data : List Byte) : List Byte :=
  let p := data ++ padding data.length
  let d := blocks (p.length / chunk) init p
  be32 d.h0 ++ be32 d.h1 ++ be32 d.h2 ++ be32 d.h3 ++
    be32 d.h4 ++ be32 d.h5 ++ be32 d.h6 ++ be32 d.h7

end sha256

/-! ## `cbor-gen`: major-type headers and byte strings -/

namespace cbg

def MajByteString : Nat := 2

def MajArray : Nat := 4

/-- Modelled from the spec: the bytes `cbg.WriteMajorTypeHeaderBuf` puts in its buffer.
The function belongs to the library cbor-gen, which is not under src/; section 6 of the
spec describes its output as a big-endian major-type and length header. The first byte is
`(t << 5) | n` with `n` the length itself below 24, and 24, 25, 26 or 27 when the length
follows in 1, 2, 4 or 8 big-endian bytes. The argument `l` is a `uint64`. -/
def majorTypeHeader (t l : Nat) : List Byte :=
  if l < 24 then [((t <<< 5) ||| l) % 256]
  else if l < 2 ^ 8 then [((t <<< 5) ||| 24) % 256, l % 256]
  else if l < 2 ^ 16 then [((t <<< 5) ||| 25) % 256, (l >>> 8) % 256, l % 256]
  else if l < 2 ^ 32 then
    [((t <<< 5) ||| 26) % 256, (l >>> 24) % 256, (l >>> 16) % 256, (l >>> 8) % 256, l % 256]
  else
    [((t <<< 5) ||| 27) % 256, (l >>> 56) % 256, (l >>> 48) % 256, (l >>> 40) % 256,
     (l >>> 32) % 256, (l >>> 24) % 256, (l >>> 16) % 256, (l >>> 8) % 256, l % 256]

/-- Errors of `cbg.CborReadHeader` and `cbg.ReadByteArray`. -/
inductive ReadErr where
  /-- The reader ended before the requested bytes (`io.EOF`, `io.ErrUnexpectedEOF`). -/
  | eof
  /-- The length was not written in its shortest form. -/
  | notCanonical
  /-- The low five bits of the first byte are above 27. -/
  | invalidHeader (first : Byte)
  /-- The major type is not that of a byte string. -/
  | notByteString
  /-- The declared length exceeds `maxlen`. -/
  | tooLong (maxlen : Nat)
deriving DecidableEq, Repr

/-- A read of one byte (`readByte` of cbor-gen, and `Read` into a buffer of length one);
the second component is the unread rest of the source. -/
def readByte (br : List Byte) : Except ReadErr Byte × List Byte :=
  match br with
  | [] => (.error .eof, [])
  | b :: rest => (.ok b, rest)

/-- The call `io.ReadAtLeast(br, buf, n)` with `len(buf) = n`: exactly `n` bytes, or an
error after the source was drained. -/
def readAtLeast (br : List Byte) (n : Nat) : Except ReadErr (List Byte) × List Byte :=
  if n ≤ br.length then (.ok (br.take n), br.drop n) else (.error .eof, [])

/-- The decoders `binary.BigEndian.Uint16`, `Uint32` and `Uint64` on a buffer of that
width: `b[n-1] | b[n-2]<<8 | ...`. -/
def bigEndian : List Byte → Nat
  | [] => 0
  | b :: rest => (b <<< (8 * rest.length)) ||| bigEndian rest

/-- Modelled from the spec: `cbg.CborReadHeader` of the library cbor-gen (not under src/),
the reader of the header that `majorTypeHeader` writes. It returns the major type and the
length, and rejects a length that is not in shortest form and a first byte whose low five
bits are above 27. -/
def CborReadHeader (br : List Byte) : Except ReadErr (Nat × Nat) × List Byte :=
  match readByte br with
  | (.error e, r) => (.error e, r)
  | (.ok first, r) =>
    let maj := (first &&& 0xe0) >>> 5
    let low := first &&& 0x1f
    if low < 24 then (.ok (maj, low), r)
    else if low = 24 then
      match readByte r with
      | (.error e, r) => (.error e, r)
      | (.ok next, r) =>
        if next < 24 then (.error .notCanonical, r) else (.ok (maj, next), r)
    else if low = 25 then
      match readAtLeast r 2 with
      | (.error e, r) => (.error e, r)
      | (.ok scratch, r) =>
        if bigEndian scratch ≤ 255 then (.error .notCanonical, r)
        else (.ok (maj, bigEndian scratch), r)
    else if low = 26 then
      match readAtLeast r 4 with
      | (.error e, r) => (.error e, r)
      | (.ok scratch, r) =>
        if bigEndian scratch ≤ 65535 then (.error .notCanonical, r)
        else (.ok (maj, bigEndian scratch), r)
    else if low = 27 then
      match readAtLeast r 8 with
      | (.error e, r) => (.error e, r)
      | (.ok scratch, r) =>
        if bigEndian scratch ≤ 4294967295 then (.error .notCanonical, r)
        else (.ok (maj, bigEndian scratch), r)
    else (.error (.invalidHeader first), r)

/-- Modelled from the spec: `cbg.ReadByteArray` of the library cbor-gen (not under src/),
the reader of a length-prefixed byte string. A header of another major type and a declared
length above `maxlen` are errors raised before any byte of the payload is read. -/
def ReadByteArray (br : List Byte) (maxlen : Nat) : Except ReadErr (List Byte) × List Byte :=
  match CborReadHeader br with
  | (.error e, r) => (.error e, r)
  | (.ok (maj, extra), r) =>
    if maj ≠ MajByteString then (.error .notByteString, r)
    else if extra > maxlen then (.error (.tooLong maxlen), r)
    else readAtLeast r extra

end cbg

/-! ## `go-datastore`: keys -/

namespace datastore

/-- The backtracking of `path.Clean` on a `..` element: starting from `w = out.w - 1`,
step back while `w > dotdot` and the byte at `w` is not a slash. -/
def backtrack (out : List Byte) (dotdot : Nat) : Nat → Nat
  | 0 => 0
  | w + 1 => if w + 1 > dotdot ∧ out.getD (w + 1) 0 ≠ 47 then backtrack out dotdot w else w + 1

/-- The main loop of `path.Clean`: `r` is the index of the next byte of `path`, `out` the
bytes written so far, `dotdot` the index where `..` must stop. Every turn advances `r`, so
`len(path) + 1` turns are enough. -/
def cleanLoop (path : List Byte) (rooted : Bool) : Nat → Nat → List Byte → Nat → List Byte
  | 0, _, out, _ => out
  | fuel + 1, r, out, dotdot =>
    let n := path.length
    if r < n then
      if path.getD r 0 = 47 then
        cleanLoop path rooted fuel (r + 1) out dotdot
      else if path.getD r 0 = 46 ∧ (r + 1 = n ∨ path.getD (r + 1) 0 = 47) then
        cleanLoop path rooted fuel (r + 1) out dotdot
      else if path.getD r 0 = 46 ∧ path.getD (r + 1) 0 = 46 ∧
          (r + 2 = n ∨ path.getD (r + 2) 0 = 47) then
        if out.length > dotdot then
          cleanLoop path rooted fuel (r + 2)
            (out.take (backtrack out dotdot (out.length - 1))) dotdot
        else if !rooted then
          let out1 := (if out.length > 0 then out ++ [47] else out) ++ [46, 46]
          cleanLoop path rooted fuel (r + 2) out1 out1.length
        else
          cleanLoop path rooted fuel (r + 2) out dotdot
      else
        let out1 :=
          if (rooted ∧ out.length ≠ 1) ∨ (!rooted ∧ out.length ≠ 0) then out ++ [47] else out
        let elem := (path.drop r).takeWhile (fun c => c ≠ 47)
        cleanLoop path rooted fuel (r + elem.length) (out1 ++ elem) dotdot
    else out

/-- Modelled from the spec: `path.Clean` of the Go standard library, which the spec does
not describe; the definition follows the library. The shortest path equivalent to `path`:
no empty element, no `.` element, every inner `..` resolved. -/
def Clean (path : List Byte) : List Byte :=
  if path = [] then [46]
  else
    let rooted : Bool := path.getD 0 0 = 47
    let out := cleanLoop path rooted (path.length + 1) (if rooted then 1 else 0)
      (if rooted then [47] else []) (if rooted then 1 else 0)
    if out.length = 0 then [46] else out

/-- A `datastore.Key`: the string it wraps, as bytes. -/
abbrev Key := List Byte

/-- Modelled from the spec: `datastore.NewKey` of the library go-datastore (not under src/),
which the spec does not describe; the definition follows the library. It builds the key
from a string and normalises it with `Key.Clean`: the empty string becomes `/`, a string
that starts with a slash is path-cleaned, any other string is path-cleaned after a slash
was put in front. -/
def NewKey (s : List Byte) : Key :=
  if s.length = 0 then [47]
  else if s.getD 0 0 = 47 then Clean s
  else Clean (47 :: s)

end datastore

/-! ## `query`: what `Backup` sees of the child store -/

namespace query

/-- A `query.Result`: the entry's key and value and the result's error field. -/
structure Result where
  Key : List Byte
  Value : List Byte
  Error : Option GoError
deriving DecidableEq, Repr

/-- A `query.Results`: the results the channel of `Next()` yields before it is closed, and
what `Close()` returns. -/
structure Results where
  Next : List Result
  Close : Option GoError
deriving DecidableEq, Repr

end query

/-! ## `backupds` -/

namespace backupds

/-- The child store as `Backup` uses it: the outcome of `child.Query(ctx, query.Query{})`. -/
structure Child where
  Query : Except GoError query.Results

/-- The sink `out` of `Backup`: the error, if any, of its `n`-th `Write` call (from 0). -/
abbrev Sink := Nat → Option GoError

/-- The sink whose writes all succeed. -/
def neverFails : Sink := fun _ => none

/-- Effects of `Backup` other than writes, in program order. -/
inductive Event where
  /-- The call `d.backupLk.Lock()`. -/
  | lock
  /-- The deferred `d.backupLk.Unlock()`. -/
  | unlock
  /-- The call `d.child.Query`, with whether it succeeded. -/
  | queryOpen (ok : Bool)
  /-- The deferred `qr.Close()`, with whether it succeeded. -/
  | queryClose (ok : Bool)
  /-- The message "Starting datastore backup". -/
  | logStart
  /-- The deferred message "Datastore backup done". -/
  | logDone
  /-- The message "query close error". -/
  | logCloseError (e : GoError)
deriving DecidableEq, Repr

/-- The errors `Backup` returns, one constructor for each format string. -/
inductive BackupError where
  /-- The message "writing tuple header: %w" (outer header and every entry header). -/
  | writingTupleHeader (e : GoError)
  /-- The message "writing header: %w" (start marker). -/
  | writingHeader (e : GoError)
  /-- The message "query: %w". -/
  | query (e : GoError)
  /-- The message "writing key header: %w". -/
  | writingKeyHeader (e : GoError)
  /-- The message "writing key: %w". -/
  | writingKey (e : GoError)
  /-- The message "writing value header: %w". -/
  | writingValueHeader (e : GoError)
  /-- The message "writing value: %w". -/
  | writingValue (e : GoError)
  /-- The message "writing array 'break': %w". -/
  | writingArrayBreak (e : GoError)
  /-- The message "writing checksum header: %w". -/
  | writingChecksumHeader (e : GoError)
  /-- The message "writing checksum: %w". -/
  | writingChecksum (e : GoError)
deriving DecidableEq, Repr

/-- The state `Backup` threads through its statements. -/
structure BackupState where
  /-- Bytes the sink accepted. -/
  out : List Byte
  /-- Number of `Write` calls made on the sink. -/
  writes : Nat
  /-- Bytes written to the SHA-256 hasher. -/
  hasher : List Byte
  /-- Lock, query and log effects so far. -/
  events : List Event
deriving DecidableEq, Repr

/-- The call `out.Write(p)`: the sink fails or takes all of `p`. -/
def outWrite (sink : Sink) (s : BackupState) (p : List Byte) : Option GoError × BackupState :=
  match sink s.writes with
  | some e => (some e, { s with writes := s.writes + 1 })
  | none => (none, { s with out := s.out ++ p, writes := s.writes + 1 })

/-- The call `hout.Write(p)` with `hout = io.MultiWriter(hasher, out)`: the hasher takes
`p`, then the sink is written. -/
def houtWrite (sink : Sink) (s : BackupState) (p : List Byte) : Option GoError × BackupState :=
  outWrite sink { s with hasher := s.hasher ++ p } p

/-- The call `cbg.WriteMajorTypeHeaderBuf(scratch, w, t, l)`: one `Write` of the header. -/
def WriteMajorTypeHeaderBuf (w : BackupState → List Byte → Option GoError × BackupState)
    (s : BackupState) (t l : Nat) : Option GoError × BackupState :=
  w s (cbg.majorTypeHeader t l)

/-- The loop `for result := range qr.Next()` of `Backup` (datastore.go, lines 67 to 87).
The conversion `uint64(len(..))` leaves a length as it is, `len` being a non-negative
`int`; the error field of a result is not read. -/
def writeResults (sink : Sink) :
    List query.Result → BackupState → Option BackupError × BackupState
  | [], s => (none, s)
  | result :: rest, s =>
    match WriteMajorTypeHeaderBuf (houtWrite sink) s cbg.MajArray 2 with
    | (some e, s) => (some (.writingTupleHeader e), s)
    | (none, s) =>
    match WriteMajorTypeHeaderBuf (houtWrite sink) s cbg.MajByteString
        result.Key.length with
    | (some e, s) => (some (.writingKeyHeader e), s)
    | (none, s) =>
    match houtWrite sink s result.Key with
    | (some e, s) => (some (.writingKey e), s)
    | (none, s) =>
    match WriteMajorTypeHeaderBuf (houtWrite sink) s cbg.MajByteString
        result.Value.length with
    | (some e, s) => (some (.writingValueHeader e), s)
    | (none, s) =>
    match houtWrite sink s result.Value with
    | (some e, s) => (some (.writingValue e), s)
    | (none, s) => writeResults sink rest s

/-- Append an effect to the record. -/
def BackupState.emit (s : BackupState) (ev : Event) : BackupState :=
  { s with events := s.events ++ [ev] }

/-- The deferred closure of datastore.go, lines 60 to 65: close the query and log a
failure of the close. -/
def deferClose (qr : query.Results) (s : BackupState) : BackupState :=
  match qr.Close with
  | some e => (s.emit (.queryClose false)).emit (.logCloseError e)
  | none => s.emit (.queryClose true)

/-- The two deferred calls registered before the query is opened, in the order they run:
the message "Datastore backup done", then `d.backupLk.Unlock()`. -/
def deferUnlock (s : BackupState) : BackupState :=
  (s.emit .logDone).emit .unlock

/-- The checksum block of `Backup` (datastore.go, lines 95 to 106). -/
def writeChecksum (sink : Sink) (s : BackupState) : Option BackupError × BackupState :=
  let sum := sha256.Sum256 s.hasher
  match WriteMajorTypeHeaderBuf (houtWrite sink) s cbg.MajByteString sum.length with
  | (some e, s) => (some (.writingChecksumHeader e), s)
  | (none, s) =>
  match houtWrite sink s sum with
  | (some e, s) => (some (.writingChecksum e), s)
  | (none, s) => (none, s)

/-- What a call of `Backup` leaves behind: the returned error (`none` for `nil`) and the
final state of sink, hasher and effect record. -/
structure BackupOutcome where
  err : Option BackupError
  state : BackupState
deriving DecidableEq, Repr

/-- The method `Datastore.Backup` (datastore.go, lines 33 to 109). -/
def Backup (child : Child) (sink : Sink) : BackupOutcome :=
  let s : BackupState := ⟨[], 0, [], []⟩
  match WriteMajorTypeHeaderBuf (outWrite sink) s cbg.MajArray 2 with
  | (some e, s) => ⟨some (.writingTupleHeader e), s⟩
  | (none, s) =>
  match houtWrite sink s [0x9f] with
  | (some e, s) => ⟨some (.writingHeader e), s⟩
  | (none, s) =>
  let s := (s.emit .lock).emit .logStart
  match child.Query with
  | .error e => ⟨some (.query e), deferUnlock (s.emit (.queryOpen false))⟩
  | .ok qr =>
    let s := s.emit (.queryOpen true)
    match writeResults sink qr.Next s with
    | (some e, s) => ⟨some e, deferUnlock (deferClose qr s)⟩
    | (none, s) =>
    match houtWrite sink s [0xff] with
    | (some e, s) => ⟨some (.writingArrayBreak e), deferUnlock (deferClose qr s)⟩
    | (none, s) =>
    match writeChecksum sink s with
    | (some e, s) => ⟨some e, deferUnlock (deferClose qr s)⟩
    | (none, s) => ⟨none, deferUnlock (deferClose qr s)⟩

/-- The callback of `ReadBackup`: given the invocations made so far, the key and the
value, the error it returns (`none` for `nil`). -/
abbrev Callback := List (datastore.Key × List Byte) → datastore.Key → List Byte → Option GoError

/-- The callback that always succeeds. -/
def okCallback : Callback := fun _ _ _ => none

/-- The errors `ReadBackup` returns, one constructor for each format string and one for
an error of the callback, which is returned as it is. -/
inductive ReadError where
  /-- The message "reading array header: %w" (first and second byte). -/
  | readingArrayHeader (e : cbg.ReadErr)
  /-- The message "expected array(2) header byte 0x82, got %x". -/
  | expectedArrayHeader (got : Byte)
  /-- The message "expected indefinite length array header byte 0x9f, got %x". -/
  | expectedIndefHeader (got : Byte)
  /-- The message "reading tuple header: %w". -/
  | readingTupleHeader (e : cbg.ReadErr)
  /-- The message "expected array(2) header 0x82, got %x". -/
  | expectedTupleHeader (got : Byte)
  /-- The message "reading key: %w". -/
  | readingKey (e : cbg.ReadErr)
  /-- The message "reading value: %w". -/
  | readingValue (e : cbg.ReadErr)
  /-- The error of the callback, unwrapped. -/
  | callback (e : GoError)
  /-- The message "reading expected checksum: %w". -/
  | readingChecksum (e : cbg.ReadErr)
  /-- The message "checksum didn't match; expected %x, got %x". -/
  | checksumMismatch (expSum sum : List Byte)
deriving DecidableEq, Repr

/-- What a call of `ReadBackup` leaves behind: the returned error (`none` for `nil`), the
invocations of the callback in order, and the bytes of the source left unread. -/
structure ReadOutcome where
  err : Option ReadError
  calls : List (datastore.Key × List Byte)
  rest : List Byte
deriving DecidableEq, Repr

/-- A read through `hr = io.TeeReader(r, hasher)`: what the read consumed from the
source `r` is written to the hasher. -/
def tee {α : Type} (r hasher : List Byte) (res : α × List Byte) : α × List Byte × List Byte :=
  (res.1, res.2, hasher ++ r.take (r.length - res.2.length))

/-- How the loop of `ReadBackup` ends: with `break` at the end marker (source, hasher and
invocations as they are then) or with a `return`. -/
inductive LoopExit where
  | brk (r hasher : List Byte) (calls : List (datastore.Key × List Byte))
  | ret (o : ReadOutcome)
deriving DecidableEq, Repr

/-- The loop of `ReadBackup` (read.go, lines 35 to 62). Every turn reads at least one
byte, so a number of turns above the length of the source is never used up; `none` is
the answer when it is. -/
def readLoop (cb : Callback) :
    Nat → List Byte → List Byte → List (datastore.Key × List Byte) → Option LoopExit
  | 0, _, _, _ => none
  | fuel + 1, r, hasher, calls =>
    match tee r hasher (cbg.readByte r) with
    | (.error e, r, _) => some (.ret ⟨some (.readingTupleHeader e), calls, r⟩)
    | (.ok b, r, hasher) =>
      if b = 0xff then some (.brk r hasher calls)
      else if b ≠ 0x82 then some (.ret ⟨some (.expectedTupleHeader b), calls, r⟩)
      else
        match tee r hasher (cbg.ReadByteArray r (1 <<< 40)) with
        | (.error e, r, _) => some (.ret ⟨some (.readingKey e), calls, r⟩)
        | (.ok keyb, r, hasher) =>
          let key := datastore.NewKey keyb
          match tee r hasher (cbg.ReadByteArray r (1 <<< 40)) with
          | (.error e, r, _) => some (.ret ⟨some (.readingValue e), calls, r⟩)
          | (.ok value, r, hasher) =>
            match cb calls key value with
            | some e => some (.ret ⟨some (.callback e), calls ++ [(key, value)], r⟩)
            | none => readLoop cb fuel r hasher (calls ++ [(key, value)])

/-- The function `ReadBackup` (read.go, lines 13 to 76). -/
def ReadBackup (r : List Byte) (cb : Callback) : Option ReadOutcome :=
  match cbg.readByte r with
  | (.error e, r) => some ⟨some (.readingArrayHeader e), [], r⟩
  | (.ok b, r) =>
    if b ≠ 0x82 then some ⟨some (.expectedArrayHeader b), [], r⟩
    else
      match tee r [] (cbg.readByte r) with
      | (.error e, r, _) => some ⟨some (.readingArrayHeader e), [], r⟩
      | (.ok b, r, hasher) =>
        if b ≠ 0x9f then some ⟨some (.expectedIndefHeader b), [], r⟩
        else
          match readLoop cb (r.length + 1) r hasher [] with
          | none => none
          | some (.ret o) => some o
          | some (.brk r hasher calls) =>
            let sum := sha256.Sum256 hasher
            match cbg.ReadByteArray r 32 with
            | (.error e, r) => some ⟨some (.readingChecksum e), calls, r⟩
            | (.ok expSum, r) =>
              if sum ≠ expSum then some ⟨some (.checksumMismatch expSum sum), calls, r⟩
              else some ⟨none, calls, r⟩

end backupds

/-! ## The wire format, as section 6 of the spec words it -/

namespace backupds

/-- A key and value pair. -/
abbrev Entry := List Byte × List Byte

/-- The grammar rule `ByteString(n)`: a length-prefixed header and `n` raw bytes. -/
def byteString (b : List Byte) : List Byte :=
  cbg.majorTypeHeader cbg.MajByteString b.length ++ b

/-- The grammar rule `Entry`: the tuple header, the key, the value. -/
def entryBytes (e : Entry) : List Byte :=
  0x82 :: (byteString e.1 ++ byteString e.2)

/-- The entries of a stream one after the other, in the given order. -/
def entriesBytes : List Entry → List Byte
  | [] => []
  | e :: rest => entryBytes e ++ entriesBytes rest

/-- The grammar rule `EntryStream`: start marker, entries, end marker. -/
def entryStream (es : List Entry) : List Byte :=
  0x9f :: (entriesBytes es ++ [0xff])

/-- The grammar rule `Envelope`: outer header, entry stream, checksum of the stream. -/
def envelope (es : List Entry) : List Byte :=
  0x82 :: (entryStream es ++ byteString (sha256.Sum256 (entryStream es)))

/-- The key and value fields of the results of a query, in query order. -/
def entriesOf (rs : List query.Result) : List Entry :=
  rs.map (fun r => (r.Key, r.Value))

/-- A store whose full-scan query opens, yields the given entries (no error field set)
and closes without error. -/
def storeOf (es : List Entry) : Child :=
  ⟨.ok ⟨es.map (fun e => ⟨e.1, e.2, none⟩), none⟩⟩

/-- The bytes `Backup` writes for a store with entries `es` to a sink that never fails. -/
def backupBytes (es : List Entry) : List Byte :=
  (Backup (storeOf es) neverFails).state.out

/-- What the callback is handed for the entries `es`: the key goes through
`datastore.NewKey`, the value is passed as read. -/
def delivered (es : List Entry) : List (datastore.Key × List Byte) :=
  es.map (fun e => (datastore.NewKey e.1, e.2))

/-- The callback `cb`, having seen the invocations `calls`, returns no error on any of
the entries `es` handed to it in turn. -/
def accepts (cb : Callback) : List (datastore.Key × List Byte) → List Entry → Prop
  | _, [] => True
  | calls, e :: rest =>
    cb calls (datastore.NewKey e.1) e.2 = none ∧
      accepts cb (calls ++ [(datastore.NewKey e.1, e.2)]) rest

/-- The ceiling `1<<40` that `ReadBackup` passes to `cbg.ReadByteArray` for keys and values. -/
def maxField : Nat := 1 <<< 40

/-- Every key and value of `es` is at most `1<<40` bytes long. -/
def fieldsFit (es : List Entry) : Prop :=
  ∀ e ∈ es, e.1.length ≤ maxField ∧ e.2.length ≤ maxField

/-- Every key and value of `es` has a length below `2^64`, as every Go slice has. -/
def fieldsGo (es : List Entry) : Prop :=
  ∀ e ∈ es, e.1.length < 2 ^ 64 ∧ e.2.length < 2 ^ 64

/-- The byte list with bit `n` flipped, bit `8 * i + j` being bit `j` of byte `i`. -/
def flipBit : List Byte → Nat → List Byte
  | [], _ => []
  | b :: bs, n => if n < 8 then (b ^^^ (1 <<< n)) :: bs else b :: flipBit bs (n - 8)

/-- The I/O errors of `ReadBackup`: a read met the end of the source. -/
def ReadError.isIoError : ReadError → Bool
  | .readingArrayHeader _ => true
  | .readingTupleHeader _ => true
  | .readingKey .eof => true
  | .readingValue .eof => true
  | .readingChecksum .eof => true
  | _ => false

/-- A header that `cbg.CborReadHeader` or `cbg.ReadByteArray` finds malformed. -/
def malformed : cbg.ReadErr → Bool
  | .notCanonical => true
  | .invalidHeader _ => true
  | .notByteString => true
  | _ => false

/-- The format errors of `ReadBackup`: a header or marker byte is not the expected one,
or the header of a byte string is malformed. -/
def ReadError.isFormatError : ReadError → Bool
  | .expectedArrayHeader _ => true
  | .expectedIndefHeader _ => true
  | .expectedTupleHeader _ => true
  | .readingKey e => malformed e
  | .readingValue e => malformed e
  | .readingChecksum e => malformed e
  | _ => false

/-- The size-limit errors of `ReadBackup`: a length prefix above the ceiling of its field. -/
def ReadError.isSizeLimitError : ReadError → Bool
  | .readingKey (.tooLong _) => true
  | .readingValue (.tooLong _) => true
  | .readingChecksum (.tooLong _) => true
  | _ => false

/-- Index, in the envelope, of the first payload byte of the key `k` of the entry that
follows the entries `es1`. -/
def keyOffset (es1 : List Entry) (k : List Byte) : Nat :=
  2 + (entriesBytes es1).length + 1 + (cbg.majorTypeHeader cbg.MajByteString k.length).length

/-- Index, in the envelope, of the first payload byte of the value `v` of the entry with
key `k` that follows the entries `es1`. -/
def valueOffset (es1 : List Entry) (k v : List Byte) : Nat :=
  keyOffset es1 k + k.length + (cbg.majorTypeHeader cbg.MajByteString v.length).length

/-- A value of `2^40 + 1` zero bytes, one byte above the ceiling of `ReadBackup`. -/
def oversizedValue : List Byte := List.replicate 1099511627777 0

/-- The checksum stage of `ReadBackup` (read.go, lines 64 to 75), entered when the loop
has left at the end marker: `stream` is what the hasher was fed, `calls` the invocations
made, `tail` the unread source. -/
def checksumStage (stream : List Byte) (calls : List (datastore.Key × List Byte))
    (tail : List Byte) : ReadOutcome :=
  match cbg.ReadByteArray tail 32 with
  | (.error e, r) => ⟨some (.readingChecksum e), calls, r⟩
  | (.ok expSum, r) =>
    if sha256.Sum256 stream ≠ expSum then
      ⟨some (.checksumMismatch expSum (sha256.Sum256 stream)), calls, r⟩
    else ⟨none, calls, r⟩

/-- The effects of a `Backup` whose query opened: lock, start message, query, close (with
the message of a failed close), done message, unlock. -/
def backupEvents (qr : query.Results) : List Event :=
  [.lock, .logStart, .queryOpen true] ++
    (match qr.Close with
      | some e => [.queryClose false, .logCloseError e]
      | none => [.queryClose true]) ++
    [.logDone, .unlock]

end backupds

/-! ## `build`: the version string (version.go) -/

namespace build

def BuildDefault : Int := 0

def BuildMainnet : Int := 0x1

def Build2k : Int := 0x2

def BuildDebug : Int := 0x3

def BuildCalibnet : Int := 0x4

def BuildButterflynet : Int := 0x7

def BuildInteropnet : Int := 0x8

/-- The function `buildType` (version.go, lines 16 to 33), a switch on the package
variable `BuildType`, here its argument. -/
def buildType (BuildType : Int) : String :=
  if BuildType = BuildDefault then ""
  else if BuildType = BuildMainnet then "+mainnet"
  else if BuildType = Build2k then "+2k"
  else if BuildType = BuildDebug then "+debug"
  else if BuildType = BuildCalibnet then "+calibnet"
  else if BuildType = BuildButterflynet then "+butterflynet"
  else "+huh?"

/-- The constant `BuildVersion`. -/
def BuildVersion : String := "1.6.0-rc1"

/-- The function `UserVersion` (version.go, lines 38 to 40); the package variables
`BuildType` and `CurrentCommit` are its arguments. -/
def UserVersion (BuildType : Int) (CurrentCommit : String) : String :=
  BuildVersion ++ buildType BuildType ++ CurrentCommit

end build


/-! ## `sync`: the read-write lock behind `backupLk` -/

namespace sync

/-- The state of a `sync.RWMutex` as its holders see it: whether a writer holds it, and
how many readers do. -/
structure RWMutex where
  writer : Bool
  readers : Nat
deriving DecidableEq, Repr

/-- The method `Lock`: it returns once neither a writer nor a reader holds the lock;
`none` stands for a call that cannot return in this state. -/
def RWMutex.Lock (rw : RWMutex) : Option RWMutex :=
  if rw.writer = false ∧ rw.readers = 0 then some { rw with writer := true } else none

/-- The method `Unlock`: a fatal error when no writer holds the lock. -/
def RWMutex.Unlock (rw : RWMutex) : Option RWMutex :=
  if rw.writer then some { rw with writer := false } else none

/-- The method `RLock`: it returns once no writer holds the lock. -/
def RWMutex.RLock (rw : RWMutex) : Option RWMutex :=
  if rw.writer then none else some { rw with readers := rw.readers + 1 }

/-- The method `RUnlock`: a fatal error when no reader holds the lock. -/
def RWMutex.RUnlock (rw : RWMutex) : Option RWMutex :=
  if rw.readers = 0 then none else some { rw with readers := rw.readers - 1 }

/-- A `sync.Locker`: the two methods `Lock` and `Unlock`. -/
structure Locker where
  Lock : RWMutex → Option RWMutex
  Unlock : RWMutex → Option RWMutex

/-- The method `RLocker`: the `Locker` whose `Lock` and `Unlock` are `RLock` and
`RUnlock`. -/
def RWMutex.RLocker : Locker := ⟨RWMutex.RLock, RWMutex.RUnlock⟩

end sync

/-! ## `backupds`: the proxy methods and the guard (datastore.go, lines 111 to 187) -/

namespace backupds

/-- The calls made on the child store, on the child's batch and on the query results. -/
inductive ChildCall where
  | Get | Has | GetSize | Query | Put | Delete | Sync | Close | Batch
  | batchPut | batchDelete | batchCommit | queryNext | queryClose
deriving DecidableEq, Repr

/-- What an operation does to the guard, to the child and to the sink of a backup, in
program order: a method of the guard that returned is recorded with the state of the guard
before and after it, a call on the child with the state of the guard during the call, a
`Write` on the sink with its number (from 0) and the state of the guard during it. -/
inductive Step where
  | guard (before after : sync.RWMutex)
  | call (c : ChildCall) (during : sync.RWMutex)
  | write (n : Nat) (during : sync.RWMutex)
deriving DecidableEq, Repr

/-- The number of the `Write` a step makes on the sink, when the step is one. -/
def Step.writeIndex : Step → Option Nat
  | .write n _ => some n
  | _ => none

/-- The `Datastore` as the lock discipline sees it: the guard `backupLk` and the steps
taken so far. -/
structure Datastore where
  backupLk : sync.RWMutex
  trace : List Step
deriving DecidableEq, Repr

/-- A method of the guard called on `d.backupLk`; `none` when the call cannot return. -/
def Datastore.guard (d : Datastore) (f : sync.RWMutex → Option sync.RWMutex) :
    Option Datastore :=
  match f d.backupLk with
  | none => none
  | some lk => some ⟨lk, d.trace ++ [.guard d.backupLk lk]⟩

/-- A call on the child: its result `x`, whatever it is, comes back as it is. -/
def Datastore.child {α : Type} (d : Datastore) (c : ChildCall) (x : α) : α × Datastore :=
  (x, { d with trace := d.trace ++ [.call c d.backupLk] })

/-- The shape of `Put`, `Delete`, `Sync`, `Close` and of the batch's `Commit`: take the
lock through `lock`, register `unlock` as deferred, return what the child returns. -/
def Datastore.underLock {α : Type} (d : Datastore)
    (lock unlock : sync.RWMutex → Option sync.RWMutex) (c : ChildCall) (x : α) :
    Option (α × Datastore) :=
  match d.guard lock with
  | none => none
  | some d =>
    match d.child c x with
    | (r, d) =>
      match d.guard unlock with
      | none => none
      | some d => some (r, d)

/-- The method `Datastore.Get` (lines 113 to 115); `x` is what `d.child.Get` returns. -/
def Datastore.Get {α : Type} (d : Datastore) (x : α) : Option (α × Datastore) :=
  some (d.child .Get x)

/-- The method `Datastore.Has` (lines 117 to 119). -/
def Datastore.Has {α : Type} (d : Datastore) (x : α) : Option (α × Datastore) :=
  some (d.child .Has x)

/-- The method `Datastore.GetSize` (lines 121 to 123). -/
def Datastore.GetSize {α : Type} (d : Datastore) (x : α) : Option (α × Datastore) :=
  some (d.child .GetSize x)

/-- The method `Datastore.Query` (lines 125 to 127). -/
def Datastore.Query {α : Type} (d : Datastore) (x : α) : Option (α × Datastore) :=
  some (d.child .Query x)

/-- The method `Datastore.Put` (lines 129 to 134). -/
def Datastore.Put {α : Type} (d : Datastore) (x : α) : Option (α × Datastore) :=
  d.underLock sync.RWMutex.RLock sync.RWMutex.RUnlock .Put x

/-- The method `Datastore.Delete` (lines 136 to 141). -/
def Datastore.Delete {α : Type} (d : Datastore) (x : α) : Option (α × Datastore) :=
  d.underLock sync.RWMutex.RLock sync.RWMutex.RUnlock .Delete x

/-- The method `Datastore.Sync` (lines 143 to 148). -/
def Datastore.Sync {α : Type} (d : Datastore) (x : α) : Option (α × Datastore) :=
  d.underLock sync.RWMutex.RLock sync.RWMutex.RUnlock .Sync x

/-- The method `Datastore.Close` (lines 150 to 155). -/
def Datastore.Close {α : Type} (d : Datastore) (x : α) : Option (α × Datastore) :=
  d.underLock sync.RWMutex.RLock sync.RWMutex.RUnlock .Close x

/-- The type `bbatch` (lines 169 to 172): the child's batch and the read side of the
guard. -/
structure bbatch (β : Type) where
  b : β
  rlk : sync.Locker

/-- The method `Datastore.Batch` (lines 157 to 167); `x` is what `d.child.Batch`
returns. -/
def Datastore.Batch {β : Type} (d : Datastore) (x : Except GoError β) :
    Option (Except GoError (bbatch β) × Datastore) :=
  match d.child .Batch x with
  | (.error err, d) => some (.error err, d)
  | (.ok b, d) => some (.ok ⟨b, sync.RWMutex.RLocker⟩, d)

/-- The method `bbatch.Put` (lines 174 to 176). -/
def bbatch.Put {α β : Type} (_b : bbatch β) (d : Datastore) (x : α) : Option (α × Datastore) :=
  some (d.child .batchPut x)

/-- The method `bbatch.Delete` (lines 178 to 180). -/
def bbatch.Delete {α β : Type} (_b : bbatch β) (d : Datastore) (x : α) :
    Option (α × Datastore) :=
  some (d.child .batchDelete x)

/-- The method `bbatch.Commit` (lines 182 to 187): the lock is taken through `b.rlk`. -/
def bbatch.Commit {α β : Type} (b : bbatch β) (d : Datastore) (x : α) :
    Option (α × Datastore) :=
  d.underLock b.rlk.Lock b.rlk.Unlock .batchCommit x

/-- A `Write` on the sink made by `Backup`, the one numbered `s.writes`, with the guard as
it is. -/
def Datastore.write (d : Datastore) (s : BackupState) : Datastore :=
  { d with trace := d.trace ++ [.write s.writes d.backupLk] }

/-- The loop `for result := range qr.Next()` of `Backup` (datastore.go, lines 67 to 87),
as in `writeResults`, with the datastore: taking a result from the query and every
`Write` on the sink are steps. -/
def Datastore.writeResults (sink : Sink) :
    List query.Result → BackupState → Datastore → Option BackupError × BackupState × Datastore
  | [], s, d => (none, s, d)
  | result :: rest, s, d =>
    let d := (d.child .queryNext ()).2
    match WriteMajorTypeHeaderBuf (houtWrite sink) s cbg.MajArray 2, d.write s with
    | (some e, s), d => (some (.writingTupleHeader e), s, d)
    | (none, s), d =>
    match WriteMajorTypeHeaderBuf (houtWrite sink) s cbg.MajByteString
        result.Key.length, d.write s with
    | (some e, s), d => (some (.writingKeyHeader e), s, d)
    | (none, s), d =>
    match houtWrite sink s result.Key, d.write s with
    | (some e, s), d => (some (.writingKey e), s, d)
    | (none, s), d =>
    match WriteMajorTypeHeaderBuf (houtWrite sink) s cbg.MajByteString
        result.Value.length, d.write s with
    | (some e, s), d => (some (.writingValueHeader e), s, d)
    | (none, s), d =>
    match houtWrite sink s result.Value, d.write s with
    | (some e, s), d => (some (.writingValue e), s, d)
    | (none, s), d => Datastore.writeResults sink rest s d

/-- The return of `Backup` with the outcome `o`, once the guard is taken: the deferred
calls run in the reverse order of their registration, `qr.Close()` when the query was
opened, then `d.backupLk.Unlock()`. -/
def Datastore.returning (d : Datastore) (opened : Bool) (o : BackupOutcome) :
    Option (BackupOutcome × Datastore) :=
  match (if opened then (d.child .queryClose ()).2 else d).guard sync.RWMutex.Unlock with
  | none => none
  | some d => some (o, d)

/-- The method `Datastore.Backup` (datastore.go, lines 33 to 109), as in `Backup`, with the
datastore: every `Write` on the sink, the `Lock`, the calls on the child and on the query
and the deferred `Unlock` are steps; `none` when the call cannot return. -/
def Datastore.Backup (d : Datastore) (child : Child) (sink : Sink) :
    Option (BackupOutcome × Datastore) :=
  let s : BackupState := ⟨[], 0, [], []⟩
  match WriteMajorTypeHeaderBuf (outWrite sink) s cbg.MajArray 2, d.write s with
  | (some e, s), d => some (⟨some (.writingTupleHeader e), s⟩, d)
  | (none, s), d =>
  match houtWrite sink s [0x9f], d.write s with
  | (some e, s), d => some (⟨some (.writingHeader e), s⟩, d)
  | (none, s), d =>
  match d.guard sync.RWMutex.Lock with
  | none => none
  | some d =>
  let s := (s.emit .lock).emit .logStart
  match child.Query, (d.child .Query ()).2 with
  | .error e, d => d.returning false ⟨some (.query e), deferUnlock (s.emit (.queryOpen false))⟩
  | .ok qr, d =>
    let s := s.emit (.queryOpen true)
    match Datastore.writeResults sink qr.Next s d with
    | (some e, s, d) => d.returning true ⟨some e, deferUnlock (deferClose qr s)⟩
    | (none, s, d) =>
    match houtWrite sink s [0xff], d.write s with
    | (some e, s), d =>
      d.returning true ⟨some (.writingArrayBreak e), deferUnlock (deferClose qr s)⟩
    | (none, s), d =>
    let sum := sha256.Sum256 s.hasher
    match WriteMajorTypeHeaderBuf (houtWrite sink) s cbg.MajByteString sum.length,
        d.write s with
    | (some e, s), d =>
      d.returning true ⟨some (.writingChecksumHeader e), deferUnlock (deferClose qr s)⟩
    | (none, s), d =>
    match houtWrite sink s sum, d.write s with
    | (some e, s), d =>
      d.returning true ⟨some (.writingChecksum e), deferUnlock (deferClose qr s)⟩
    | (none, s), d => d.returning true ⟨none, deferUnlock (deferClose qr s)⟩

/-- The field the `i`-th of the five writes of an entry carries, as the error of a failed
write names it. -/
def entryError (i : Nat) (e : GoError) : BackupError :=
  match i with
  | 0 => .writingTupleHeader e
  | 1 => .writingKeyHeader e
  | 2 => .writingKey e
  | 3 => .writingValueHeader e
  | _ => .writingValue e

/-- The error `Backup` returns when write number `k` (from 0) of a backup of `n` results
fails with `e`: the outer header, the start marker, five writes for each result, the end
marker, the checksum's header, the checksum. -/
def writeError (n k : Nat) (e : GoError) : BackupError :=
  if k = 0 then .writingTupleHeader e
  else if k = 1 then .writingHeader e
  else if k < 2 + 5 * n then entryError ((k - 2) % 5) e
  else if k = 2 + 5 * n then .writingArrayBreak e
  else if k = 3 + 5 * n then .writingChecksumHeader e
  else .writingChecksum e

/-- The effects of a `Backup` whose query failed to open. -/
def failedOpenEvents : List Event :=
  [.lock, .logStart, .queryOpen false, .logDone, .unlock]

end backupds

/-! ## Lemmas on the header codec -/

namespace cbg

theorem first_small (l : Nat) (h : l < 24) :
    (((MajByteString <<< 5) ||| l) % 256 &&& 0xe0) >>> 5 = MajByteString ∧
      ((MajByteString <<< 5) ||| l) % 256 &&& 0x1f = l := by
  interval_cases l <;> decide

theorem first_const (n : Nat) (h : n = 24 ∨ n = 25 ∨ n = 26 ∨ n = 27) :
    (((MajByteString <<< 5) ||| n) % 256 &&& 0xe0) >>> 5 = MajByteString ∧
      ((MajByteString <<< 5) ||| n) % 256 &&& 0x1f = n := by
  rcases h with rfl | rfl | rfl | rfl <;> decide

theorem hdr_small (l : Nat) (h : l < 24) (rest : List Byte) :
    CborReadHeader (majorTypeHeader MajByteString l ++ rest) = (.ok (MajByteString, l), rest) := by
  obtain ⟨h1, h2⟩ := first_small l h
  simp only [CborReadHeader, majorTypeHeader, h, if_true, List.cons_append, List.nil_append,
    readByte, h1, h2]

theorem bigEndian_lt (bs : List Byte) (h : ∀ b ∈ bs, b < 256) :
    bigEndian bs < 2 ^ (8 * bs.length) := by
  induction bs with
  | nil => simp [bigEndian]
  | cons b rest ih =>
    have hb : b < 256 := h b (by simp)
    have hr := ih (fun x hx => h x (by simp [hx]))
    simp only [bigEndian, List.length_cons]
    rw [Nat.shiftLeft_eq, Nat.mul_comm b, ← Nat.mul_add_lt_is_or hr]
    have : 2 ^ (8 * (rest.length + 1)) = 256 * 2 ^ (8 * rest.length) := by
      rw [Nat.mul_add, Nat.pow_add]; ring
    rw [this]
    generalize 2 ^ (8 * rest.length) = P at *
    nlinarith [Nat.mul_le_mul_left P hb]

theorem bigEndian_cons (b : Byte) (rest : List Byte) (h : ∀ x ∈ rest, x < 256) :
    bigEndian (b :: rest) = b * 2 ^ (8 * rest.length) + bigEndian rest := by
  simp only [bigEndian]
  rw [Nat.shiftLeft_eq, Nat.mul_comm b, ← Nat.mul_add_lt_is_or (bigEndian_lt rest h)]

theorem bigEndian2 (l : Nat) (h : l < 2 ^ 16) :
    bigEndian [(l >>> 8) % 256, l % 256] = l := by
  rw [bigEndian_cons _ _ (by simp [Nat.mod_lt]),
    bigEndian_cons _ _ (by simp)]
  simp only [bigEndian, Nat.shiftRight_eq_div_pow, List.length_cons, List.length_nil]
  norm_num at h ⊢
  omega

theorem bigEndian4 (l : Nat) (h : l < 2 ^ 32) :
    bigEndian [(l >>> 24) % 256, (l >>> 16) % 256, (l >>> 8) % 256, l % 256] = l := by
  rw [bigEndian_cons _ _ (by simp [Nat.mod_lt]),
    bigEndian_cons _ _ (by simp [Nat.mod_lt]),
    bigEndian_cons _ _ (by simp [Nat.mod_lt]),
    bigEndian_cons _ _ (by simp)]
  simp only [bigEndian, Nat.shiftRight_eq_div_pow, List.length_cons, List.length_nil]
  norm_num at h ⊢
  omega

theorem bigEndian8 (l : Nat) (h : l < 2 ^ 64) :
    bigEndian [(l >>> 56) % 256, (l >>> 48) % 256, (l >>> 40) % 256, (l >>> 32) % 256,
      (l >>> 24) % 256, (l >>> 16) % 256, (l >>> 8) % 256, l % 256] = l := by
  rw [bigEndian_cons _ _ (by simp [Nat.mod_lt]),
    bigEndian_cons _ _ (by simp [Nat.mod_lt]),
    bigEndian_cons _ _ (by simp [Nat.mod_lt]),
    bigEndian_cons _ _ (by simp [Nat.mod_lt]),
    bigEndian_cons _ _ (by simp [Nat.mod_lt]),
    bigEndian_cons _ _ (by simp [Nat.mod_lt]),
    bigEndian_cons _ _ (by simp [Nat.mod_lt]),
    bigEndian_cons _ _ (by simp)]
  simp only [bigEndian, Nat.shiftRight_eq_div_pow, List.length_cons, List.length_nil]
  norm_num at h ⊢
  omega

/-- Reading back a header written by `majorTypeHeader` gives the major type and length. -/
theorem CborReadHeader_majorTypeHeader (l : Nat) (h : l < 2 ^ 64) (rest : List Byte) :
    CborReadHeader (majorTypeHeader MajByteString l ++ rest) = (.ok (MajByteString, l), rest) := by
  by_cases h0 : l < 24
  · exact hdr_small l h0 rest
  by_cases h1 : l < 256
  · obtain ⟨e1, e2⟩ := first_const 24 (by simp)
    have e3 : l % 256 = l := Nat.mod_eq_of_lt h1
    simp [CborReadHeader, majorTypeHeader, h0, h1, readByte, e1, e2, e3]
  by_cases h2 : l < 65536
  · obtain ⟨e1, e2⟩ := first_const 25 (by simp)
    have e3 := bigEndian2 l (by norm_num; exact h2)
    have e4 : ¬ l ≤ 255 := by omega
    simp [CborReadHeader, majorTypeHeader, h0, h1, h2, readByte, e1, e2, readAtLeast, e3, e4]
  by_cases h3 : l < 4294967296
  · obtain ⟨e1, e2⟩ := first_const 26 (by simp)
    have e3 := bigEndian4 l (by norm_num; exact h3)
    have e4 : ¬ l ≤ 65535 := by omega
    simp [CborReadHeader, majorTypeHeader, h0, h1, h2, h3, readByte, e1, e2, readAtLeast, e3, e4]
  · obtain ⟨e1, e2⟩ := first_const 27 (by simp)
    have e3 := bigEndian8 l h
    have e4 : ¬ l ≤ 4294967295 := by omega
    simp [CborReadHeader, majorTypeHeader, h0, h1, h2, h3, readByte, e1, e2, readAtLeast, e3, e4]

theorem CborReadHeader_take (l : Nat) (n : Nat)
    (hn : n < (majorTypeHeader MajByteString l).length) :
    CborReadHeader ((majorTypeHeader MajByteString l).take n) = (.error .eof, []) := by
  by_cases h0 : l < 24
  · simp [majorTypeHeader, h0] at hn ⊢
    subst hn
    simp [CborReadHeader, readByte]
  by_cases h1 : l < 256
  · obtain ⟨e1, e2⟩ := first_const 24 (by simp)
    simp [majorTypeHeader, h0, h1] at hn ⊢
    interval_cases n <;> simp [CborReadHeader, readByte, e1, e2]
  by_cases h2 : l < 65536
  · obtain ⟨e1, e2⟩ := first_const 25 (by simp)
    simp [majorTypeHeader, h0, h1, h2] at hn ⊢
    interval_cases n <;> simp [CborReadHeader, readByte, readAtLeast, e1, e2]
  by_cases h3 : l < 4294967296
  · obtain ⟨e1, e2⟩ := first_const 26 (by simp)
    simp [majorTypeHeader, h0, h1, h2, h3] at hn ⊢
    interval_cases n <;> simp [CborReadHeader, readByte, readAtLeast, e1, e2]
  · obtain ⟨e1, e2⟩ := first_const 27 (by simp)
    simp [majorTypeHeader, h0, h1, h2, h3] at hn ⊢
    interval_cases n <;> simp [CborReadHeader, readByte, readAtLeast, e1, e2]

theorem readAtLeast_rest_le (r : List Byte) (n : Nat) : (readAtLeast r n).2.length ≤ r.length := by
  unfold readAtLeast
  split <;> simp

theorem CborReadHeader_rest_le (r : List Byte) : (CborReadHeader r).2.length ≤ r.length := by
  cases r with
  | nil => simp [CborReadHeader, readByte]
  | cons b r1 =>
    simp only [CborReadHeader, readByte]
    split_ifs
    · simp
    · cases r1 with
      | nil => simp
      | cons c r2 =>
        simp only
        split_ifs <;> simp <;> omega
    · have := readAtLeast_rest_le r1 2
      rcases h : readAtLeast r1 2 with ⟨_ | _, r2⟩ <;> simp [h] at this ⊢
      · omega
      · split_ifs <;> simp <;> omega
    · have := readAtLeast_rest_le r1 4
      rcases h : readAtLeast r1 4 with ⟨_ | _, r2⟩ <;> simp [h] at this ⊢
      · omega
      · split_ifs <;> simp <;> omega
    · have := readAtLeast_rest_le r1 8
      rcases h : readAtLeast r1 8 with ⟨_ | _, r2⟩ <;> simp [h] at this ⊢
      · omega
      · split_ifs <;> simp <;> omega
    · simp

theorem ReadByteArray_rest_le (r : List Byte) (m : Nat) :
    (ReadByteArray r m).2.length ≤ r.length := by
  have h1 := CborReadHeader_rest_le r
  unfold ReadByteArray
  rcases h : CborReadHeader r with ⟨_ | ⟨maj, extra⟩, r2⟩ <;> simp [h] at h1 ⊢
  · exact h1
  · split_ifs <;> first | exact h1 | exact le_trans (readAtLeast_rest_le r2 extra) h1

end cbg

/-! ## Lemmas on the digest and on byte strings -/

namespace sha256

theorem Sum256_length (data : List Byte) : (Sum256 data).length = 32 := by
  simp [Sum256, be32]

end sha256

namespace backupds

open cbg

theorem maxField_lt : maxField < 2 ^ 64 := by decide

theorem ReadByteArray_byteString (b rest : List Byte) (maxlen : Nat)
    (h : b.length ≤ maxlen) (h64 : b.length < 2 ^ 64) :
    ReadByteArray (byteString b ++ rest) maxlen = (.ok b, rest) := by
  have hn : ¬ b.length > maxlen := by omega
  simp [ReadByteArray, byteString, List.append_assoc,
    CborReadHeader_majorTypeHeader b.length h64, readAtLeast, hn]

theorem ReadByteArray_tooLong (b rest : List Byte) (maxlen : Nat)
    (h : maxlen < b.length) (h64 : b.length < 2 ^ 64) :
    ReadByteArray (byteString b ++ rest) maxlen = (.error (.tooLong maxlen), b ++ rest) := by
  simp [ReadByteArray, byteString, List.append_assoc,
    CborReadHeader_majorTypeHeader b.length h64, h]

/-- A byte string cut short is answered with the end of the source. -/
theorem ReadByteArray_take (b : List Byte) (maxlen n : Nat)
    (h : b.length ≤ maxlen) (h64 : b.length < 2 ^ 64) (hn : n < (byteString b).length) :
    ReadByteArray ((byteString b).take n) maxlen = (.error .eof, []) := by
  by_cases hh : n < (majorTypeHeader MajByteString b.length).length
  · have e : (byteString b).take n = (majorTypeHeader MajByteString b.length).take n := by
      rw [byteString, List.take_append_of_le_length (le_of_lt hh)]
    rw [e]
    simp [ReadByteArray, CborReadHeader_take b.length n hh]
  · have hle : (majorTypeHeader MajByteString b.length).length ≤ n := by omega
    have e : (byteString b).take n = majorTypeHeader MajByteString b.length ++
        b.take (n - (majorTypeHeader MajByteString b.length).length) := by
      rw [byteString, List.take_append_eq_append_take, List.take_of_length_le hle]
    have hb : n - (majorTypeHeader MajByteString b.length).length < b.length := by
      simp [byteString] at hn; omega
    have hgt : ¬ b.length > maxlen := by omega
    rw [e]
    simp only [ReadByteArray, CborReadHeader_majorTypeHeader b.length h64, readAtLeast]
    simp [hgt]
    omega

/-- A byte string declared longer than `maxlen`, cut anywhere or not at all, is answered
with the end of the source or with the size-limit error. -/
theorem ReadByteArray_take_tooLong (b x : List Byte) (maxlen n : Nat)
    (h : maxlen < b.length) (h64 : b.length < 2 ^ 64) :
    (∃ r, ReadByteArray ((byteString b ++ x).take n) maxlen = (.error .eof, r)) ∨
      (∃ r, ReadByteArray ((byteString b ++ x).take n) maxlen = (.error (.tooLong maxlen), r)) := by
  by_cases hh : n < (majorTypeHeader MajByteString b.length).length
  · left
    refine ⟨[], ?_⟩
    have e : (byteString b ++ x).take n = (majorTypeHeader MajByteString b.length).take n := by
      rw [byteString, List.append_assoc, List.take_append_of_le_length (le_of_lt hh)]
    rw [e]
    simp [ReadByteArray, CborReadHeader_take b.length n hh]
  · right
    refine ⟨(b ++ x).take (n - (majorTypeHeader MajByteString b.length).length), ?_⟩
    have hle : (majorTypeHeader MajByteString b.length).length ≤ n := by omega
    have e : (byteString b ++ x).take n = majorTypeHeader MajByteString b.length ++
        (b ++ x).take (n - (majorTypeHeader MajByteString b.length).length) := by
      rw [byteString, List.append_assoc, List.take_append_eq_append_take,
        List.take_of_length_le hle]
    rw [e]
    simp [ReadByteArray, CborReadHeader_majorTypeHeader b.length h64, h]

theorem arrayHeader2 : cbg.majorTypeHeader cbg.MajArray 2 = [0x82] := by decide

theorem checksumHeader : cbg.majorTypeHeader cbg.MajByteString 32 = [0x58, 0x20] := by decide

end backupds

/-! ## Lemmas on `Backup` -/

namespace backupds

theorem entriesBytes_append (a b : List Entry) :
    entriesBytes (a ++ b) = entriesBytes a ++ entriesBytes b := by
  induction a with
  | nil => simp [entriesBytes]
  | cons e rest ih => simp [entriesBytes, ih]

theorem entriesBytes_flatMap (rs : List query.Result) :
    entriesBytes (entriesOf rs) =
      rs.flatMap (fun r =>
        0x82 :: (cbg.majorTypeHeader cbg.MajByteString r.Key.length ++ r.Key ++
          (cbg.majorTypeHeader cbg.MajByteString r.Value.length ++ r.Value))) := by
  induction rs with
  | nil => rfl
  | cons r rest ih =>
    simp only [entriesOf, List.map_cons, entriesBytes, List.flatMap_cons] at ih ⊢
    rw [ih]
    simp [entryBytes, byteString]

theorem length_le_entriesBytes (es : List Entry) : es.length ≤ (entriesBytes es).length := by
  induction es with
  | nil => simp
  | cons e rest ih => simp [entriesBytes, entryBytes]; omega

/-- With a sink that never fails the loop of `Backup` appends the entries, each with five
writes, to sink and hasher alike. -/
theorem writeResults_neverFails (rs : List query.Result) (s : BackupState) :
    writeResults neverFails rs s =
      (none, ⟨s.out ++ entriesBytes (entriesOf rs), s.writes + 5 * rs.length,
        s.hasher ++ entriesBytes (entriesOf rs), s.events⟩) := by
  induction rs generalizing s with
  | nil => simp [writeResults, entriesOf, entriesBytes]
  | cons r rest ih =>
    simp only [writeResults, WriteMajorTypeHeaderBuf, houtWrite, outWrite, neverFails, ih,
      arrayHeader2]
    simp [entriesOf, entriesBytes, entryBytes, byteString]
    omega

/-- The outcome of `Backup` on a sink that never fails and a query that opens. -/
theorem Backup_neverFails (qr : query.Results) :
    Backup ⟨.ok qr⟩ neverFails =
      ⟨none, ⟨envelope (entriesOf qr.Next), 5 * qr.Next.length + 5,
        entryStream (entriesOf qr.Next) ++ byteString (sha256.Sum256 (entryStream (entriesOf qr.Next))),
        backupEvents qr⟩⟩ := by
  simp only [Backup, WriteMajorTypeHeaderBuf, houtWrite, outWrite, neverFails,
    writeResults_neverFails, writeChecksum, sha256.Sum256_length, arrayHeader2, checksumHeader,
    BackupState.emit, deferUnlock, deferClose]
  cases hc : qr.Close <;>
    simp [envelope, entryStream, byteString, sha256.Sum256_length, checksumHeader, backupEvents,
      hc, BackupState.emit] <;> omega

theorem entriesOf_storeOf (es : List Entry) :
    entriesOf (es.map (fun e => (⟨e.1, e.2, none⟩ : query.Result))) = es := by
  induction es with
  | nil => rfl
  | cons e rest ih => simp_all [entriesOf]

/-- The bytes written for a store with entries `es` are the envelope of `es`. -/
theorem backupBytes_eq (es : List Entry) : backupBytes es = envelope es := by
  simp only [backupBytes, storeOf, Backup_neverFails, entriesOf_storeOf]

theorem envelope_length (es : List Entry) :
    (envelope es).length = (entriesBytes es).length + 37 := by
  simp [envelope, entryStream, byteString, sha256.Sum256_length, checksumHeader]

theorem envelope_take (es : List Entry) (m : Nat) (hm : m ≤ (entriesBytes es).length + 1) :
    (envelope es).take (m + 2) = 0x82 :: 0x9f :: (entriesBytes es ++ [0xff]).take m := by
  have h : m ≤ (entriesBytes es ++ [0xff]).length := by simp; omega
  simp only [envelope, entryStream, List.cons_append, List.take_succ_cons]
  rw [List.take_append_of_le_length h]

theorem envelope_take_stream (es : List Entry) :
    (envelope es).take ((envelope es).length - 34) = 0x82 :: entryStream es := by
  have h : (envelope es).length - 34 = ((entriesBytes es).length + 1) + 2 := by
    rw [envelope_length]; omega
  rw [h, envelope_take es _ (le_refl _), List.take_of_length_le (by simp), entryStream]

end backupds

/-! ## Lemmas on `ReadBackup` -/

namespace backupds

open cbg

theorem delivered_fixed (es : List Entry) (h : ∀ e ∈ es, datastore.NewKey e.1 = e.1) :
    delivered es = es := by
  induction es with
  | nil => rfl
  | cons e rest ih =>
    have he := h e (by simp)
    have hr := ih (fun x hx => h x (by simp [hx]))
    simp only [delivered, List.map_cons] at hr ⊢
    rw [hr, he]

theorem accepts_okCallback (calls : List (datastore.Key × List Byte)) (es : List Entry) :
    accepts okCallback calls es := by
  induction es generalizing calls with
  | nil => simp [accepts]
  | cons e rest ih => exact ⟨rfl, ih _⟩

theorem fieldsFit_append (a b : List Entry) : fieldsFit (a ++ b) ↔ fieldsFit a ∧ fieldsFit b := by
  constructor
  · intro h
    exact ⟨fun e he => h e (List.mem_append_left _ he), fun e he => h e (List.mem_append_right _ he)⟩
  · rintro ⟨h1, h2⟩ e he
    rcases List.mem_append.1 he with h | h
    · exact h1 e h
    · exact h2 e h

theorem fieldsFit_cons (e : Entry) (b : List Entry) :
    fieldsFit (e :: b) ↔ (e.1.length ≤ maxField ∧ e.2.length ≤ maxField) ∧ fieldsFit b := by
  simp [fieldsFit]

/-- One turn of the loop on a well-formed entry the callback accepts. -/
theorem readLoop_entry (cb : Callback) (fuel : Nat) (e : Entry) (tail hasher : List Byte)
    (calls : List (datastore.Key × List Byte))
    (hk : e.1.length ≤ maxField) (hv : e.2.length ≤ maxField) :
    readLoop cb (fuel + 1) (entryBytes e ++ tail) hasher calls =
      match cb calls (datastore.NewKey e.1) e.2 with
      | some err => some (.ret ⟨some (.callback err), calls ++ [(datastore.NewKey e.1, e.2)], tail⟩)
      | none => readLoop cb fuel tail (hasher ++ entryBytes e)
          (calls ++ [(datastore.NewKey e.1, e.2)]) := by
  have hk64 : e.1.length < 2 ^ 64 := lt_of_le_of_lt hk maxField_lt
  have hv64 : e.2.length < 2 ^ 64 := lt_of_le_of_lt hv maxField_lt
  have h1 := ReadByteArray_byteString e.1 (byteString e.2 ++ tail) 1099511627776 hk hk64
  have h2 := ReadByteArray_byteString e.2 tail 1099511627776 hv hv64
  rw [readLoop]
  simp [entryBytes, readByte, tee, h1, h2]

/-- The loop runs through a prefix of well-formed entries that the callback accepts. -/
theorem readLoop_entries (cb : Callback) (es : List Entry) (hfit : fieldsFit es) :
    ∀ (fuel : Nat) (tail hasher : List Byte) (calls : List (datastore.Key × List Byte)),
      accepts cb calls es →
      readLoop cb (es.length + fuel) (entriesBytes es ++ tail) hasher calls =
        readLoop cb fuel tail (hasher ++ entriesBytes es) (calls ++ delivered es) := by
  induction es with
  | nil => intro fuel tail hasher calls _; simp [entriesBytes, delivered]
  | cons e rest ih =>
    intro fuel tail hasher calls hacc
    have he := hfit e (by simp)
    have hrest : fieldsFit rest := fun x hx => hfit x (by simp [hx])
    obtain ⟨h1, h2⟩ := hacc
    have hf : (e :: rest).length + fuel = (rest.length + fuel) + 1 := by simp; omega
    rw [hf]
    simp only [entriesBytes, List.append_assoc]
    rw [readLoop_entry cb _ e _ hasher calls he.1 he.2, h1]
    simp only
    rw [ih hrest fuel tail _ _ h2]
    simp [delivered]

/-- At the end marker the loop breaks. -/
theorem readLoop_break (cb : Callback) (fuel : Nat) (tail hasher : List Byte)
    (calls : List (datastore.Key × List Byte)) :
    readLoop cb (fuel + 1) (0xff :: tail) hasher calls =
      some (.brk tail (hasher ++ [0xff]) calls) := by
  simp [readLoop, cbg.readByte, tee]

/-- A value declared longer than `1<<40` bytes ends the loop before its payload is read. -/
theorem readLoop_valueTooLong (cb : Callback) (fuel : Nat) (k v tail hasher : List Byte)
    (calls : List (datastore.Key × List Byte))
    (hk : k.length ≤ maxField) (hv : maxField < v.length) (hv64 : v.length < 2 ^ 64) :
    readLoop cb (fuel + 1) (entryBytes (k, v) ++ tail) hasher calls =
      some (.ret ⟨some (.readingValue (.tooLong 1099511627776)), calls, v ++ tail⟩) := by
  have hk64 : k.length < 2 ^ 64 := lt_of_le_of_lt hk maxField_lt
  have h1 := ReadByteArray_byteString k (byteString v ++ tail) 1099511627776 hk hk64
  have h2 := ReadByteArray_tooLong v tail 1099511627776 hv hv64
  rw [readLoop]
  simp [entryBytes, cbg.readByte, tee, h1, h2]

/-- A key declared longer than `1<<40` bytes ends the loop before its payload is read. -/
theorem readLoop_keyTooLong (cb : Callback) (fuel : Nat) (k tail hasher : List Byte)
    (calls : List (datastore.Key × List Byte))
    (hk : maxField < k.length) (hk64 : k.length < 2 ^ 64) :
    readLoop cb (fuel + 1) (0x82 :: (byteString k ++ tail)) hasher calls =
      some (.ret ⟨some (.readingKey (.tooLong 1099511627776)), calls, k ++ tail⟩) := by
  have h1 := ReadByteArray_tooLong k tail 1099511627776 hk hk64
  rw [readLoop]
  simp [cbg.readByte, tee, h1]

/-- An entry cut short ends the loop with the end of the source. -/
theorem readLoop_entry_take (cb : Callback) (fuel : Nat) (e : Entry) (hasher : List Byte)
    (calls : List (datastore.Key × List Byte)) (n : Nat)
    (hk : e.1.length ≤ maxField) (hv : e.2.length ≤ maxField)
    (hn : n < (entryBytes e).length) :
    ∃ err, err.isIoError = true ∧
      readLoop cb (fuel + 1) ((entryBytes e).take n) hasher calls =
        some (.ret ⟨some err, calls, []⟩) := by
  have hk64 : e.1.length < 2 ^ 64 := lt_of_le_of_lt hk maxField_lt
  have hv64 : e.2.length < 2 ^ 64 := lt_of_le_of_lt hv maxField_lt
  cases n with
  | zero =>
    exact ⟨.readingTupleHeader .eof, rfl, by simp [readLoop, cbg.readByte, tee]⟩
  | succ m =>
    have hm : m < (byteString e.1).length + (byteString e.2).length := by
      simp [entryBytes] at hn; omega
    by_cases hh : m < (byteString e.1).length
    · refine ⟨.readingKey .eof, rfl, ?_⟩
      have h1 := ReadByteArray_take e.1 1099511627776 m hk hk64 hh
      rw [readLoop]
      simp [entryBytes, List.take_append_of_le_length (le_of_lt hh), cbg.readByte, tee, h1]
    · refine ⟨.readingValue .eof, rfl, ?_⟩
      have hle : (byteString e.1).length ≤ m := by omega
      have h1 := ReadByteArray_byteString e.1 ((byteString e.2).take (m - (byteString e.1).length))
        1099511627776 hk hk64
      have h2 := ReadByteArray_take e.2 1099511627776 (m - (byteString e.1).length) hv hv64
        (by omega)
      rw [readLoop]
      simp [entryBytes, List.take_append_eq_append_take, List.take_of_length_le hle,
        cbg.readByte, tee, h1, h2]

/-- An entry with a key or a value above `1<<40` bytes, cut anywhere or not at all, ends
the loop with the end of the source or with the size-limit error. -/
theorem readLoop_entry_oversized (cb : Callback) (fuel : Nat) (e : Entry)
    (x hasher : List Byte) (calls : List (datastore.Key × List Byte)) (n : Nat)
    (hk64 : e.1.length < 2 ^ 64) (hv64 : e.2.length < 2 ^ 64)
    (hbig : ¬ (e.1.length ≤ maxField ∧ e.2.length ≤ maxField)) :
    ∃ err r, (err.isIoError = true ∨ err.isSizeLimitError = true) ∧
      readLoop cb (fuel + 1) ((entryBytes e ++ x).take n) hasher calls =
        some (.ret ⟨some err, calls, r⟩) := by
  cases n with
  | zero =>
    exact ⟨.readingTupleHeader .eof, [], Or.inl rfl, by simp [readLoop, cbg.readByte, tee]⟩
  | succ m =>
    have e0 : (entryBytes e ++ x).take (m + 1) =
        0x82 :: (byteString e.1 ++ (byteString e.2 ++ x)).take m := by
      simp [entryBytes]
    rw [e0]
    by_cases hk : e.1.length ≤ maxField
    · have hv : maxField < e.2.length := by
        by_contra hc
        exact hbig ⟨hk, by omega⟩
      by_cases hh : m < (byteString e.1).length
      · have h1 := ReadByteArray_take e.1 1099511627776 m hk hk64 hh
        refine ⟨.readingKey .eof, [], Or.inl rfl, ?_⟩
        rw [readLoop]
        simp [List.take_append_of_le_length (le_of_lt hh), cbg.readByte, tee, h1]
      · have hle : (byteString e.1).length ≤ m := by omega
        have h1 := ReadByteArray_byteString e.1
          ((byteString e.2 ++ x).take (m - (byteString e.1).length)) 1099511627776 hk hk64
        have e1 : (byteString e.1 ++ (byteString e.2 ++ x)).take m =
            byteString e.1 ++ (byteString e.2 ++ x).take (m - (byteString e.1).length) := by
          rw [List.take_append_eq_append_take, List.take_of_length_le hle]
        rcases ReadByteArray_take_tooLong e.2 x 1099511627776 (m - (byteString e.1).length)
          hv hv64 with ⟨r2, h2⟩ | ⟨r2, h2⟩
        · refine ⟨.readingValue .eof, r2, Or.inl rfl, ?_⟩
          rw [readLoop, e1]
          simp only [cbg.readByte, tee]
          simp [h1, h2]
        · refine ⟨.readingValue (.tooLong 1099511627776), r2, Or.inr rfl, ?_⟩
          rw [readLoop, e1]
          simp only [cbg.readByte, tee]
          simp [h1, h2]
    · have hk2 : maxField < e.1.length := by omega
      rcases ReadByteArray_take_tooLong e.1 (byteString e.2 ++ x) 1099511627776 m hk2 hk64
        with ⟨r1, h1⟩ | ⟨r1, h1⟩
      · refine ⟨.readingKey .eof, r1, Or.inl rfl, ?_⟩
        rw [readLoop]
        simp only [cbg.readByte, tee]
        simp [h1]
      · refine ⟨.readingKey (.tooLong 1099511627776), r1, Or.inr rfl, ?_⟩
        rw [readLoop]
        simp only [cbg.readByte, tee]
        simp [h1]

/-- An entry stream cut short, or holding a key or value above `1<<40` bytes, ends the loop
with the end of the source or, in the second case only, with the size-limit error. -/
theorem readLoop_cut (es : List Entry) (h64 : fieldsGo es) :
    ∀ (n fuel : Nat) (hasher : List Byte) (calls : List (datastore.Key × List Byte)),
      (n < (entriesBytes es ++ [0xff]).length ∨ ¬ fieldsFit es) →
      ((entriesBytes es ++ [0xff]).take n).length < fuel →
      ∃ err c r, (err.isIoError = true ∨ (err.isSizeLimitError = true ∧ ¬ fieldsFit es)) ∧
        readLoop okCallback fuel ((entriesBytes es ++ [0xff]).take n) hasher calls =
          some (.ret ⟨some err, c, r⟩) := by
  induction es with
  | nil =>
    intro n fuel hasher calls hn hf
    have h0 : n = 0 := by
      rcases hn with hn | hn
      · simp [entriesBytes] at hn; exact hn
      · exact absurd (by simp [fieldsFit]) hn
    subst h0
    obtain ⟨f, rfl⟩ : ∃ f, fuel = f + 1 := ⟨fuel - 1, by omega⟩
    exact ⟨.readingTupleHeader .eof, calls, [], Or.inl rfl, by simp [readLoop, cbg.readByte, tee]⟩
  | cons e rest ih =>
    intro n fuel hasher calls hn hf
    have he64 := h64 e (by simp)
    have hrest64 : fieldsGo rest := fun x hx => h64 x (by simp [hx])
    obtain ⟨f, rfl⟩ : ∃ f, fuel = f + 1 := ⟨fuel - 1, by omega⟩
    have hs : entriesBytes (e :: rest) ++ [0xff] = entryBytes e ++ (entriesBytes rest ++ [0xff]) := by
      simp [entriesBytes]
    rw [hs] at hn hf ⊢
    by_cases hfit : e.1.length ≤ maxField ∧ e.2.length ≤ maxField
    · by_cases hh : n < (entryBytes e).length
      · obtain ⟨err, herr, hrun⟩ :=
          readLoop_entry_take okCallback f e hasher calls n hfit.1 hfit.2 hh
        refine ⟨err, calls, [], Or.inl herr, ?_⟩
        rw [List.take_append_of_le_length (le_of_lt hh)]
        exact hrun
      · have hle : (entryBytes e).length ≤ n := by omega
        have hpos : 0 < (entryBytes e).length := by simp [entryBytes]
        have e1 : (entryBytes e ++ (entriesBytes rest ++ [0xff])).take n =
            entryBytes e ++ (entriesBytes rest ++ [0xff]).take (n - (entryBytes e).length) := by
          rw [List.take_append_eq_append_take, List.take_of_length_le hle]
        rw [e1] at hf ⊢
        have hn2 : n - (entryBytes e).length < (entriesBytes rest ++ [0xff]).length ∨
            ¬ fieldsFit rest := by
          rcases hn with hn | hn
          · left
            simp only [List.length_append] at hn ⊢
            omega
          · right
            intro hr
            exact hn ((fieldsFit_cons e rest).2 ⟨hfit, hr⟩)
        obtain ⟨err, c, r, herr, hrun⟩ := ih hrest64 (n - (entryBytes e).length) f
          (hasher ++ entryBytes e) (calls ++ [(datastore.NewKey e.1, e.2)]) hn2
          (by simp only [List.length_append] at hf; omega)
        refine ⟨err, c, r, ?_, ?_⟩
        · rcases herr with h | ⟨h, hnf⟩
          · exact Or.inl h
          · exact Or.inr ⟨h, fun hc => hnf ((fieldsFit_cons e rest).1 hc).2⟩
        · rw [readLoop_entry okCallback f e _ hasher calls hfit.1 hfit.2]
          exact hrun
    · obtain ⟨err, r, herr, hrun⟩ := readLoop_entry_oversized okCallback f e
        (entriesBytes rest ++ [0xff]) hasher calls n he64.1 he64.2 hfit
      refine ⟨err, calls, r, ?_, hrun⟩
      rcases herr with h | h
      · exact Or.inl h
      · exact Or.inr ⟨h, fun hc => hfit ((fieldsFit_cons e rest).1 hc).1⟩

/-- The loop of `ReadBackup` never uses up a number of turns above the length of its source. -/
theorem readLoop_total (cb : Callback) :
    ∀ (fuel : Nat) (r hasher : List Byte) (calls : List (datastore.Key × List Byte)),
      r.length < fuel → readLoop cb fuel r hasher calls ≠ none := by
  intro fuel
  induction fuel with
  | zero => intro r hasher calls h; omega
  | succ f ih =>
    intro r hasher calls h
    cases r with
    | nil => simp [readLoop, cbg.readByte, tee]
    | cons b r1 =>
      have hk := cbg.ReadByteArray_rest_le r1 1099511627776
      rw [readLoop]
      simp only [cbg.readByte, tee]
      split_ifs
      · simp
      · simp
      · rcases h1 : cbg.ReadByteArray r1 (1 <<< 40) with ⟨_ | keyb, r2⟩
        · simp
        · have hv := cbg.ReadByteArray_rest_le r2 1099511627776
          simp only
          rcases h2 : cbg.ReadByteArray r2 (1 <<< 40) with ⟨_ | value, r3⟩
          · simp
          · simp only
            cases cb calls (datastore.NewKey keyb) value with
            | some e => simp
            | none =>
              simp only
              apply ih
              have e1 : (1 <<< 40 : Nat) = 1099511627776 := by decide
              rw [e1] at h1 h2
              rw [h1] at hk
              rw [h2] at hv
              simp at hk hv h
              omega

/-- After the two header bytes `ReadBackup` is its loop followed by the checksum stage. -/
theorem ReadBackup_start (cb : Callback) (r : List Byte) :
    ReadBackup (0x82 :: 0x9f :: r) cb =
      match readLoop cb (r.length + 1) r [0x9f] [] with
      | none => none
      | some (.ret o) => some o
      | some (.brk r hasher calls) => some (checksumStage hasher calls r) := by
  simp only [ReadBackup, cbg.readByte, tee, checksumStage]
  simp
  cases readLoop cb (r.length + 1) r [159] [] with
  | none => rfl
  | some x =>
    cases x with
    | ret o => rfl
    | brk r1 h1 c1 =>
      simp only
      rcases cbg.ReadByteArray r1 32 with ⟨_ | _, _⟩
      · rfl
      · simp only; split <;> rfl

/-- The function `ReadBackup` returns on every source and with every callback. -/
theorem ReadBackup_total (r : List Byte) (cb : Callback) : ReadBackup r cb ≠ none := by
  cases r with
  | nil => simp [ReadBackup, cbg.readByte]
  | cons b r1 =>
    by_cases hb : b = 0x82
    · subst hb
      cases r1 with
      | nil => simp [ReadBackup, cbg.readByte, tee]
      | cons b2 r2 =>
        by_cases hb2 : b2 = 0x9f
        · subst hb2
          rw [ReadBackup_start]
          have := readLoop_total cb (r2.length + 1) r2 [0x9f] [] (by omega)
          rcases h : readLoop cb (r2.length + 1) r2 [0x9f] [] with _ | x
          · exact absurd h this
          · cases x <;> simp
        · simp [ReadBackup, cbg.readByte, tee, hb2]
    · simp [ReadBackup, cbg.readByte, hb]

/-- On an entry stream of well-formed entries that the callback accepts, `ReadBackup`
reaches the checksum stage with every entry delivered. -/
theorem ReadBackup_stream (cb : Callback) (es : List Entry) (hfit : fieldsFit es)
    (hacc : accepts cb [] es) (tail : List Byte) :
    ReadBackup (0x82 :: (entryStream es ++ tail)) cb =
      some (checksumStage (entryStream es) (delivered es) tail) := by
  have hlen := length_le_entriesBytes es
  have hf : (entriesBytes es ++ 0xff :: tail).length + 1 =
      es.length + (((entriesBytes es).length - es.length + tail.length + 1) + 1) := by
    simp; omega
  have h1 := readLoop_entries cb es hfit
    (((entriesBytes es).length - es.length + tail.length + 1) + 1) (0xff :: tail) [0x9f] [] hacc
  rw [readLoop_break, ← hf] at h1
  have hs : entryStream es ++ tail = 0x9f :: (entriesBytes es ++ 0xff :: tail) := by
    simp [entryStream]
  rw [hs, ReadBackup_start, h1]
  simp [entryStream]

/-- Past a prefix of well-formed entries that the callback accepts, `ReadBackup` goes on
with its loop on what follows. -/
theorem ReadBackup_after (cb : Callback) (es : List Entry) (hfit : fieldsFit es)
    (hacc : accepts cb [] es) (x : List Byte) :
    ReadBackup (0x82 :: 0x9f :: (entriesBytes es ++ x)) cb =
      match readLoop cb ((entriesBytes es).length - es.length + x.length + 1) x
          (0x9f :: entriesBytes es) (delivered es) with
      | none => none
      | some (.ret o) => some o
      | some (.brk r hasher calls) => some (checksumStage hasher calls r) := by
  have hlen := length_le_entriesBytes es
  have hf : (entriesBytes es ++ x).length + 1 =
      es.length + ((entriesBytes es).length - es.length + x.length + 1) := by
    simp; omega
  have h1 := readLoop_entries cb es hfit
    ((entriesBytes es).length - es.length + x.length + 1) x [0x9f] [] hacc
  rw [← hf] at h1
  rw [ReadBackup_start, h1]
  simp

/-- The checksum stage on a byte string of at most 32 bytes: a byte-for-byte comparison
with the digest of the stream. -/
theorem checksumStage_byteString (stream cs tail : List Byte)
    (calls : List (datastore.Key × List Byte)) (h : cs.length ≤ 32) :
    checksumStage stream calls (byteString cs ++ tail) =
      if sha256.Sum256 stream = cs then ⟨none, calls, tail⟩
      else ⟨some (.checksumMismatch cs (sha256.Sum256 stream)), calls, tail⟩ := by
  have h64 : cs.length < 2 ^ 64 := lt_of_le_of_lt h (by decide)
  simp only [checksumStage, ReadByteArray_byteString cs tail 32 h h64]
  split <;> simp_all

/-- The envelope written for `es` with the entry stream replaced by that of `es2`,
the checksum field left as written: what `ReadBackup` makes of it. -/
theorem ReadBackup_swapped (es es2 : List Entry) (hfit : fieldsFit es2) :
    ReadBackup (0x82 :: (entryStream es2 ++ byteString (sha256.Sum256 (entryStream es))))
        okCallback =
      some ⟨if sha256.Sum256 (entryStream es2) = sha256.Sum256 (entryStream es) then none
          else some (.checksumMismatch (sha256.Sum256 (entryStream es))
            (sha256.Sum256 (entryStream es2))),
        delivered es2, []⟩ := by
  have hs := checksumStage_byteString (entryStream es2) (sha256.Sum256 (entryStream es)) []
    (delivered es2) (by rw [sha256.Sum256_length])
  rw [List.append_nil] at hs
  rw [ReadBackup_stream okCallback es2 hfit (accepts_okCallback [] es2), hs]
  split <;> rfl

end backupds

/-! ## Lemmas on flipped bits -/

namespace backupds

theorem flipBit_length (a : List Byte) : ∀ n, (flipBit a n).length = a.length := by
  induction a with
  | nil => intro n; rfl
  | cons x rest ih =>
    intro n
    by_cases h : n < 8 <;> simp [flipBit, h, ih]

theorem flipBit_append (a b : List Byte) (n : Nat) :
    flipBit (a ++ b) (8 * a.length + n) = a ++ flipBit b n := by
  induction a with
  | nil => simp
  | cons x rest ih =>
    have h : ¬ (8 * (rest.length + 1) + n < 8) := by omega
    have e : 8 * (rest.length + 1) + n - 8 = 8 * rest.length + n := by omega
    simp [flipBit, h, e, ih]

theorem flipBit_append_left (a b : List Byte) :
    ∀ n, n < 8 * a.length → flipBit (a ++ b) n = flipBit a n ++ b := by
  induction a with
  | nil => intro n hn; simp at hn
  | cons x rest ih =>
    intro n hn
    by_cases h : n < 8
    · simp [flipBit, h]
    · have hn2 : n - 8 < 8 * rest.length := by simp at hn; omega
      simp [flipBit, h, ih (n - 8) hn2]

/-- A bit flipped in the payload of a key leaves the framing as it was. -/
theorem flipBit_key (es1 es2 : List Entry) (k v : List Byte) (n : Nat) (hn : n < 8 * k.length) :
    flipBit (envelope (es1 ++ (k, v) :: es2)) (8 * keyOffset es1 k + n) =
      0x82 :: (entryStream (es1 ++ (flipBit k n, v) :: es2) ++
        byteString (sha256.Sum256 (entryStream (es1 ++ (k, v) :: es2)))) := by
  have e1 : envelope (es1 ++ (k, v) :: es2) =
      (0x82 :: 0x9f :: (entriesBytes es1 ++
        0x82 :: cbg.majorTypeHeader cbg.MajByteString k.length)) ++
      (k ++ (byteString v ++ (entriesBytes es2 ++ 0xff ::
        byteString (sha256.Sum256 (entryStream (es1 ++ (k, v) :: es2)))))) := by
    simp [envelope, entryStream, entriesBytes_append, entriesBytes, entryBytes, byteString]
  have e2 : keyOffset es1 k = (0x82 :: 0x9f :: (entriesBytes es1 ++
      0x82 :: cbg.majorTypeHeader cbg.MajByteString k.length)).length := by
    simp [keyOffset]; omega
  rw [e1, e2, flipBit_append, flipBit_append_left _ _ n hn]
  simp [entryStream, entriesBytes_append, entriesBytes, entryBytes, byteString, flipBit_length]

/-- A bit flipped in the payload of a value leaves the framing as it was. -/
theorem flipBit_value (es1 es2 : List Entry) (k v : List Byte) (n : Nat)
    (hn : n < 8 * v.length) :
    flipBit (envelope (es1 ++ (k, v) :: es2)) (8 * valueOffset es1 k v + n) =
      0x82 :: (entryStream (es1 ++ (k, flipBit v n) :: es2) ++
        byteString (sha256.Sum256 (entryStream (es1 ++ (k, v) :: es2)))) := by
  have e1 : envelope (es1 ++ (k, v) :: es2) =
      (0x82 :: 0x9f :: (entriesBytes es1 ++
        0x82 :: (byteString k ++ cbg.majorTypeHeader cbg.MajByteString v.length))) ++
      (v ++ (entriesBytes es2 ++ 0xff ::
        byteString (sha256.Sum256 (entryStream (es1 ++ (k, v) :: es2))))) := by
    simp [envelope, entryStream, entriesBytes_append, entriesBytes, entryBytes, byteString]
  have e2 : valueOffset es1 k v = (0x82 :: 0x9f :: (entriesBytes es1 ++
      0x82 :: (byteString k ++ cbg.majorTypeHeader cbg.MajByteString v.length))).length := by
    simp [valueOffset, keyOffset, byteString]; omega
  rw [e1, e2, flipBit_append, flipBit_append_left _ _ n hn]
  simp [entryStream, entriesBytes_append, entriesBytes, entryBytes, byteString, flipBit_length]

end backupds

/-! ## Lemmas on longer sources, failing sinks and the guard -/

namespace backupds

open cbg

/-- A header that declares more than `maxlen` bytes is refused where it ends: nothing
after it is read. -/
theorem ReadByteArray_declared (l maxlen : Nat) (tail : List Byte)
    (h : maxlen < l) (h64 : l < 2 ^ 64) :
    ReadByteArray (majorTypeHeader MajByteString l ++ tail) maxlen =
      (.error (.tooLong maxlen), tail) := by
  simp [ReadByteArray, CborReadHeader_majorTypeHeader l h64, h]

/-- Two byte strings that start the same bytes are the same byte string. -/
theorem byteString_inj (a b x y : List Byte) (ha : a.length < 2 ^ 64) (hb : b.length < 2 ^ 64)
    (h : byteString a ++ x = byteString b ++ y) : a = b ∧ x = y := by
  have h1 := CborReadHeader_majorTypeHeader a.length ha (a ++ x)
  have h2 := CborReadHeader_majorTypeHeader b.length hb (b ++ y)
  simp only [byteString, List.append_assoc] at h
  rw [h, h2] at h1
  simp only [Prod.mk.injEq, Except.ok.injEq, true_and] at h1
  obtain ⟨hl, hr⟩ := h1
  have := List.append_inj hr hl
  exact ⟨this.1.symm, this.2.symm⟩

/-- Two entries that start the same bytes are the same entry. -/
theorem entryBytes_inj (e1 e2 : Entry) (x y : List Byte)
    (h1 : e1.1.length < 2 ^ 64 ∧ e1.2.length < 2 ^ 64)
    (h2 : e2.1.length < 2 ^ 64 ∧ e2.2.length < 2 ^ 64)
    (h : entryBytes e1 ++ x = entryBytes e2 ++ y) : e1 = e2 ∧ x = y := by
  simp only [entryBytes, List.cons_append, List.append_assoc, List.cons.injEq, true_and] at h
  obtain ⟨hk, h'⟩ := byteString_inj _ _ _ _ h1.1 h2.1 h
  obtain ⟨hv, hxy⟩ := byteString_inj _ _ _ _ h1.2 h2.2 h'
  exact ⟨Prod.ext hk hv, hxy⟩

/-- Entry streams that agree up to their end markers have the same entries. -/
theorem entriesBytes_inj (es1 : List Entry) :
    ∀ (es2 : List Entry) (t1 t2 : List Byte), fieldsGo es1 → fieldsGo es2 →
      entriesBytes es1 ++ 0xff :: t1 = entriesBytes es2 ++ 0xff :: t2 → es1 = es2 := by
  induction es1 with
  | nil =>
    intro es2 t1 t2 _ _ h
    cases es2 with
    | nil => rfl
    | cons e rest => simp [entriesBytes, entryBytes] at h
  | cons e1 r1 ih =>
    intro es2 t1 t2 h1 h2 h
    cases es2 with
    | nil => simp [entriesBytes, entryBytes] at h
    | cons e2 r2 =>
      simp only [entriesBytes, List.append_assoc] at h
      obtain ⟨he, hr⟩ := entryBytes_inj e1 e2 _ _ (h1 e1 (by simp)) (h2 e2 (by simp)) h
      rw [he, ih r2 t1 t2 (fun x hx => h1 x (by simp [hx])) (fun x hx => h2 x (by simp [hx])) hr]

/-- The envelope with its two leading bytes and its end marker set apart. -/
theorem envelope_cons (es : List Entry) :
    envelope es = 0x82 :: 0x9f :: (entriesBytes es ++
      0xff :: byteString (sha256.Sum256 (entryStream es))) := by
  simp [envelope, entryStream]

/-- The loop over the results reads only the key and the value of a result. -/
theorem writeResults_congr (sink : Sink) (rs : List query.Result) :
    ∀ (rs2 : List query.Result) (s : BackupState), entriesOf rs = entriesOf rs2 →
      writeResults sink rs s = writeResults sink rs2 s := by
  induction rs with
  | nil =>
    intro rs2 s h
    cases rs2 with
    | nil => rfl
    | cons r rest => simp [entriesOf] at h
  | cons r rest ih =>
    intro rs2 s h
    cases rs2 with
    | nil => simp [entriesOf] at h
    | cons r2 rest2 =>
      simp only [entriesOf, List.map_cons, List.cons.injEq, Prod.mk.injEq] at h
      obtain ⟨⟨hk, hv⟩, hr⟩ := h
      have hih : ∀ s, writeResults sink rest s = writeResults sink rest2 s :=
        fun s => ih rest2 s hr
      simp only [writeResults, hk, hv, hih]

end backupds

namespace cbg

/-- A byte read that succeeded goes the same way when bytes are added to the source. -/
theorem readByte_append (r r2 t : List Byte) (b : Byte) (h : readByte r = (.ok b, r2)) :
    readByte (r ++ t) = (.ok b, r2 ++ t) := by
  cases r with
  | nil => simp [readByte] at h
  | cons x rest =>
    simp only [readByte, Prod.mk.injEq, Except.ok.injEq] at h
    obtain ⟨rfl, rfl⟩ := h
    rfl

/-- A read of `n` bytes that succeeded goes the same way when bytes are added to the
source. -/
theorem readAtLeast_append (r r2 t bs : List Byte) (n : Nat)
    (h : readAtLeast r n = (.ok bs, r2)) : readAtLeast (r ++ t) n = (.ok bs, r2 ++ t) := by
  unfold readAtLeast at h ⊢
  by_cases hn : n ≤ r.length
  · have hn2 : n ≤ (r ++ t).length := by simp; omega
    simp only [hn, hn2, if_true, Prod.mk.injEq, Except.ok.injEq] at h ⊢
    obtain ⟨rfl, rfl⟩ := h
    exact ⟨List.take_append_of_le_length hn, List.drop_append_of_le_length hn⟩
  · simp [hn] at h

/-- A header read that succeeded goes the same way when bytes are added to the source. -/
theorem CborReadHeader_append (r r2 t : List Byte) (x : Nat × Nat)
    (h : CborReadHeader r = (.ok x, r2)) : CborReadHeader (r ++ t) = (.ok x, r2 ++ t) := by
  cases r with
  | nil => simp [CborReadHeader, readByte] at h
  | cons b r1 =>
    simp only [CborReadHeader, readByte, List.cons_append] at h ⊢
    split_ifs at h ⊢ with h1 h2 h3 h4 h5
    · simp only [Prod.mk.injEq, Except.ok.injEq] at h ⊢
      exact ⟨h.1, by rw [h.2]⟩
    · cases r1 with
      | nil => simp at h
      | cons c r3 =>
        simp only [List.cons_append] at h ⊢
        split_ifs at h ⊢
        · simp at h
        · simp only [Prod.mk.injEq, Except.ok.injEq] at h ⊢
          exact ⟨h.1, by rw [h.2]⟩
    · rcases hr : readAtLeast r1 2 with ⟨_ | scratch, r3⟩
      · simp [hr] at h
      · rw [readAtLeast_append r1 r3 t scratch 2 hr]
        rw [hr] at h
        simp only at h ⊢
        split_ifs at h ⊢
        · simp at h
        · simp only [Prod.mk.injEq, Except.ok.injEq] at h ⊢
          exact ⟨h.1, by rw [h.2]⟩
    · rcases hr : readAtLeast r1 4 with ⟨_ | scratch, r3⟩
      · simp [hr] at h
      · rw [readAtLeast_append r1 r3 t scratch 4 hr]
        rw [hr] at h
        simp only at h ⊢
        split_ifs at h ⊢
        · simp at h
        · simp only [Prod.mk.injEq, Except.ok.injEq] at h ⊢
          exact ⟨h.1, by rw [h.2]⟩
    · rcases hr : readAtLeast r1 8 with ⟨_ | scratch, r3⟩
      · simp [hr] at h
      · rw [readAtLeast_append r1 r3 t scratch 8 hr]
        rw [hr] at h
        simp only at h ⊢
        split_ifs at h ⊢
        · simp at h
        · simp only [Prod.mk.injEq, Except.ok.injEq] at h ⊢
          exact ⟨h.1, by rw [h.2]⟩
    · simp at h

/-- A byte string read that succeeded goes the same way when bytes are added to the
source. -/
theorem ReadByteArray_append (r r2 t b : List Byte) (m : Nat)
    (h : ReadByteArray r m = (.ok b, r2)) : ReadByteArray (r ++ t) m = (.ok b, r2 ++ t) := by
  unfold ReadByteArray at h ⊢
  rcases hh : CborReadHeader r with ⟨_ | ⟨maj, extra⟩, r3⟩
  · simp [hh] at h
  · rw [CborReadHeader_append r r3 t (maj, extra) hh]
    rw [hh] at h
    simp only at h ⊢
    split_ifs at h ⊢
    · simp at h
    · simp at h
    · exact readAtLeast_append r3 r2 t b extra h

end cbg

namespace backupds

open cbg

/-- The hasher behind the tee reader sees the same bytes when bytes are added to the
source that the read did not reach. -/
theorem tee_append {α : Type} (r r2 t hasher : List Byte) (x : α) :
    tee (r ++ t) hasher (x, r2 ++ t) =
      (x, r2 ++ t, hasher ++ r.take (r.length - r2.length)) := by
  simp only [tee, List.length_append, Nat.add_sub_add_right]
  rw [List.take_append_of_le_length (Nat.sub_le _ _)]

/-- A run of the loop that left at the end marker goes the same way, with no fewer turns
allowed, when bytes are added to the source: they are left unread. -/
theorem readLoop_append (cb : Callback) :
    ∀ (fuel : Nat) (r hasher : List Byte) (calls : List (datastore.Key × List Byte))
      (r2 hasher2 : List Byte) (calls2 : List (datastore.Key × List Byte))
      (t : List Byte) (fuel2 : Nat), fuel ≤ fuel2 →
      readLoop cb fuel r hasher calls = some (.brk r2 hasher2 calls2) →
      readLoop cb fuel2 (r ++ t) hasher calls = some (.brk (r2 ++ t) hasher2 calls2) := by
  intro fuel
  induction fuel with
  | zero => intro r hasher calls r2 hasher2 calls2 t fuel2 _ hx; simp [readLoop] at hx
  | succ f ih =>
    intro r hasher calls r2 hasher2 calls2 t fuel2 hle hx
    obtain ⟨f2, rfl⟩ : ∃ f2, fuel2 = f2 + 1 := ⟨fuel2 - 1, by omega⟩
    cases r with
    | nil => simp [readLoop, readByte, tee] at hx
    | cons b r1 =>
      rw [readLoop] at hx
      rw [List.cons_append, readLoop]
      have hb1 : readByte (b :: (r1 ++ t)) = (.ok b, r1 ++ t) := rfl
      have hb0 : readByte (b :: r1) = (.ok b, r1) := rfl
      rw [hb0] at hx
      rw [hb1, ← List.cons_append, tee_append]
      simp only [tee] at hx
      simp only
      by_cases h1 : b = 0xff
      · rw [if_pos h1] at hx ⊢
        simp only [Option.some.injEq, LoopExit.brk.injEq] at hx ⊢
        obtain ⟨rfl, rfl, rfl⟩ := hx
        exact ⟨rfl, rfl, rfl⟩
      · rw [if_neg h1] at hx ⊢
        by_cases h2 : b ≠ 0x82
        · rw [if_pos h2] at hx; simp at hx
        · rw [if_neg h2] at hx ⊢
          rcases hk : ReadByteArray r1 (1 <<< 40) with ⟨_ | keyb, r3⟩
          · rw [hk] at hx; simp at hx
          · rw [ReadByteArray_append r1 r3 t keyb _ hk, tee_append]
            rw [hk] at hx
            simp only at hx ⊢
            rcases hv : ReadByteArray r3 (1 <<< 40) with ⟨_ | value, r4⟩
            · rw [hv] at hx; simp at hx
            · rw [ReadByteArray_append r3 r4 t value _ hv, tee_append]
              rw [hv] at hx
              simp only at hx ⊢
              cases hcb : cb calls (datastore.NewKey keyb) value with
              | some e => rw [hcb] at hx; simp at hx
              | none =>
                rw [hcb] at hx
                simp only at hx ⊢
                exact ih _ _ _ _ _ _ t f2 (by omega) hx

/-- A `return` inside the loop of `ReadBackup` always carries an error. -/
theorem readLoop_ret (cb : Callback) :
    ∀ (fuel : Nat) (r hasher : List Byte) (calls : List (datastore.Key × List Byte))
      (o : ReadOutcome), readLoop cb fuel r hasher calls = some (.ret o) → o.err ≠ none := by
  intro fuel
  induction fuel with
  | zero => intro r hasher calls o hx; simp [readLoop] at hx
  | succ f ih =>
    intro r hasher calls o hx
    rw [readLoop] at hx
    rcases hb : readByte r with ⟨_ | b, r1⟩
    · rw [hb] at hx
      simp only [tee, Option.some.injEq, LoopExit.ret.injEq] at hx
      rw [← hx]; simp
    · rw [hb] at hx
      simp only [tee] at hx
      by_cases h1 : b = 0xff
      · rw [if_pos h1] at hx; simp at hx
      · rw [if_neg h1] at hx
        by_cases h2 : b ≠ 0x82
        · rw [if_pos h2] at hx
          simp only [Option.some.injEq, LoopExit.ret.injEq] at hx
          rw [← hx]; simp
        · rw [if_neg h2] at hx
          rcases hk : ReadByteArray r1 (1 <<< 40) with ⟨_ | keyb, r3⟩
          · rw [hk] at hx
            simp only [Option.some.injEq, LoopExit.ret.injEq] at hx
            rw [← hx]; simp
          · rw [hk] at hx
            simp only at hx
            rcases hv : ReadByteArray r3 (1 <<< 40) with ⟨_ | value, r4⟩
            · rw [hv] at hx
              simp only [Option.some.injEq, LoopExit.ret.injEq] at hx
              rw [← hx]; simp
            · rw [hv] at hx
              simp only at hx
              cases hcb : cb calls (datastore.NewKey keyb) value with
              | some e =>
                rw [hcb] at hx
                simp only [Option.some.injEq, LoopExit.ret.injEq] at hx
                rw [← hx]; simp
              | none =>
                rw [hcb] at hx
                exact ih _ _ _ o hx

/-- A checksum stage that succeeded goes the same way when bytes are added to the source:
they are left unread. -/
theorem checksumStage_append (stream tail rest t : List Byte)
    (calls calls2 : List (datastore.Key × List Byte))
    (h : checksumStage stream calls tail = ⟨none, calls2, rest⟩) :
    checksumStage stream calls (tail ++ t) = ⟨none, calls2, rest ++ t⟩ := by
  unfold checksumStage at h ⊢
  rcases hr : ReadByteArray tail 32 with ⟨_ | expSum, r1⟩
  · rw [hr] at h; simp at h
  · rw [ReadByteArray_append tail r1 t expSum 32 hr]
    rw [hr] at h
    simp only at h ⊢
    by_cases hs : sha256.Sum256 stream ≠ expSum
    · rw [if_pos hs] at h; simp at h
    · rw [if_neg hs] at h ⊢
      simp only [ReadOutcome.mk.injEq, true_and] at h ⊢
      exact ⟨h.1, by rw [h.2]⟩

/-- A successful `ReadBackup` goes the same way when bytes are added to its source: they
are left unread. -/
theorem ReadBackup_append (cb : Callback) (E T rest : List Byte)
    (calls : List (datastore.Key × List Byte))
    (h : ReadBackup E cb = some ⟨none, calls, rest⟩) :
    ReadBackup (E ++ T) cb = some ⟨none, calls, rest ++ T⟩ := by
  cases E with
  | nil => simp [ReadBackup, readByte] at h
  | cons b r1 =>
    by_cases hb : b = 0x82
    · subst hb
      cases r1 with
      | nil => simp [ReadBackup, readByte, tee] at h
      | cons b2 r2 =>
        by_cases hb2 : b2 = 0x9f
        · subst hb2
          rw [ReadBackup_start] at h
          rw [List.cons_append, List.cons_append, ReadBackup_start]
          rcases hl : readLoop cb (r2.length + 1) r2 [0x9f] [] with _ | x
          · rw [hl] at h; simp at h
          · rw [hl] at h
            cases x with
            | ret o =>
              simp only [Option.some.injEq] at h
              have := readLoop_ret cb _ _ _ _ o hl
              rw [h] at this
              exact absurd rfl this
            | brk r3 h3 c3 =>
              simp only [Option.some.injEq] at h
              rw [readLoop_append cb (r2.length + 1) r2 [0x9f] [] r3 h3 c3 T
                ((r2 ++ T).length + 1) (by simp) hl]
              simp only [Option.some.injEq]
              exact checksumStage_append h3 r3 rest T c3 calls h
        · simp [ReadBackup, readByte, tee, hb2] at h
    · simp [ReadBackup, readByte, hb] at h

/-- A write on the sink through `hout`: the error is the sink's for this write, the count
of writes goes up by one, the record of effects stays. -/
theorem houtWrite_spec (sink : Sink) (s : BackupState) (p : List Byte) :
    ∃ s2, houtWrite sink s p = (sink s.writes, s2) ∧ s2.writes = s.writes + 1 ∧
      s2.events = s.events := by
  unfold houtWrite outWrite
  cases sink s.writes with
  | none => exact ⟨_, rfl, rfl, rfl⟩
  | some e => exact ⟨_, rfl, rfl, rfl⟩

/-- A write on the sink itself, as the outer header is written. -/
theorem outWrite_spec (sink : Sink) (s : BackupState) (p : List Byte) :
    ∃ s2, outWrite sink s p = (sink s.writes, s2) ∧ s2.writes = s.writes + 1 ∧
      s2.events = s.events := by
  unfold outWrite
  cases sink s.writes with
  | none => exact ⟨_, rfl, rfl, rfl⟩
  | some e => exact ⟨_, rfl, rfl, rfl⟩

/-- The loop over the results when the sink takes all its writes: five writes for each
result. -/
theorem writeResults_pass (sink : Sink) (rs : List query.Result) :
    ∀ (s : BackupState), (∀ j, s.writes ≤ j → j < s.writes + 5 * rs.length → sink j = none) →
      (writeResults sink rs s).1 = none ∧
      (writeResults sink rs s).2.writes = s.writes + 5 * rs.length ∧
      (writeResults sink rs s).2.events = s.events := by
  induction rs with
  | nil => intro s _; exact ⟨rfl, rfl, rfl⟩
  | cons r rest ih =>
    intro s hs
    simp only [List.length_cons] at hs
    simp only [writeResults, WriteMajorTypeHeaderBuf]
    obtain ⟨s1, h1, w1, e1⟩ := houtWrite_spec sink s (majorTypeHeader MajArray 2)
    rw [h1, hs s.writes (by omega) (by omega)]
    simp only
    obtain ⟨s2, h2, w2, e2⟩ := houtWrite_spec sink s1 (majorTypeHeader MajByteString r.Key.length)
    rw [h2, hs s1.writes (by omega) (by omega)]
    simp only
    obtain ⟨s3, h3, w3, e3⟩ := houtWrite_spec sink s2 r.Key
    rw [h3, hs s2.writes (by omega) (by omega)]
    simp only
    obtain ⟨s4, h4, w4, e4⟩ :=
      houtWrite_spec sink s3 (majorTypeHeader MajByteString r.Value.length)
    rw [h4, hs s3.writes (by omega) (by omega)]
    simp only
    obtain ⟨s5, h5, w5, e5⟩ := houtWrite_spec sink s4 r.Value
    rw [h5, hs s4.writes (by omega) (by omega)]
    simp only
    obtain ⟨ha, hb, hc⟩ := ih s5 (fun j hj1 hj2 => hs j (by omega) (by omega))
    refine ⟨ha, ?_, ?_⟩
    · rw [hb, List.length_cons]; omega
    · rw [hc, e5, e4, e3, e2, e1]

/-- The loop over the results when write number `k` of the sink fails, the writes before
it being taken: the error names the field of that write, and no write follows. -/
theorem writeResults_fail (sink : Sink) (k : Nat) (e : GoError) (hk : sink k = some e)
    (rs : List query.Result) :
    ∀ (s : BackupState), (∀ j, s.writes ≤ j → j < k → sink j = none) →
      s.writes ≤ k → k < s.writes + 5 * rs.length →
      (writeResults sink rs s).1 = some (entryError ((k - s.writes) % 5) e) ∧
      (writeResults sink rs s).2.writes = k + 1 ∧
      (writeResults sink rs s).2.events = s.events := by
  induction rs with
  | nil => intro s _ h1 h2; simp at h2; omega
  | cons r rest ih =>
    intro s hs hle hlt
    simp only [List.length_cons] at hlt
    simp only [writeResults, WriteMajorTypeHeaderBuf]
    obtain ⟨s1, h1, w1, e1⟩ := houtWrite_spec sink s (majorTypeHeader MajArray 2)
    rw [h1]
    by_cases c0 : k = s.writes
    · have hsk : sink s.writes = some e := by rw [← c0]; exact hk
      have hm : (k - s.writes) % 5 = 0 := by omega
      rw [hsk, hm]
      exact ⟨rfl, by simp only; omega, e1⟩
    rw [hs s.writes (by omega) (by omega)]
    simp only
    obtain ⟨s2, h2, w2, e2⟩ := houtWrite_spec sink s1 (majorTypeHeader MajByteString r.Key.length)
    rw [h2]
    by_cases c1 : k = s1.writes
    · have hsk : sink s1.writes = some e := by rw [← c1]; exact hk
      have hm : (k - s.writes) % 5 = 1 := by omega
      rw [hsk, hm]
      exact ⟨rfl, by simp only; omega, by simp only; rw [e2, e1]⟩
    rw [hs s1.writes (by omega) (by omega)]
    simp only
    obtain ⟨s3, h3, w3, e3⟩ := houtWrite_spec sink s2 r.Key
    rw [h3]
    by_cases c2 : k = s2.writes
    · have hsk : sink s2.writes = some e := by rw [← c2]; exact hk
      have hm : (k - s.writes) % 5 = 2 := by omega
      rw [hsk, hm]
      exact ⟨rfl, by simp only; omega, by simp only; rw [e3, e2, e1]⟩
    rw [hs s2.writes (by omega) (by omega)]
    simp only
    obtain ⟨s4, h4, w4, e4⟩ :=
      houtWrite_spec sink s3 (majorTypeHeader MajByteString r.Value.length)
    rw [h4]
    by_cases c3 : k = s3.writes
    · have hsk : sink s3.writes = some e := by rw [← c3]; exact hk
      have hm : (k - s.writes) % 5 = 3 := by omega
      rw [hsk, hm]
      exact ⟨rfl, by simp only; omega, by simp only; rw [e4, e3, e2, e1]⟩
    rw [hs s3.writes (by omega) (by omega)]
    simp only
    obtain ⟨s5, h5, w5, e5⟩ := houtWrite_spec sink s4 r.Value
    rw [h5]
    by_cases c4 : k = s4.writes
    · have hsk : sink s4.writes = some e := by rw [← c4]; exact hk
      have hm : (k - s.writes) % 5 = 4 := by omega
      rw [hsk, hm]
      exact ⟨rfl, by simp only; omega, by simp only; rw [e5, e4, e3, e2, e1]⟩
    rw [hs s4.writes (by omega) (by omega)]
    simp only
    obtain ⟨ha, hb, hc⟩ := ih s5 (fun j hj1 hj2 => hs j (by omega) hj2) (by omega) (by omega)
    have hm : (k - s5.writes) % 5 = (k - s.writes) % 5 := by omega
    rw [hm] at ha
    exact ⟨ha, hb, by rw [hc, e5, e4, e3, e2, e1]⟩

/-- The loop over the results adds nothing to the record of effects. -/
theorem writeResults_events (sink : Sink) (rs : List query.Result) :
    ∀ (s : BackupState), (writeResults sink rs s).2.events = s.events := by
  induction rs with
  | nil => intro s; rfl
  | cons r rest ih =>
    intro s
    simp only [writeResults, WriteMajorTypeHeaderBuf]
    obtain ⟨s1, h1, _, e1⟩ := houtWrite_spec sink s (majorTypeHeader MajArray 2)
    rw [h1]
    cases sink s.writes with
    | some e => exact e1
    | none =>
    simp only
    obtain ⟨s2, h2, _, e2⟩ := houtWrite_spec sink s1 (majorTypeHeader MajByteString r.Key.length)
    rw [h2]
    cases sink s1.writes with
    | some e => simp only; rw [e2, e1]
    | none =>
    simp only
    obtain ⟨s3, h3, _, e3⟩ := houtWrite_spec sink s2 r.Key
    rw [h3]
    cases sink s2.writes with
    | some e => simp only; rw [e3, e2, e1]
    | none =>
    simp only
    obtain ⟨s4, h4, _, e4⟩ :=
      houtWrite_spec sink s3 (majorTypeHeader MajByteString r.Value.length)
    rw [h4]
    cases sink s3.writes with
    | some e => simp only; rw [e4, e3, e2, e1]
    | none =>
    simp only
    obtain ⟨s5, h5, _, e5⟩ := houtWrite_spec sink s4 r.Value
    rw [h5]
    cases sink s4.writes with
    | some e => simp only; rw [e5, e4, e3, e2, e1]
    | none =>
    simp only
    rw [ih s5, e5, e4, e3, e2, e1]

/-- The checksum block: two writes, nothing added to the record of effects. -/
theorem writeChecksum_spec (sink : Sink) (s : BackupState) :
    (writeChecksum sink s).1 =
      (match sink s.writes with
        | some e => some (.writingChecksumHeader e)
        | none =>
          match sink (s.writes + 1) with
          | some e => some (.writingChecksum e)
          | none => none) ∧
    (writeChecksum sink s).2.writes = (if sink s.writes = none then s.writes + 2
      else s.writes + 1) ∧
    (writeChecksum sink s).2.events = s.events := by
  simp only [writeChecksum, WriteMajorTypeHeaderBuf]
  obtain ⟨s1, h1, w1, e1⟩ :=
    houtWrite_spec sink s (majorTypeHeader MajByteString (sha256.Sum256 s.hasher).length)
  rw [h1]
  cases h : sink s.writes with
  | some e => exact ⟨rfl, by simp [w1], e1⟩
  | none =>
    simp only
    obtain ⟨s2, h2, w2, e2⟩ := houtWrite_spec sink s1 (sha256.Sum256 s.hasher)
    rw [h2, w1]
    cases sink (s.writes + 1) with
    | some e => exact ⟨rfl, by simp [w2, w1], by simp only; rw [e2, e1]⟩
    | none => exact ⟨rfl, by simp [w2, w1], by simp only; rw [e2, e1]⟩

/-- The record of effects after the deferred calls of a `Backup` whose query opened. -/
theorem deferred_events (qr : query.Results) (s : BackupState)
    (h : s.events = [.lock, .logStart, .queryOpen true]) :
    (deferUnlock (deferClose qr s)).events = backupEvents qr := by
  unfold deferUnlock deferClose backupEvents
  cases qr.Close with
  | none => simp [BackupState.emit, h]
  | some e => simp [BackupState.emit, h]

/-- The count of writes is not touched by the deferred calls. -/
theorem deferred_writes (qr : query.Results) (s : BackupState) :
    (deferUnlock (deferClose qr s)).writes = s.writes := by
  unfold deferUnlock deferClose
  cases qr.Close <;> rfl

/-- A `Backup` whose sink refuses the first write: nothing else happens. -/
theorem Backup_firstWrite (child : Child) (sink : Sink) (e : GoError) (h : sink 0 = some e) :
    Backup child sink = ⟨some (.writingTupleHeader e), ⟨[], 1, [], []⟩⟩ := by
  simp [Backup, WriteMajorTypeHeaderBuf, outWrite, h]

/-- A `Backup` whose sink refuses the second write: the start marker has reached the
hasher, the guard was not taken and the query not opened. -/
theorem Backup_secondWrite (child : Child) (sink : Sink) (e : GoError) (h0 : sink 0 = none)
    (h : sink 1 = some e) :
    Backup child sink =
      ⟨some (.writingHeader e), ⟨majorTypeHeader MajArray 2, 2, [0x9f], []⟩⟩ := by
  simp [Backup, WriteMajorTypeHeaderBuf, outWrite, houtWrite, h0, h]

/-- A `Backup` whose query fails to open, the two writes before it being taken. -/
theorem Backup_failedOpen (sink : Sink) (e : GoError) (h0 : sink 0 = none)
    (h1 : sink 1 = none) :
    Backup ⟨.error e⟩ sink =
      ⟨some (.query e), ⟨majorTypeHeader MajArray 2 ++ [0x9f], 2, [0x9f], failedOpenEvents⟩⟩ := by
  simp [Backup, WriteMajorTypeHeaderBuf, outWrite, houtWrite, h0, h1, deferUnlock,
    BackupState.emit, failedOpenEvents]

/-- A `Backup` whose query opened, the two writes before it being taken: the loop, the
end marker and the checksum block run from the state with two writes made. -/
theorem Backup_opened (qr : query.Results) (sink : Sink) (h0 : sink 0 = none)
    (h1 : sink 1 = none) :
    Backup ⟨.ok qr⟩ sink =
      match writeResults sink qr.Next
          ⟨majorTypeHeader MajArray 2 ++ [0x9f], 2, [0x9f],
            [.lock, .logStart, .queryOpen true]⟩ with
      | (some e, s) => ⟨some e, deferUnlock (deferClose qr s)⟩
      | (none, s) =>
        match houtWrite sink s [0xff] with
        | (some e, s) => ⟨some (.writingArrayBreak e), deferUnlock (deferClose qr s)⟩
        | (none, s) =>
          match writeChecksum sink s with
          | (some e, s) => ⟨some e, deferUnlock (deferClose qr s)⟩
          | (none, s) => ⟨none, deferUnlock (deferClose qr s)⟩ := by
  simp [Backup, WriteMajorTypeHeaderBuf, outWrite, houtWrite, h0, h1, BackupState.emit]

/-- The record of effects of a `Backup` whose query opened: whatever the sink does from
its third write on, the query is closed and the guard released. -/
theorem Backup_opened_events (qr : query.Results) (sink : Sink) (h0 : sink 0 = none)
    (h1 : sink 1 = none) : (Backup ⟨.ok qr⟩ sink).state.events = backupEvents qr := by
  rw [Backup_opened qr sink h0 h1]
  have hw := writeResults_events sink qr.Next
    ⟨majorTypeHeader MajArray 2 ++ [0x9f], 2, [0x9f], [.lock, .logStart, .queryOpen true]⟩
  rcases hr : writeResults sink qr.Next
    ⟨majorTypeHeader MajArray 2 ++ [0x9f], 2, [0x9f], [.lock, .logStart, .queryOpen true]⟩
    with ⟨_ | e, s⟩
  · rw [hr] at hw
    simp only at hw ⊢
    obtain ⟨s1, hb, _, eb⟩ := houtWrite_spec sink s [0xff]
    rw [hb]
    cases sink s.writes with
    | some e => exact deferred_events qr s1 (by rw [eb, hw])
    | none =>
      simp only
      have hc := (writeChecksum_spec sink s1).2.2
      rcases hcs : writeChecksum sink s1 with ⟨_ | e, s2⟩
      · rw [hcs] at hc
        exact deferred_events qr s2 (by rw [hc, eb, hw])
      · rw [hcs] at hc
        exact deferred_events qr s2 (by rw [hc, eb, hw])
  · rw [hr] at hw
    exact deferred_events qr s hw

/-- What `Backup` returns and writes does not depend on how the close of the query ends. -/
theorem Backup_close (qr qr2 : query.Results) (sink : Sink) (hn : qr.Next = qr2.Next)
    (h0 : sink 0 = none) (h1 : sink 1 = none) :
    (Backup ⟨.ok qr⟩ sink).err = (Backup ⟨.ok qr2⟩ sink).err ∧
    (Backup ⟨.ok qr⟩ sink).state.out = (Backup ⟨.ok qr2⟩ sink).state.out := by
  have hd : ∀ (q : query.Results) (s : BackupState),
      (deferUnlock (deferClose q s)).out = s.out := by
    intro q s
    unfold deferUnlock deferClose
    cases q.Close <;> rfl
  rw [Backup_opened qr sink h0 h1, Backup_opened qr2 sink h0 h1, hn]
  rcases writeResults sink qr2.Next _ with ⟨_ | e, s⟩
  · simp only
    rcases houtWrite sink s [0xff] with ⟨_ | e, s1⟩
    · simp only
      rcases writeChecksum sink s1 with ⟨_ | e, s2⟩
      · exact ⟨rfl, by simp only [hd]⟩
      · exact ⟨rfl, by simp only [hd]⟩
    · exact ⟨rfl, by simp only [hd]⟩
  · exact ⟨rfl, by simp only [hd]⟩

/-- An operation that takes the guard in shared mode around its one call on the child: it
cannot return while a writer holds the guard; otherwise the child is called with one
reader more on the guard, and the guard is as before when the operation returns. -/
theorem underLock_shared {α : Type} (d : Datastore) (c : ChildCall) (x : α) :
    d.underLock sync.RWMutex.RLock sync.RWMutex.RUnlock c x =
      if d.backupLk.writer then none
      else some (x, ⟨d.backupLk, d.trace ++
        [.guard d.backupLk ⟨false, d.backupLk.readers + 1⟩,
          .call c ⟨false, d.backupLk.readers + 1⟩,
          .guard ⟨false, d.backupLk.readers + 1⟩ d.backupLk]⟩) := by
  obtain ⟨⟨w, n⟩, tr⟩ := d
  cases w <;>
    simp [Datastore.underLock, Datastore.guard, Datastore.child, sync.RWMutex.RLock,
      sync.RWMutex.RUnlock]

end backupds

namespace backupds

open cbg

/-- A bit flipped inside the payload of a key or of a value of an envelope leaves the
framing as it was: `ReadBackup` delivers the entries with the flipped payload and compares
the digest of the flipped entry stream with the stored digest of the stream as written. -/
theorem ReadBackup_flipped_payload (es1 es2 : List Entry) (k v : List Byte) (n : Nat)
    (hfit : fieldsFit (es1 ++ (k, v) :: es2)) :
    (n < 8 * k.length →
      ReadBackup (flipBit (backupBytes (es1 ++ (k, v) :: es2)) (8 * keyOffset es1 k + n))
          okCallback =
        some ⟨if sha256.Sum256 (entryStream (es1 ++ (flipBit k n, v) :: es2)) =
              sha256.Sum256 (entryStream (es1 ++ (k, v) :: es2)) then none
            else some (.checksumMismatch (sha256.Sum256 (entryStream (es1 ++ (k, v) :: es2)))
              (sha256.Sum256 (entryStream (es1 ++ (flipBit k n, v) :: es2)))),
          delivered (es1 ++ (flipBit k n, v) :: es2), []⟩) ∧
    (n < 8 * v.length →
      ReadBackup (flipBit (backupBytes (es1 ++ (k, v) :: es2)) (8 * valueOffset es1 k v + n))
          okCallback =
        some ⟨if sha256.Sum256 (entryStream (es1 ++ (k, flipBit v n) :: es2)) =
              sha256.Sum256 (entryStream (es1 ++ (k, v) :: es2)) then none
            else some (.checksumMismatch (sha256.Sum256 (entryStream (es1 ++ (k, v) :: es2)))
              (sha256.Sum256 (entryStream (es1 ++ (k, flipBit v n) :: es2)))),
          delivered (es1 ++ (k, flipBit v n) :: es2), []⟩) := by
  obtain ⟨hfit1, hfit2⟩ := (fieldsFit_append _ _).1 hfit
  obtain ⟨⟨hk, hv⟩, hfit3⟩ := (fieldsFit_cons _ _).1 hfit2
  rw [backupBytes_eq]
  refine ⟨?_, ?_⟩
  · intro hn
    have hf : fieldsFit (es1 ++ (flipBit k n, v) :: es2) :=
      (fieldsFit_append _ _).2 ⟨hfit1, (fieldsFit_cons _ _).2
        ⟨⟨by simp only [flipBit_length]; exact hk, hv⟩, hfit3⟩⟩
    rw [flipBit_key es1 es2 k v n hn, ReadBackup_swapped _ _ hf]
  · intro hn
    have hf : fieldsFit (es1 ++ (k, flipBit v n) :: es2) :=
      (fieldsFit_append _ _).2 ⟨hfit1, (fieldsFit_cons _ _).2
        ⟨⟨hk, by simp only [flipBit_length]; exact hv⟩, hfit3⟩⟩
    rw [flipBit_value es1 es2 k v n hn, ReadBackup_swapped _ _ hf]

end backupds

namespace backupds

open cbg

/-- The loop over the results with the datastore: it returns what `writeResults` returns,
leaves the guard as it is, and its steps are the results taken from the query and the
writes it makes, numbered in order, all with the guard as it is. -/
theorem tracedResults_spec (sink : Sink) (rs : List query.Result) :
    ∀ (s : BackupState) (d : Datastore), ∃ body : List Step,
      Datastore.writeResults sink rs s d =
        ((writeResults sink rs s).1, (writeResults sink rs s).2,
          ⟨d.backupLk, d.trace ++ body⟩) ∧
      (∀ st ∈ body, st = .call .queryNext d.backupLk ∨ ∃ n, st = .write n d.backupLk) ∧
      body.filterMap Step.writeIndex =
        List.range' s.writes ((writeResults sink rs s).2.writes - s.writes) ∧
      s.writes ≤ (writeResults sink rs s).2.writes := by
  induction rs with
  | nil =>
    intro s d
    exact ⟨[], by simp [Datastore.writeResults, writeResults], by simp,
      by simp [writeResults], by simp [writeResults]⟩
  | cons r rest ih =>
    intro s d
    simp only [Datastore.writeResults, writeResults, WriteMajorTypeHeaderBuf]
    obtain ⟨s1, h1, w1, _⟩ := houtWrite_spec sink s (majorTypeHeader MajArray 2)
    rw [h1]
    cases sink s.writes with
    | some e =>
      have hlen : s1.writes - s.writes = 1 := by omega
      refine ⟨[.call .queryNext d.backupLk, .write s.writes d.backupLk], ?_, ?_, ?_, ?_⟩
      · simp [Datastore.child, Datastore.write]
      · intro st hst
        simp only [List.mem_cons, List.mem_singleton, List.not_mem_nil, or_false] at hst
        rcases hst with rfl | rfl
        · exact Or.inl rfl
        all_goals exact Or.inr ⟨_, rfl⟩
      · simp only [hlen]
        simp [Step.writeIndex, List.range', w1]
      · simp only; omega
    | none =>
    simp only
    obtain ⟨s2, h2, w2, _⟩ := houtWrite_spec sink s1 (majorTypeHeader MajByteString r.Key.length)
    rw [h2]
    cases sink s1.writes with
    | some e =>
      have hlen : s2.writes - s.writes = 2 := by omega
      refine ⟨[.call .queryNext d.backupLk, .write s.writes d.backupLk, .write s1.writes d.backupLk], ?_, ?_, ?_, ?_⟩
      · simp [Datastore.child, Datastore.write]
      · intro st hst
        simp only [List.mem_cons, List.mem_singleton, List.not_mem_nil, or_false] at hst
        rcases hst with rfl | rfl | rfl
        · exact Or.inl rfl
        all_goals exact Or.inr ⟨_, rfl⟩
      · simp only [hlen]
        simp [Step.writeIndex, List.range', w1, w2]
      · simp only; omega
    | none =>
    simp only
    obtain ⟨s3, h3, w3, _⟩ := houtWrite_spec sink s2 r.Key
    rw [h3]
    cases sink s2.writes with
    | some e =>
      have hlen : s3.writes - s.writes = 3 := by omega
      refine ⟨[.call .queryNext d.backupLk, .write s.writes d.backupLk, .write s1.writes d.backupLk, .write s2.writes d.backupLk], ?_, ?_, ?_, ?_⟩
      · simp [Datastore.child, Datastore.write]
      · intro st hst
        simp only [List.mem_cons, List.mem_singleton, List.not_mem_nil, or_false] at hst
        rcases hst with rfl | rfl | rfl | rfl
        · exact Or.inl rfl
        all_goals exact Or.inr ⟨_, rfl⟩
      · simp only [hlen]
        simp [Step.writeIndex, List.range', w1, w2, w3]
      · simp only; omega
    | none =>
    simp only
    obtain ⟨s4, h4, w4, _⟩ := houtWrite_spec sink s3 (majorTypeHeader MajByteString r.Value.length)
    rw [h4]
    cases sink s3.writes with
    | some e =>
      have hlen : s4.writes - s.writes = 4 := by omega
      refine ⟨[.call .queryNext d.backupLk, .write s.writes d.backupLk, .write s1.writes d.backupLk, .write s2.writes d.backupLk, .write s3.writes d.backupLk], ?_, ?_, ?_, ?_⟩
      · simp [Datastore.child, Datastore.write]
      · intro st hst
        simp only [List.mem_cons, List.mem_singleton, List.not_mem_nil, or_false] at hst
        rcases hst with rfl | rfl | rfl | rfl | rfl
        · exact Or.inl rfl
        all_goals exact Or.inr ⟨_, rfl⟩
      · simp only [hlen]
        simp [Step.writeIndex, List.range', w1, w2, w3, w4]
      · simp only; omega
    | none =>
    simp only
    obtain ⟨s5, h5, w5, _⟩ := houtWrite_spec sink s4 r.Value
    rw [h5]
    cases sink s4.writes with
    | some e =>
      have hlen : s5.writes - s.writes = 5 := by omega
      refine ⟨[.call .queryNext d.backupLk, .write s.writes d.backupLk, .write s1.writes d.backupLk, .write s2.writes d.backupLk, .write s3.writes d.backupLk, .write s4.writes d.backupLk], ?_, ?_, ?_, ?_⟩
      · simp [Datastore.child, Datastore.write]
      · intro st hst
        simp only [List.mem_cons, List.mem_singleton, List.not_mem_nil, or_false] at hst
        rcases hst with rfl | rfl | rfl | rfl | rfl | rfl
        · exact Or.inl rfl
        all_goals exact Or.inr ⟨_, rfl⟩
      · simp only [hlen]
        simp [Step.writeIndex, List.range', w1, w2, w3, w4, w5]
      · simp only; omega
    | none =>
    simp only
    obtain ⟨body, hb1, hb2, hb3, hb4⟩ := ih s5
      ((((((d.child .queryNext ()).2.write s).write s1).write s2).write s3).write s4)
    rw [hb1]
    have hlen : (writeResults sink rest s5).2.writes - s.writes =
        5 + ((writeResults sink rest s5).2.writes - s5.writes) := by omega
    refine ⟨[.call .queryNext d.backupLk, .write s.writes d.backupLk, .write s1.writes d.backupLk, .write s2.writes d.backupLk, .write s3.writes d.backupLk, .write s4.writes d.backupLk] ++ body, ?_, ?_, ?_, ?_⟩
    · simp [Datastore.child, Datastore.write]
    · intro st hst
      simp only [List.mem_append, List.mem_cons, List.mem_singleton, List.not_mem_nil,
        or_false] at hst
      rcases hst with (rfl | rfl | rfl | rfl | rfl | rfl) | hst
      · exact Or.inl rfl
      · exact Or.inr ⟨_, rfl⟩
      · exact Or.inr ⟨_, rfl⟩
      · exact Or.inr ⟨_, rfl⟩
      · exact Or.inr ⟨_, rfl⟩
      · exact Or.inr ⟨_, rfl⟩
      · simpa [Datastore.child, Datastore.write] using hb2 st hst
    · rw [List.filterMap_append, hb3, hlen]
      have h5 : s5.writes = s.writes + 5 := by omega
      rw [h5, Nat.add_comm 5, ← List.range'_append_1]
      simp [Step.writeIndex, List.range', w1, w2, w3, w4]
    · omega

/-- A `Backup` whose sink refuses the first write, with the datastore: one step, the
write, and the guard is not touched. -/
theorem tracedBackup_firstWrite (d : Datastore) (child : Child) (sink : Sink) (e : GoError)
    (h : sink 0 = some e) :
    d.Backup child sink =
      some (Backup child sink, ⟨d.backupLk, d.trace ++ [.write 0 d.backupLk]⟩) := by
  rw [Backup_firstWrite child sink e h]
  simp [Datastore.Backup, WriteMajorTypeHeaderBuf, outWrite, h, Datastore.write]

/-- A `Backup` whose sink refuses the second write, with the datastore: two steps, the
writes, and the guard is not touched. -/
theorem tracedBackup_secondWrite (d : Datastore) (child : Child) (sink : Sink) (e : GoError)
    (h0 : sink 0 = none) (h : sink 1 = some e) :
    d.Backup child sink =
      some (Backup child sink,
        ⟨d.backupLk, d.trace ++ [.write 0 d.backupLk, .write 1 d.backupLk]⟩) := by
  rw [Backup_secondWrite child sink e h0 h]
  simp [Datastore.Backup, WriteMajorTypeHeaderBuf, outWrite, houtWrite, h0, h, Datastore.write]

/-- A `Backup` whose first two writes are taken cannot return unless the guard is free. -/
theorem tracedBackup_blocked (d : Datastore) (child : Child) (sink : Sink)
    (h0 : sink 0 = none) (h1 : sink 1 = none) (hd : d.backupLk ≠ ⟨false, 0⟩) :
    d.Backup child sink = none := by
  obtain ⟨⟨w, n⟩, tr⟩ := d
  have hl : sync.RWMutex.Lock ⟨w, n⟩ = none := by
    unfold sync.RWMutex.Lock
    rw [if_neg]
    rintro ⟨rfl, rfl⟩
    exact hd rfl
  simp [Datastore.Backup, WriteMajorTypeHeaderBuf, outWrite, houtWrite, h0, h1,
    Datastore.write, Datastore.guard, hl]

/-- A `Backup` whose query fails to open, with the datastore and the guard free: the guard
is taken after the two writes, the query is called under it, and it is released. -/
theorem tracedBackup_failedOpen (d : Datastore) (sink : Sink) (e : GoError)
    (h0 : sink 0 = none) (h1 : sink 1 = none) (hd : d.backupLk = ⟨false, 0⟩) :
    d.Backup ⟨.error e⟩ sink =
      some (Backup ⟨.error e⟩ sink, ⟨⟨false, 0⟩, d.trace ++
        [.write 0 ⟨false, 0⟩, .write 1 ⟨false, 0⟩, .guard ⟨false, 0⟩ ⟨true, 0⟩,
          .call .Query ⟨true, 0⟩, .guard ⟨true, 0⟩ ⟨false, 0⟩]⟩) := by
  obtain ⟨lk, tr⟩ := d
  simp only at hd
  subst hd
  rw [Backup_failedOpen sink e h0 h1]
  simp [Datastore.Backup, WriteMajorTypeHeaderBuf, outWrite, houtWrite, h0, h1,
    Datastore.write, Datastore.guard, Datastore.child, Datastore.returning,
    sync.RWMutex.Lock, sync.RWMutex.Unlock, deferUnlock, BackupState.emit, failedOpenEvents]

/-- The writes numbered from 2 up to `w`, one more than those up to `w - 1`. -/
theorem range_snoc (w : Nat) (h : 2 ≤ w) :
    List.range' 2 (w - 2) ++ [w] = List.range' 2 (w + 1 - 2) := by
  have e : w + 1 - 2 = (w - 2) + 1 := by omega
  rw [e, List.range'_1_concat]
  congr 2
  omega

/-- The return of `Backup` with the writer on the guard and the query opened: the query is
closed and the guard released, in this order. -/
theorem returning_opened (tr : List Step) (o : BackupOutcome) :
    Datastore.returning ⟨⟨true, 0⟩, tr⟩ true o =
      some (o, ⟨⟨false, 0⟩, tr ++
        [.call .queryClose ⟨true, 0⟩, .guard ⟨true, 0⟩ ⟨false, 0⟩]⟩) := by
  simp [Datastore.returning, Datastore.child, Datastore.guard, sync.RWMutex.Unlock]

/-- A `Backup` whose query opened, with the datastore and the guard free: after the two
writes the guard is taken, the query is called, and every step up to the close of the
query, which comes right before the release, is a result taken from the query or a write
on the sink with the writer on the guard; these writes are all the writes from the third
on, in order. -/
theorem tracedBackup_opened (d : Datastore) (qr : query.Results) (sink : Sink)
    (h0 : sink 0 = none) (h1 : sink 1 = none) (hd : d.backupLk = ⟨false, 0⟩) :
    ∃ body : List Step,
      d.Backup ⟨.ok qr⟩ sink =
        some (Backup ⟨.ok qr⟩ sink, ⟨⟨false, 0⟩, d.trace ++
          ([.write 0 ⟨false, 0⟩, .write 1 ⟨false, 0⟩, .guard ⟨false, 0⟩ ⟨true, 0⟩,
            .call .Query ⟨true, 0⟩] ++ body ++
            [.call .queryClose ⟨true, 0⟩, .guard ⟨true, 0⟩ ⟨false, 0⟩])⟩) ∧
      (∀ st ∈ body, st = .call .queryNext ⟨true, 0⟩ ∨ ∃ n, st = .write n ⟨true, 0⟩) ∧
      body.filterMap Step.writeIndex =
        List.range' 2 ((Backup ⟨.ok qr⟩ sink).state.writes - 2) := by
  obtain ⟨lk, tr⟩ := d
  simp only at hd
  subst hd
  have hA : WriteMajorTypeHeaderBuf (outWrite sink) ⟨[], 0, [], []⟩ MajArray 2 =
      (none, ⟨majorTypeHeader MajArray 2, 1, [], []⟩) := by
    simp [WriteMajorTypeHeaderBuf, outWrite, h0]
  have hB : houtWrite sink ⟨majorTypeHeader MajArray 2, 1, [], []⟩ [0x9f] =
      (none, ⟨majorTypeHeader MajArray 2 ++ [0x9f], 2, [0x9f], []⟩) := by
    simp [houtWrite, outWrite, h1]
  have hL : sync.RWMutex.Lock ⟨false, 0⟩ = some ⟨true, 0⟩ := rfl
  simp only [Datastore.Backup, Backup, hA, hB, hL, Datastore.write, Datastore.guard,
    Datastore.child, BackupState.emit, List.nil_append, List.cons_append, List.append_assoc,
    List.singleton_append, writeChecksum]
  obtain ⟨body1, hb1, hb2, hb3, hb4⟩ := tracedResults_spec sink qr.Next
    ⟨majorTypeHeader MajArray 2 ++ [0x9f], 2, [0x9f], [.lock, .logStart, .queryOpen true]⟩
    ⟨⟨true, 0⟩, tr ++ [.write 0 ⟨false, 0⟩, .write 1 ⟨false, 0⟩,
      .guard ⟨false, 0⟩ ⟨true, 0⟩, .call .Query ⟨true, 0⟩]⟩
  rw [hb1]
  rcases hr : writeResults sink qr.Next
    ⟨majorTypeHeader MajArray 2 ++ [0x9f], 2, [0x9f], [.lock, .logStart, .queryOpen true]⟩
    with ⟨_ | e, s⟩
  · rw [hr] at hb3 hb4
    simp only at hb2 hb3 hb4 ⊢
    obtain ⟨sb, hh, wb, _⟩ := houtWrite_spec sink s [0xff]
    rw [hh]
    cases sink s.writes with
    | some e =>
      simp only
      refine ⟨body1 ++ [.write s.writes ⟨true, 0⟩], ?_, ?_, ?_⟩
      · rw [returning_opened]; simp
      · intro st hst
        rw [List.mem_append, List.mem_singleton] at hst
        rcases hst with hst | rfl
        · exact hb2 st hst
        · exact Or.inr ⟨_, rfl⟩
      · rw [List.filterMap_append, hb3, deferred_writes, wb, ← range_snoc _ hb4]
        rfl
    | none =>
      simp only [WriteMajorTypeHeaderBuf]
      obtain ⟨sc, hc, wc, _⟩ := houtWrite_spec sink sb
        (majorTypeHeader MajByteString (sha256.Sum256 sb.hasher).length)
      rw [hc]
      cases sink sb.writes with
      | some e =>
        simp only
        refine ⟨body1 ++ [.write s.writes ⟨true, 0⟩, .write sb.writes ⟨true, 0⟩], ?_, ?_, ?_⟩
        · rw [returning_opened]; simp
        · intro st hst
          simp only [List.mem_append, List.mem_cons, List.mem_singleton, List.not_mem_nil,
            or_false] at hst
          rcases hst with hst | rfl | rfl
          · exact hb2 st hst
          · exact Or.inr ⟨_, rfl⟩
          · exact Or.inr ⟨_, rfl⟩
        · have e2 : body1 ++ [Step.write s.writes ⟨true, 0⟩, Step.write sb.writes ⟨true, 0⟩] =
              (body1 ++ [Step.write s.writes ⟨true, 0⟩]) ++ [Step.write sb.writes ⟨true, 0⟩] := by
            simp
          rw [e2, List.filterMap_append, List.filterMap_append, hb3, deferred_writes, wc, wb,
            ← range_snoc _ (by omega), ← range_snoc _ hb4]
          rfl
      | none =>
        simp only
        obtain ⟨sd, hd2, wd, _⟩ := houtWrite_spec sink sc (sha256.Sum256 sb.hasher)
        rw [hd2]
        have e3 : body1 ++ [Step.write s.writes ⟨true, 0⟩, Step.write sb.writes ⟨true, 0⟩,
              Step.write sc.writes ⟨true, 0⟩] =
            ((body1 ++ [Step.write s.writes ⟨true, 0⟩]) ++ [Step.write sb.writes ⟨true, 0⟩]) ++
              [Step.write sc.writes ⟨true, 0⟩] := by
          simp
        have hf : (body1 ++ [Step.write s.writes ⟨true, 0⟩, Step.write sb.writes ⟨true, 0⟩,
              Step.write sc.writes ⟨true, 0⟩]).filterMap Step.writeIndex =
            List.range' 2 (sd.writes - 2) := by
          rw [e3, List.filterMap_append, List.filterMap_append, List.filterMap_append, hb3,
            wd, wc, wb, ← range_snoc _ (by omega), ← range_snoc _ (by omega),
            ← range_snoc _ hb4]
          rfl
        have hm : ∀ st ∈ body1 ++ [Step.write s.writes ⟨true, 0⟩,
            Step.write sb.writes ⟨true, 0⟩, Step.write sc.writes ⟨true, 0⟩],
            st = .call .queryNext ⟨true, 0⟩ ∨ ∃ n, st = .write n ⟨true, 0⟩ := by
          intro st hst
          simp only [List.mem_append, List.mem_cons, List.mem_singleton, List.not_mem_nil,
            or_false] at hst
          rcases hst with hst | rfl | rfl | rfl
          · exact hb2 st hst
          · exact Or.inr ⟨_, rfl⟩
          · exact Or.inr ⟨_, rfl⟩
          · exact Or.inr ⟨_, rfl⟩
        cases sink sc.writes with
        | some e =>
          simp only
          refine ⟨_, ?_, hm, ?_⟩
          · rw [returning_opened]; simp
          · rw [hf, deferred_writes]
        | none =>
          simp only
          refine ⟨_, ?_, hm, ?_⟩
          · rw [returning_opened]; simp
          · rw [hf, deferred_writes]
  · rw [hr] at hb3 hb4
    simp only at hb2 hb3 hb4 ⊢
    refine ⟨body1, ?_, hb2, ?_⟩
    · rw [returning_opened]; simp
    · rw [hb3, deferred_writes]

end backupds

/-! ## The claims -/

namespace backupds

/-- Claim C1, as amended: for every finite sequence of pairs whose keys are fixed points of
`datastore.NewKey` and whose keys and values are at most `1<<40` bytes long, `ReadBackup`
on the bytes `Backup` wrote to a sink that never fails, with a callback that always
succeeds, returns success, hands the callback exactly the same pairs in the same order,
and leaves nothing unread. -/
theorem C1_roundtrip (es : List Entry) (hfit : fieldsFit es)
    (hkeys : ∀ e ∈ es, datastore.NewKey e.1 = e.1) :
    ReadBackup (backupBytes es) okCallback = some ⟨none, es, []⟩ := by
  have hs := checksumStage_byteString (entryStream es) (sha256.Sum256 (entryStream es)) []
    (delivered es) (by rw [sha256.Sum256_length])
  rw [backupBytes_eq, envelope, ReadBackup_stream okCallback es hfit (accepts_okCallback [] es),
    ← List.append_nil (byteString _), hs, delivered_fixed es hkeys]
  simp

theorem C1_roundtrip_witness :
    ReadBackup (backupBytes [([47, 97], [98]), ([47], []), ([47, 0, 255], [0, 255, 10])])
      okCallback =
      some ⟨none, [([47, 97], [98]), ([47], []), ([47, 0, 255], [0, 255, 10])], []⟩ :=
  C1_roundtrip _ (by simp [fieldsFit, maxField]) (by decide)

/-- Claim C1 fails as stated: the empty key comes back as the key `/`, and a value of
`2^40 + 1` bytes that `Backup` has written is refused by `ReadBackup`. -/
theorem C1_counterexample :
    ReadBackup (backupBytes [([], [])]) okCallback = some ⟨none, [([47], [])], []⟩ ∧
    Option.map ReadOutcome.err
        (ReadBackup (backupBytes [([47], oversizedValue)]) okCallback) =
      some (some (.readingValue (.tooLong 1099511627776))) := by
  constructor
  · decide
  · have hl : oversizedValue.length = 1099511627777 :=
      List.length_replicate _ _
    have hs : envelope [([47], oversizedValue)] =
        0x82 :: 0x9f :: (entriesBytes [] ++ (entryBytes ([47], oversizedValue) ++
          (0xff :: byteString (sha256.Sum256
            (entryStream [([47], oversizedValue)]))))) := by
      simp only [envelope, entryStream, entriesBytes, List.append_nil, List.nil_append,
        List.cons_append, List.append_assoc, List.singleton_append]
    rw [backupBytes_eq, hs, ReadBackup_after okCallback [] (by simp [fieldsFit]) trivial,
      readLoop_valueTooLong okCallback _ [47] (oversizedValue) _ _ _
        (by decide) (by rw [hl]; decide) (by rw [hl]; decide)]
    rfl

/-- Claim C2: for every sequence of query results (whatever the close of the query returns)
and a sink that never fails, `Backup` returns no error and the bytes it writes are exactly
`0x82`, `0x9f`, then for each result in query order `0x82`, the byte-string header carrying
the length of the key, the key, the byte-string header carrying the length of the value,
the value, then `0xff`, then the digest of the stream as a byte string. -/
theorem C2_wire_format (qr : query.Results) :
    (Backup ⟨.ok qr⟩ neverFails).err = none ∧
    (Backup ⟨.ok qr⟩ neverFails).state.out =
      [0x82, 0x9f] ++
        qr.Next.flatMap (fun r =>
          0x82 :: (cbg.majorTypeHeader cbg.MajByteString r.Key.length ++ r.Key ++
            (cbg.majorTypeHeader cbg.MajByteString r.Value.length ++ r.Value))) ++
        [0xff] ++
        (cbg.majorTypeHeader cbg.MajByteString 32 ++
          sha256.Sum256 (entryStream (entriesOf qr.Next))) := by
  rw [Backup_neverFails]
  refine ⟨rfl, ?_⟩
  simp only [envelope, entryStream, byteString, sha256.Sum256_length, entriesBytes_flatMap]
  simp

/-- Claim C3: for every sequence of query results and a sink that never fails, the output
of `Backup` is the outer header byte `0x82`, the entry stream from its start marker `0x9f`
through its end marker `0xff`, the two header bytes of the checksum field and 32 checksum
bytes; the 32 bytes written last are the SHA-256 digest of exactly the entry stream, which
starts at the second byte of the output and stops 34 bytes before its end. -/
theorem C3_checksum_domain (qr : query.Results) :
    (Backup ⟨.ok qr⟩ neverFails).state.out =
      [0x82] ++ entryStream (entriesOf qr.Next) ++ [0x58, 0x20] ++
        sha256.Sum256 (entryStream (entriesOf qr.Next)) ∧
    entryStream (entriesOf qr.Next) = [0x9f] ++ entriesBytes (entriesOf qr.Next) ++ [0xff] ∧
    (sha256.Sum256 (entryStream (entriesOf qr.Next))).length = 32 ∧
    (Backup ⟨.ok qr⟩ neverFails).state.out.drop
        ((Backup ⟨.ok qr⟩ neverFails).state.out.length - 32) =
      sha256.Sum256 (((Backup ⟨.ok qr⟩ neverFails).state.out.drop 1).take
        ((Backup ⟨.ok qr⟩ neverFails).state.out.length - 35)) := by
  have hout : (Backup ⟨.ok qr⟩ neverFails).state.out =
      [0x82] ++ entryStream (entriesOf qr.Next) ++ [0x58, 0x20] ++
        sha256.Sum256 (entryStream (entriesOf qr.Next)) := by
    rw [Backup_neverFails]
    simp [envelope, byteString, sha256.Sum256_length, checksumHeader]
  have h32 := sha256.Sum256_length (entryStream (entriesOf qr.Next))
  refine ⟨hout, by simp [entryStream], h32, ?_⟩
  rw [hout]
  have e1 : ([0x82] ++ entryStream (entriesOf qr.Next) ++ [0x58, 0x20] ++
      sha256.Sum256 (entryStream (entriesOf qr.Next))).length - 32 =
      ([0x82] ++ entryStream (entriesOf qr.Next) ++ [0x58, 0x20]).length := by
    simp [h32]
  have e2 : ([0x82] ++ entryStream (entriesOf qr.Next) ++ [0x58, 0x20] ++
      sha256.Sum256 (entryStream (entriesOf qr.Next))).length - 35 =
      (entryStream (entriesOf qr.Next)).length := by
    simp [h32]
  rw [e1, e2, List.drop_left]
  congr 1
  simp

/-- Claim C4, as amended: when the query yields no result, the output of `Backup` is the
three bytes `82 9f ff` followed by the 32-byte SHA-256 digest of the two bytes `9f ff`
written as a byte string whose two-byte length prefix `58 20` declares 32 bytes; the
checksum field is 34 bytes long and the output 37. -/
theorem C4_empty_store (close : Option GoError) :
    (Backup ⟨.ok ⟨[], close⟩⟩ neverFails).state.out =
      [0x82, 0x9f, 0xff] ++ (cbg.majorTypeHeader cbg.MajByteString 32 ++
        sha256.Sum256 [0x9f, 0xff]) ∧
    cbg.majorTypeHeader cbg.MajByteString 32 = [0x58, 0x20] ∧
    (sha256.Sum256 [0x9f, 0xff]).length = 32 ∧
    (Backup ⟨.ok ⟨[], close⟩⟩ neverFails).state.out =
      [0x82, 0x9f, 0xff, 0x58, 0x20,
       0x90, 0x25, 0x40, 0xf3, 0x97, 0x80, 0x27, 0x92, 0xa8, 0xb1, 0x86, 0x05, 0x91, 0xf9,
       0xd0, 0x42, 0x21, 0xb6, 0xea, 0x15, 0xbe, 0x39, 0x5a, 0xe8, 0x6a, 0x96, 0x00, 0x73,
       0x37, 0x29, 0x1a, 0xa5] := by
  rw [Backup_neverFails]
  have h1 : envelope [] = [0x82, 0x9f, 0xff] ++ (cbg.majorTypeHeader cbg.MajByteString 32 ++
      sha256.Sum256 [0x9f, 0xff]) := by decide
  have h2 : envelope [] = [0x82, 0x9f, 0xff, 0x58, 0x20,
      0x90, 0x25, 0x40, 0xf3, 0x97, 0x80, 0x27, 0x92, 0xa8, 0xb1, 0x86, 0x05, 0x91, 0xf9,
      0xd0, 0x42, 0x21, 0xb6, 0xea, 0x15, 0xbe, 0x39, 0x5a, 0xe8, 0x6a, 0x96, 0x00, 0x73,
      0x37, 0x29, 0x1a, 0xa5] := by decide
  exact ⟨h1, by decide, by decide, h2⟩

/-- Claim C4 fails as stated: the checksum field of the empty store's backup is not a
byte string with a length prefix of 33, and it is not 33 bytes long either. -/
theorem C4_counterexample :
    backupBytes [] ≠
      [0x82, 0x9f, 0xff] ++ (cbg.majorTypeHeader cbg.MajByteString 33 ++
        sha256.Sum256 [0x9f, 0xff]) ∧
    ((backupBytes []).drop 3).length ≠ 33 := by
  decide

/-- Claim C5, as amended: for the single pair with key `a` and value `b`, `ReadBackup` on
the output of `Backup` succeeds and invokes the callback exactly once, with the key `/a`
(what `datastore.NewKey` makes of `a`) and the value `b`; for the single pair with key `/a`
and value `b` the callback receives exactly those bytes, and encoding the decoded pair
again gives output byte-identical to the first. -/
theorem C5_single_pair :
    ReadBackup (backupBytes [([97], [98])]) okCallback = some ⟨none, [([47, 97], [98])], []⟩ ∧
    ReadBackup (backupBytes [([47, 97], [98])]) okCallback =
      some ⟨none, [([47, 97], [98])], []⟩ ∧
    Option.map (fun o => backupBytes o.calls)
        (ReadBackup (backupBytes [([47, 97], [98])]) okCallback) =
      some (backupBytes [([47, 97], [98])]) := by
  decide

/-- Claim C5 fails as stated: the callback is handed the key `/a`, not the key `a`, and
encoding the decoded pair again gives bytes that differ from the first output. -/
theorem C5_counterexample :
    Option.map ReadOutcome.calls (ReadBackup (backupBytes [([97], [98])]) okCallback) =
      some [([47, 97], [98])] ∧
    ([47, 97] : List Byte) ≠ [97] ∧
    backupBytes [([47, 97], [98])] ≠ backupBytes [([97], [98])] := by
  decide

/-- Claim C7, as amended: for every envelope `Backup` produced and every prefix of it that
ends before the checksum field begins, `ReadBackup` on that prefix, with a callback that
always succeeds, never returns success: it returns an I/O error (a read met the end of the
source) or, which happens only when a key or value of the envelope is longer than `1<<40`
bytes, the size-limit error. -/
theorem C7_truncation (es : List Entry) (n : Nat) (h64 : fieldsGo es)
    (hn : n + 34 ≤ (backupBytes es).length) :
    ∃ o err, ReadBackup ((backupBytes es).take n) okCallback = some o ∧
      o.err = some err ∧
      (err.isIoError = true ∨ (err.isSizeLimitError = true ∧ ¬ fieldsFit es)) := by
  rw [backupBytes_eq] at hn ⊢
  rw [envelope_length] at hn
  match n, hn with
  | 0, _ =>
    exact ⟨⟨some (.readingArrayHeader .eof), [], []⟩, .readingArrayHeader .eof,
      by simp [ReadBackup, cbg.readByte], rfl, Or.inl rfl⟩
  | 1, _ =>
    exact ⟨⟨some (.readingArrayHeader .eof), [], []⟩, .readingArrayHeader .eof,
      by simp [envelope, ReadBackup, cbg.readByte, tee], rfl, Or.inl rfl⟩
  | m + 2, hn =>
    rw [envelope_take es m (by omega)]
    by_cases hm : m < (entriesBytes es ++ [0xff]).length ∨ ¬ fieldsFit es
    · obtain ⟨err, c, r, herr, hrun⟩ := readLoop_cut es h64 m
        (((entriesBytes es ++ [0xff]).take m).length + 1) [0x9f] [] hm (by omega)
      exact ⟨_, err, by rw [ReadBackup_start, hrun], rfl, herr⟩
    · have hm2 : (entriesBytes es ++ [0xff]).length ≤ m := by
        by_contra hc
        exact hm (Or.inl (by omega))
      have hfit : fieldsFit es := by
        by_contra hc
        exact hm (Or.inr hc)
      have hs := ReadBackup_stream okCallback es hfit (accepts_okCallback [] es) []
      rw [List.append_nil, entryStream] at hs
      rw [List.take_of_length_le hm2, hs]
      exact ⟨_, .readingChecksum .eof, rfl, by simp [checksumStage, cbg.ReadByteArray,
        cbg.CborReadHeader, cbg.readByte], Or.inl rfl⟩

theorem C7_truncation_witness :
    ∃ o err, ReadBackup ((backupBytes [([47, 97], [98]), ([47, 98], [1, 2, 3])]).take 9)
        okCallback = some o ∧
      o.err = some err ∧
      (err.isIoError = true ∨
        (err.isSizeLimitError = true ∧ ¬ fieldsFit [([47, 97], [98]), ([47, 98], [1, 2, 3])])) :=
  C7_truncation [([47, 97], [98]), ([47, 98], [1, 2, 3])] 9 (by simp [fieldsGo])
    (by decide)

/-- Claim C7 fails as stated: the envelope of a value of `2^40 + 1` bytes, cut right
before its checksum field, is answered with the size-limit error, which is neither an I/O
error nor a format error. -/
theorem C7_counterexample :
    ReadBackup ((backupBytes [([47], oversizedValue)]).take
        ((backupBytes [([47], oversizedValue)]).length - 34)) okCallback =
      some ⟨some (.readingValue (.tooLong 1099511627776)), [], oversizedValue ++ [0xff]⟩ ∧
    (ReadError.readingValue (.tooLong 1099511627776)).isIoError = false ∧
    (ReadError.readingValue (.tooLong 1099511627776)).isFormatError = false := by
  refine ⟨?_, rfl, rfl⟩
  have hl : oversizedValue.length = 1099511627777 := List.length_replicate _ _
  rw [backupBytes_eq, envelope_take_stream, entryStream]
  have hs : entriesBytes [([47], oversizedValue)] ++ [0xff] =
      entriesBytes [] ++ (entryBytes ([47], oversizedValue) ++ [0xff]) := by
    simp only [entriesBytes, List.append_nil, List.nil_append]
  rw [hs, ReadBackup_after okCallback [] (by simp [fieldsFit]) trivial,
    readLoop_valueTooLong okCallback _ [47] oversizedValue _ _ _
      (by decide) (by rw [hl]; decide) (by rw [hl]; decide)]
  rfl

/-- Claim C8, as amended: on an input that is well framed (`0x82`, `0x9f`, zero or more
entries each `0x82`, byte string, byte string, with keys and values of at most `1<<40`
bytes, `0xff`, then a byte string of at most 32 bytes), every byte string carrying its
length in the shortest header, as `Backup` writes it, and with a callback that always
succeeds, `ReadBackup` invokes the callback once for each entry in stream order, then
returns success if and only if the trailing byte string equals the SHA-256 digest of the
bytes from `0x9f` through `0xff`, and otherwise the checksum-mismatch error naming the
trailing byte string and that digest. -/
theorem C8_checksum_verification (es : List Entry) (cs : List Byte)
    (hfit : fieldsFit es) (hcs : cs.length ≤ 32) :
    ReadBackup (0x82 :: (entryStream es ++ byteString cs)) okCallback =
      some ⟨if sha256.Sum256 (entryStream es) = cs then none
          else some (.checksumMismatch cs (sha256.Sum256 (entryStream es))),
        delivered es, []⟩ := by
  have hs := checksumStage_byteString (entryStream es) cs [] (delivered es) hcs
  rw [List.append_nil] at hs
  rw [ReadBackup_stream okCallback es hfit (accepts_okCallback [] es), hs]
  split <;> rfl

/-- Two entries and a trailing byte string of two bytes. -/
theorem C8_checksum_verification_witness :
    ReadBackup (0x82 :: (entryStream [([97], [98]), ([], [1, 2, 3])] ++ byteString [1, 2]))
        okCallback =
      some ⟨if sha256.Sum256 (entryStream [([97], [98]), ([], [1, 2, 3])]) = [1, 2] then none
          else some (.checksumMismatch [1, 2]
            (sha256.Sum256 (entryStream [([97], [98]), ([], [1, 2, 3])]))),
        delivered [([97], [98]), ([], [1, 2, 3])], []⟩ :=
  C8_checksum_verification [([97], [98]), ([], [1, 2, 3])] [1, 2]
    (by simp [fieldsFit, maxField]) (by decide)

set_option maxRecDepth 100000 in
/-- Claim C8 fails as stated, twice. A well-framed input whose single entry carries a value
of `2^40 + 1` bytes and whose trailing byte string is the digest of its entry stream is
answered with the size-limit error, without any invocation of the callback. A well-framed
input whose single entry has the one-byte key `/` written as the byte string `58 01 2f`
(its length in a following byte, not in the shortest header `41`) and the empty value, and
whose trailing byte string is the digest of its entry stream `9f 82 58 01 2f 40 ff`, is
answered with the error of a header that is not canonical, without any invocation of the
callback. -/
theorem C8_counterexample :
    ReadBackup
        (0x82 :: (entryStream [([47], oversizedValue)] ++
          byteString (sha256.Sum256 (entryStream [([47], oversizedValue)]))))
        okCallback =
      some ⟨some (.readingValue (.tooLong 1099511627776)), [],
        oversizedValue ++
          0xff :: byteString
            (sha256.Sum256 (entryStream [([47], oversizedValue)]))⟩ ∧
    ReadBackup
        (0x82 :: ([0x9f, 0x82, 0x58, 0x01, 0x2f, 0x40, 0xff] ++
          byteString (sha256.Sum256 [0x9f, 0x82, 0x58, 0x01, 0x2f, 0x40, 0xff])))
        okCallback =
      some ⟨some (.readingKey .notCanonical), [],
        [0x2f, 0x40, 0xff] ++
          byteString (sha256.Sum256 [0x9f, 0x82, 0x58, 0x01, 0x2f, 0x40, 0xff])⟩ := by
  have hl : oversizedValue.length = 1099511627777 :=
    List.length_replicate _ _
  have hs : entryStream [([47], oversizedValue)] ++
      byteString (sha256.Sum256 (entryStream [([47], oversizedValue)])) =
      0x9f :: (entriesBytes [] ++ (entryBytes ([47], oversizedValue) ++
        (0xff :: byteString (sha256.Sum256
          (entryStream [([47], oversizedValue)]))))) := by
    simp only [entryStream, entriesBytes, List.append_nil, List.nil_append,
      List.cons_append, List.append_assoc, List.singleton_append]
  refine ⟨?_, by decide⟩
  rw [hs, ReadBackup_after okCallback [] (by simp [fieldsFit]) trivial,
    readLoop_valueTooLong okCallback _ [47] (oversizedValue) _ _ _
      (by decide) (by rw [hl]; decide) (by rw [hl]; decide)]
  rfl

/-- Claim C9: when the callback returns an error on an entry, all earlier entries having
been read (keys and values of at most `1<<40` bytes) and accepted, `ReadBackup` returns
exactly that error, the failing invocation is the last one, and the source is left at the
first byte after that entry: nothing of what follows, the checksum field included, is
read. -/
theorem C9_callback_failure (cb : Callback) (es : List Entry) (e : Entry) (tail : List Byte)
    (err : GoError) (hfit : fieldsFit (es ++ [e])) (hacc : accepts cb [] es)
    (hfail : cb (delivered es) (datastore.NewKey e.1) e.2 = some err) :
    ReadBackup (0x82 :: 0x9f :: (entriesBytes es ++ (entryBytes e ++ tail))) cb =
      some ⟨some (.callback err), delivered es ++ [(datastore.NewKey e.1, e.2)], tail⟩ := by
  have hes : fieldsFit es := fun x hx => hfit x (by simp [hx])
  have he := hfit e (by simp)
  rw [ReadBackup_after cb es hes hacc, readLoop_entry cb _ e tail _ _ he.1 he.2, hfail]

theorem C9_callback_failure_witness :
    ReadBackup (0x82 :: 0x9f :: (entriesBytes [([47, 97], [1])] ++
        (entryBytes ([47, 98], [2]) ++ [0x82, 0x41, 0x63, 0x40, 0xff, 0x58, 0x20])))
      (fun calls _ _ => if calls.length = 1 then some ⟨"stop"⟩ else none) =
      some ⟨some (.callback ⟨"stop"⟩),
        delivered [([47, 97], [1])] ++ [(datastore.NewKey [47, 98], [2])],
        [0x82, 0x41, 0x63, 0x40, 0xff, 0x58, 0x20]⟩ :=
  C9_callback_failure _ [([47, 97], [1])] ([47, 98], [2]) _ ⟨"stop"⟩
    (by simp [fieldsFit, maxField]) ⟨rfl, trivial⟩ rfl

/-- Claim C10: a first byte other than `0x82`, a second byte other than `0x9f`, and a byte
at an entry boundary (after entries that were read and accepted) that is neither `0xff`
nor `0x82` each make `ReadBackup` return the error that reports that byte, with no
invocation of the callback beyond the entries already delivered and with the source left
at the byte after the offending one. -/
theorem C10_format_errors (cb : Callback) (es : List Entry) (b : Byte) (tail : List Byte)
    (hfit : fieldsFit es) (hacc : accepts cb [] es) :
    (b ≠ 0x82 → ReadBackup (b :: tail) cb = some ⟨some (.expectedArrayHeader b), [], tail⟩) ∧
    (b ≠ 0x9f →
      ReadBackup (0x82 :: b :: tail) cb = some ⟨some (.expectedIndefHeader b), [], tail⟩) ∧
    (b ≠ 0xff → b ≠ 0x82 →
      ReadBackup (0x82 :: 0x9f :: (entriesBytes es ++ b :: tail)) cb =
        some ⟨some (.expectedTupleHeader b), delivered es, tail⟩) := by
  refine ⟨?_, ?_, ?_⟩
  · intro hb
    simp [ReadBackup, cbg.readByte, hb]
  · intro hb
    simp [ReadBackup, cbg.readByte, tee, hb]
  · intro h1 h2
    rw [ReadBackup_after cb es hfit hacc, readLoop]
    simp [cbg.readByte, tee, h1, h2]

theorem C10_format_errors_witness :
    ReadBackup (0x00 :: [1, 2]) okCallback = some ⟨some (.expectedArrayHeader 0x00), [], [1, 2]⟩ ∧
    ReadBackup (0x82 :: 0x9e :: [1, 2]) okCallback =
      some ⟨some (.expectedIndefHeader 0x9e), [], [1, 2]⟩ ∧
    ReadBackup (0x82 :: 0x9f :: (entriesBytes [([47, 97], [98])] ++ 0x83 :: [1, 2])) okCallback =
      some ⟨some (.expectedTupleHeader 0x83), delivered [([47, 97], [98])], [1, 2]⟩ :=
  ⟨(C10_format_errors okCallback [] 0x00 [1, 2] (by simp [fieldsFit]) trivial).1 (by decide),
   (C10_format_errors okCallback [] 0x9e [1, 2] (by simp [fieldsFit]) trivial).2.1 (by decide),
   (C10_format_errors okCallback [([47, 97], [98])] 0x83 [1, 2]
      (by simp [fieldsFit, maxField]) ⟨rfl, trivial⟩).2.2 (by decide) (by decide)⟩

end backupds

namespace backupds

open cbg

/-- Claim C11: when the length prefix of a key or of a value declares more than `1<<40`
bytes (the entries before it having been read and accepted), `ReadBackup` returns the
size-limit error, the callback is not invoked for that entry, and the source is left at the
first byte after the length prefix: no byte of the declared payload is read. -/
theorem C11_oversized_length (cb : Callback) (es : List Entry) (k : List Byte) (l : Nat)
    (tail : List Byte) (hfit : fieldsFit es) (hacc : accepts cb [] es)
    (hk : k.length ≤ maxField) (hl : maxField < l) (hl64 : l < 2 ^ 64) :
    ReadBackup (0x82 :: 0x9f :: (entriesBytes es ++
        0x82 :: (majorTypeHeader MajByteString l ++ tail))) cb =
      some ⟨some (.readingKey (.tooLong 1099511627776)), delivered es, tail⟩ ∧
    ReadBackup (0x82 :: 0x9f :: (entriesBytes es ++
        0x82 :: (byteString k ++ (majorTypeHeader MajByteString l ++ tail)))) cb =
      some ⟨some (.readingValue (.tooLong 1099511627776)), delivered es, tail⟩ := by
  have hk64 : k.length < 2 ^ 64 := lt_of_le_of_lt hk maxField_lt
  have h1 := ReadByteArray_declared l 1099511627776 tail hl hl64
  have h2 := ReadByteArray_byteString k (majorTypeHeader MajByteString l ++ tail)
    1099511627776 hk hk64
  constructor
  · rw [ReadBackup_after cb es hfit hacc, readLoop]
    simp [cbg.readByte, tee, h1]
  · rw [ReadBackup_after cb es hfit hacc, readLoop]
    simp [cbg.readByte, tee, h1, h2]

/-- A key and a value whose length prefix declares `2^40 + 1` bytes, after one entry. -/
theorem C11_oversized_length_witness :
    ReadBackup (0x82 :: 0x9f :: (entriesBytes [([47, 97], [98])] ++
        0x82 :: (majorTypeHeader MajByteString 1099511627777 ++ [1, 2, 3]))) okCallback =
      some ⟨some (.readingKey (.tooLong 1099511627776)), delivered [([47, 97], [98])],
        [1, 2, 3]⟩ ∧
    ReadBackup (0x82 :: 0x9f :: (entriesBytes [([47, 97], [98])] ++
        0x82 :: (byteString [47, 98] ++
          (majorTypeHeader MajByteString 1099511627777 ++ [1, 2, 3])))) okCallback =
      some ⟨some (.readingValue (.tooLong 1099511627776)), delivered [([47, 97], [98])],
        [1, 2, 3]⟩ :=
  C11_oversized_length okCallback [([47, 97], [98])] [47, 98] 1099511627777 [1, 2, 3]
    (by simp [fieldsFit, maxField]) ⟨rfl, trivial⟩ (by decide) (by decide) (by decide)

/-- Claim C12, as amended. A failed open of the full-scan query is propagated: `Backup` returns
the store's error wrapped as "query: ..." (the two writes before the query having been
taken), after the deferred message and unlock, and with a child whose query fails it
returns success on no sink. A failed close of the query is not propagated: the deferred
closure logs it ("query close error") and `Backup` returns and writes what it would have
had the close succeeded; on a sink that never fails that is success. -/
theorem C12_store_errors (e : GoError) (sink : Sink) (qr : query.Results)
    (h0 : sink 0 = none) (h1 : sink 1 = none) (hclose : qr.Close = some e) :
    (Backup ⟨.error e⟩ sink).err = some (.query e) ∧
    (Backup ⟨.error e⟩ sink).state.events =
      [.lock, .logStart, .queryOpen false, .logDone, .unlock] ∧
    (∀ sink2 : Sink, (Backup ⟨.error e⟩ sink2).err ≠ none) ∧
    (Backup ⟨.ok qr⟩ sink).err = (Backup ⟨.ok { qr with Close := none }⟩ sink).err ∧
    (Backup ⟨.ok qr⟩ sink).state.out =
      (Backup ⟨.ok { qr with Close := none }⟩ sink).state.out ∧
    (Backup ⟨.ok qr⟩ sink).state.events =
      [.lock, .logStart, .queryOpen true, .queryClose false, .logCloseError e, .logDone,
        .unlock] ∧
    (Backup ⟨.ok qr⟩ neverFails).err = none := by
  refine ⟨?_, ?_, ?_, ?_, ?_, ?_, ?_⟩
  · rw [Backup_failedOpen sink e h0 h1]
  · rw [Backup_failedOpen sink e h0 h1]; rfl
  · intro sink2
    cases c0 : sink2 0 with
    | some e0 => rw [Backup_firstWrite _ sink2 e0 c0]; simp
    | none =>
      cases c1 : sink2 1 with
      | some e1 => rw [Backup_secondWrite _ sink2 e1 c0 c1]; simp
      | none => rw [Backup_failedOpen sink2 e c0 c1]; simp
  · exact (Backup_close qr { qr with Close := none } sink rfl h0 h1).1
  · exact (Backup_close qr { qr with Close := none } sink rfl h0 h1).2
  · rw [Backup_opened_events qr sink h0 h1, backupEvents, hclose]; rfl
  · rw [Backup_neverFails]

/-- A query that fails to open, a query whose close fails after one result, and a sink that
never fails. -/
theorem C12_store_errors_witness :
    (Backup ⟨.error ⟨"store closed"⟩⟩ neverFails).err = some (.query ⟨"store closed"⟩) ∧
    (Backup ⟨.ok ⟨[⟨[47, 97], [98], none⟩], some ⟨"store closed"⟩⟩⟩ neverFails).state.events =
      [.lock, .logStart, .queryOpen true, .queryClose false,
        .logCloseError ⟨"store closed"⟩, .logDone, .unlock] ∧
    (Backup ⟨.ok ⟨[⟨[47, 97], [98], none⟩], some ⟨"store closed"⟩⟩⟩ neverFails).err = none :=
  have h := C12_store_errors ⟨"store closed"⟩ neverFails
    ⟨[⟨[47, 97], [98], none⟩], some ⟨"store closed"⟩⟩ rfl rfl rfl
  ⟨h.1, h.2.2.2.2.2.1, h.2.2.2.2.2.2⟩

/-- Claim C12 fails as stated: when the close of the query fails, on a sink that never
fails, `Backup` logs the failure and returns success with the complete envelope
written. -/
theorem C12_counterexample :
    (Backup ⟨.ok ⟨[], some ⟨"close failed"⟩⟩⟩ neverFails).err = none ∧
    (Backup ⟨.ok ⟨[], some ⟨"close failed"⟩⟩⟩ neverFails).state.events =
      [.lock, .logStart, .queryOpen true, .queryClose false,
        .logCloseError ⟨"close failed"⟩, .logDone, .unlock] ∧
    (Backup ⟨.ok ⟨[], some ⟨"close failed"⟩⟩⟩ neverFails).state.out = envelope [] := by
  rw [Backup_neverFails]
  exact ⟨rfl, rfl, rfl⟩

/-- Claim C13: when write number `k` of the sink fails with `e`, the writes before it
being taken and `k` being one of the `5 n + 5` writes of a backup of `n` results, `Backup`
returns `e` wrapped with the name of the field that write carries (outer header, start
marker; tuple header, key header, key, value header or value of an entry; end marker;
checksum header, checksum), makes no write after it, and, when the query had been opened
(`k` is at least 2), closes it, logs and releases the guard before returning; for `k`
below 2 the guard is not taken and the query not opened, whatever the child is. -/
theorem C13_sink_failure (qr : query.Results) (sink : Sink) (k : Nat) (e : GoError)
    (hk : sink k = some e) (hbefore : ∀ j, j < k → sink j = none)
    (hreach : k < 5 * qr.Next.length + 5) :
    (Backup ⟨.ok qr⟩ sink).err = some (writeError qr.Next.length k e) ∧
    (Backup ⟨.ok qr⟩ sink).state.writes = k + 1 ∧
    (Backup ⟨.ok qr⟩ sink).state.events = (if k < 2 then [] else backupEvents qr) ∧
    (k < 2 → ∀ child : Child, Backup child sink = Backup ⟨.ok qr⟩ sink) := by
  by_cases c0 : k = 0
  · subst c0
    have hb : ∀ child : Child, Backup child sink =
        ⟨some (.writingTupleHeader e), ⟨[], 1, [], []⟩⟩ :=
      fun child => Backup_firstWrite child sink e hk
    refine ⟨by rw [hb]; rfl, by rw [hb], by rw [hb]; rfl, fun _ child => by rw [hb, hb]⟩
  by_cases c1 : k = 1
  · subst c1
    have hb : ∀ child : Child, Backup child sink =
        ⟨some (.writingHeader e), ⟨majorTypeHeader MajArray 2, 2, [0x9f], []⟩⟩ :=
      fun child => Backup_secondWrite child sink e (hbefore 0 (by omega)) hk
    refine ⟨by rw [hb]; rfl, by rw [hb], by rw [hb]; rfl, fun _ child => by rw [hb, hb]⟩
  have h0 : sink 0 = none := hbefore 0 (by omega)
  have h1 : sink 1 = none := hbefore 1 (by omega)
  have hev := Backup_opened_events qr sink h0 h1
  have hif : (if k < 2 then ([] : List Event) else backupEvents qr) = backupEvents qr :=
    if_neg (by omega)
  rw [hif]
  refine ⟨?_, ?_, hev, fun h => absurd h (by omega)⟩
  · rw [Backup_opened qr sink h0 h1]
    by_cases c2 : k < 2 + 5 * qr.Next.length
    · have hw : writeError qr.Next.length k e = entryError ((k - 2) % 5) e := by
        unfold writeError
        rw [if_neg c0, if_neg c1, if_pos c2]
      obtain ⟨ha, _, _⟩ := writeResults_fail sink k e hk qr.Next
        ⟨majorTypeHeader MajArray 2 ++ [0x9f], 2, [0x9f], [.lock, .logStart, .queryOpen true]⟩
        (fun j _ hj => hbefore j hj) (by simp only; omega) (by simp only; omega)
      rcases hr : writeResults sink qr.Next
        ⟨majorTypeHeader MajArray 2 ++ [0x9f], 2, [0x9f],
          [.lock, .logStart, .queryOpen true]⟩ with ⟨o, s⟩
      rw [hr] at ha
      simp only at ha
      rw [ha, hw]
    · obtain ⟨ha, hb, _⟩ := writeResults_pass sink qr.Next
        ⟨majorTypeHeader MajArray 2 ++ [0x9f], 2, [0x9f], [.lock, .logStart, .queryOpen true]⟩
        (fun j _ hj => hbefore j (by simp only at hj; omega))
      rcases hr : writeResults sink qr.Next
        ⟨majorTypeHeader MajArray 2 ++ [0x9f], 2, [0x9f],
          [.lock, .logStart, .queryOpen true]⟩ with ⟨o, s⟩
      rw [hr] at ha hb
      simp only at ha hb
      subst ha
      simp only
      obtain ⟨s1, hh, w1, _⟩ := houtWrite_spec sink s [0xff]
      rw [hh]
      by_cases c3 : k = 2 + 5 * qr.Next.length
      · have hs : sink s.writes = some e := by rw [hb, ← c3]; exact hk
        have hw : writeError qr.Next.length k e = .writingArrayBreak e := by
          unfold writeError
          rw [if_neg c0, if_neg c1, if_neg c2, if_pos c3]
        rw [hs, hw]
      · have hs : sink s.writes = none := hbefore _ (by omega)
        rw [hs]
        simp only
        have hc := (writeChecksum_spec sink s1).1
        rcases hcs : writeChecksum sink s1 with ⟨o2, s2⟩
        rw [hcs] at hc
        simp only at hc
        by_cases c4 : k = 3 + 5 * qr.Next.length
        · have hs1 : sink s1.writes = some e := by
            rw [w1, hb]
            have : 2 + 5 * qr.Next.length + 1 = k := by omega
            rw [this]; exact hk
          have hw : writeError qr.Next.length k e = .writingChecksumHeader e := by
            unfold writeError
            rw [if_neg c0, if_neg c1, if_neg c2, if_neg c3, if_pos c4]
          rw [hs1] at hc
          rw [hc, hw]
        · have hs1 : sink s1.writes = none := hbefore _ (by omega)
          have hs2 : sink (s1.writes + 1) = some e := by
            have : s1.writes + 1 = k := by omega
            rw [this]; exact hk
          have hw : writeError qr.Next.length k e = .writingChecksum e := by
            unfold writeError
            rw [if_neg c0, if_neg c1, if_neg c2, if_neg c3, if_neg c4]
          rw [hs1, hs2] at hc
          rw [hc, hw]
  · rw [Backup_opened qr sink h0 h1]
    by_cases c2 : k < 2 + 5 * qr.Next.length
    · obtain ⟨_, hb, _⟩ := writeResults_fail sink k e hk qr.Next
        ⟨majorTypeHeader MajArray 2 ++ [0x9f], 2, [0x9f], [.lock, .logStart, .queryOpen true]⟩
        (fun j _ hj => hbefore j hj) (by simp only; omega) (by simp only; omega)
      obtain ⟨ha, _, _⟩ := writeResults_fail sink k e hk qr.Next
        ⟨majorTypeHeader MajArray 2 ++ [0x9f], 2, [0x9f], [.lock, .logStart, .queryOpen true]⟩
        (fun j _ hj => hbefore j hj) (by simp only; omega) (by simp only; omega)
      rcases hr : writeResults sink qr.Next
        ⟨majorTypeHeader MajArray 2 ++ [0x9f], 2, [0x9f],
          [.lock, .logStart, .queryOpen true]⟩ with ⟨o, s⟩
      rw [hr] at ha hb
      simp only at ha hb
      subst ha
      simp only
      rw [deferred_writes, hb]
    · obtain ⟨ha, hb, _⟩ := writeResults_pass sink qr.Next
        ⟨majorTypeHeader MajArray 2 ++ [0x9f], 2, [0x9f], [.lock, .logStart, .queryOpen true]⟩
        (fun j _ hj => hbefore j (by simp only at hj; omega))
      rcases hr : writeResults sink qr.Next
        ⟨majorTypeHeader MajArray 2 ++ [0x9f], 2, [0x9f],
          [.lock, .logStart, .queryOpen true]⟩ with ⟨o, s⟩
      rw [hr] at ha hb
      simp only at ha hb
      subst ha
      simp only
      obtain ⟨s1, hh, w1, _⟩ := houtWrite_spec sink s [0xff]
      rw [hh]
      by_cases c3 : k = 2 + 5 * qr.Next.length
      · have hs : sink s.writes = some e := by rw [hb, ← c3]; exact hk
        rw [hs]
        simp only
        rw [deferred_writes, w1, hb, c3]
      · have hs : sink s.writes = none := hbefore _ (by omega)
        rw [hs]
        simp only
        have hc := (writeChecksum_spec sink s1).2.1
        have hc1 := (writeChecksum_spec sink s1).1
        rcases hcs : writeChecksum sink s1 with ⟨o2, s2⟩
        rw [hcs] at hc hc1
        simp only at hc hc1
        by_cases c4 : k = 3 + 5 * qr.Next.length
        · have hs1 : sink s1.writes = some e := by
            rw [w1, hb]
            have : 2 + 5 * qr.Next.length + 1 = k := by omega
            rw [this]; exact hk
          rw [hs1] at hc hc1
          simp only [reduceCtorEq, if_false] at hc
          subst hc1
          simp only
          rw [deferred_writes, hc]
          omega
        · have hs1 : sink s1.writes = none := hbefore _ (by omega)
          have hs2 : sink (s1.writes + 1) = some e := by
            have : s1.writes + 1 = k := by omega
            rw [this]; exact hk
          rw [hs1, hs2] at hc1
          rw [hs1] at hc
          simp only [if_true] at hc
          subst hc1
          simp only
          rw [deferred_writes, hc]
          omega

/-- One result and a sink that fails on its fifth write, the key of the result: the error
names the key, five writes were made, the query was closed and the guard released. -/
theorem C13_sink_failure_witness :
    (Backup ⟨.ok ⟨[⟨[47, 97], [98], none⟩], none⟩⟩
        (fun n => if n = 4 then some ⟨"disk full"⟩ else none)).err =
      some (writeError 1 4 ⟨"disk full"⟩) ∧
    writeError 1 4 ⟨"disk full"⟩ = .writingKey ⟨"disk full"⟩ ∧
    (Backup ⟨.ok ⟨[⟨[47, 97], [98], none⟩], none⟩⟩
        (fun n => if n = 4 then some ⟨"disk full"⟩ else none)).state.writes = 5 ∧
    (Backup ⟨.ok ⟨[⟨[47, 97], [98], none⟩], none⟩⟩
        (fun n => if n = 4 then some ⟨"disk full"⟩ else none)).state.events =
      [.lock, .logStart, .queryOpen true, .queryClose true, .logDone, .unlock] :=
  have h := C13_sink_failure ⟨[⟨[47, 97], [98], none⟩], none⟩
    (fun n => if n = 4 then some ⟨"disk full"⟩ else none) 4 ⟨"disk full"⟩ rfl
    (fun j hj => if_neg (Nat.ne_of_lt hj)) (by decide)
  ⟨h.1, rfl, h.2.1, h.2.2.1⟩

/-- Claim C15, the lock discipline on the state of the guard (writer, readers), each
operation given by what it returns and by the steps it adds to the trace of the datastore:
the methods of the guard with its state before and after, the calls on the child and the
writes on the sink with the state of the guard during them. `Backup` makes its first two
writes without the guard; when one of them fails it returns without touching the guard.
Otherwise it cannot return unless the guard is free; it takes the guard in exclusive mode,
opens the query, and every step from there to its last write (a result taken from the
query or a write on the sink; the writes are all the writes from the third on, in order)
is made with the writer on the guard; the close of the query and then the release of the
guard are its last steps, on success and on every error, and the guard is free again when
it returns what `Backup` returns. `Put`, `Delete`, `Sync`, `Close` and the batch's `Commit`
cannot return while a writer holds the guard, make their one call on the child with one
reader more on the guard and return what the child returns with the guard as before.
`Get`, `Has`, `GetSize`, `Query`, `Batch` and the batch's `Put` and `Delete` call the child
with the guard as it is, held or not, and leave it so. A step that puts a writer on the
guard is taken by `Backup` alone. -/
theorem C15_lock_discipline (d : Datastore) (child : Child) (qr : query.Results)
    (e : GoError) (sink : Sink) (α : Type) (x : α) (β : Type) (b : β) (bb : bbatch β) :
    (¬ (sink 0 = none ∧ sink 1 = none) →
      d.Backup child sink =
        some (Backup child sink, ⟨d.backupLk, d.trace ++
          (List.range (Backup child sink).state.writes).map
            (fun n => Step.write n d.backupLk)⟩)) ∧
    (sink 0 = none ∧ sink 1 = none → d.backupLk ≠ ⟨false, 0⟩ → d.Backup child sink = none) ∧
    (sink 0 = none ∧ sink 1 = none → d.backupLk = ⟨false, 0⟩ →
      ∃ body : List Step,
        d.Backup ⟨.ok qr⟩ sink =
          some (Backup ⟨.ok qr⟩ sink, ⟨⟨false, 0⟩, d.trace ++
            ([.write 0 ⟨false, 0⟩, .write 1 ⟨false, 0⟩, .guard ⟨false, 0⟩ ⟨true, 0⟩,
              .call .Query ⟨true, 0⟩] ++ body ++
              [.call .queryClose ⟨true, 0⟩, .guard ⟨true, 0⟩ ⟨false, 0⟩])⟩) ∧
        (∀ st ∈ body, st = .call .queryNext ⟨true, 0⟩ ∨ ∃ n, st = .write n ⟨true, 0⟩) ∧
        body.filterMap Step.writeIndex =
          List.range' 2 ((Backup ⟨.ok qr⟩ sink).state.writes - 2)) ∧
    (sink 0 = none ∧ sink 1 = none → d.backupLk = ⟨false, 0⟩ →
      d.Backup ⟨.error e⟩ sink =
        some (Backup ⟨.error e⟩ sink, ⟨⟨false, 0⟩, d.trace ++
          [.write 0 ⟨false, 0⟩, .write 1 ⟨false, 0⟩, .guard ⟨false, 0⟩ ⟨true, 0⟩,
            .call .Query ⟨true, 0⟩, .guard ⟨true, 0⟩ ⟨false, 0⟩]⟩)) ∧
    Option.map Prod.snd
        (Datastore.Backup ⟨⟨false, 0⟩, []⟩ ⟨.ok ⟨[⟨[47, 97], [98], none⟩], none⟩⟩
          (fun n => if n = 8 then some ⟨"disk full"⟩ else none)) =
      some ⟨⟨false, 0⟩,
        [.write 0 ⟨false, 0⟩, .write 1 ⟨false, 0⟩, .guard ⟨false, 0⟩ ⟨true, 0⟩,
          .call .Query ⟨true, 0⟩, .call .queryNext ⟨true, 0⟩, .write 2 ⟨true, 0⟩,
          .write 3 ⟨true, 0⟩, .write 4 ⟨true, 0⟩, .write 5 ⟨true, 0⟩, .write 6 ⟨true, 0⟩,
          .write 7 ⟨true, 0⟩, .write 8 ⟨true, 0⟩, .call .queryClose ⟨true, 0⟩,
          .guard ⟨true, 0⟩ ⟨false, 0⟩]⟩ ∧
    (∀ p ∈ [(ChildCall.Put, d.Put x), (ChildCall.Delete, d.Delete x),
        (ChildCall.Sync, d.Sync x), (ChildCall.Close, d.Close x),
        (ChildCall.batchCommit, bbatch.Commit (⟨b, sync.RWMutex.RLocker⟩ : bbatch β) d x)],
      p.2 =
        if d.backupLk.writer then none
        else some (x, ⟨d.backupLk, d.trace ++
          [.guard d.backupLk ⟨false, d.backupLk.readers + 1⟩,
            .call p.1 ⟨false, d.backupLk.readers + 1⟩,
            .guard ⟨false, d.backupLk.readers + 1⟩ d.backupLk]⟩)) ∧
    (∀ p ∈ [(ChildCall.Get, d.Get x), (ChildCall.Has, d.Has x),
        (ChildCall.GetSize, d.GetSize x), (ChildCall.Query, d.Query x),
        (ChildCall.batchPut, bb.Put d x), (ChildCall.batchDelete, bb.Delete d x)],
      p.2 = some (x, ⟨d.backupLk, d.trace ++ [.call p.1 d.backupLk]⟩)) ∧
    d.Batch (.ok b) =
      some (.ok ⟨b, sync.RWMutex.RLocker⟩,
        ⟨d.backupLk, d.trace ++ [.call .Batch d.backupLk]⟩) ∧
    d.Batch (.error e : Except GoError β) =
      some (.error e, ⟨d.backupLk, d.trace ++ [.call .Batch d.backupLk]⟩) := by
  refine ⟨?_, ?_, ?_, ?_, by decide, ?_, ?_, rfl, rfl⟩
  · intro h
    cases c0 : sink 0 with
    | some e0 =>
      rw [tracedBackup_firstWrite d child sink e0 c0, Backup_firstWrite child sink e0 c0]
      rfl
    | none =>
      cases c1 : sink 1 with
      | some e1 =>
        rw [tracedBackup_secondWrite d child sink e1 c0 c1,
          Backup_secondWrite child sink e1 c0 c1]
        rfl
      | none => exact absurd ⟨c0, c1⟩ h
  · intro h hd
    exact tracedBackup_blocked d child sink h.1 h.2 hd
  · intro h hd
    exact tracedBackup_opened d qr sink h.1 h.2 hd
  · intro h hd
    exact tracedBackup_failedOpen d sink e h.1 h.2 hd
  · intro p hp
    simp only [List.mem_cons, List.mem_singleton, List.not_mem_nil, or_false] at hp
    rcases hp with rfl | rfl | rfl | rfl | rfl <;> exact underLock_shared d _ x
  · intro p hp
    simp only [List.mem_cons, List.mem_singleton, List.not_mem_nil, or_false] at hp
    rcases hp with rfl | rfl | rfl | rfl | rfl | rfl <;> rfl

/-- Claim C16, as amended: for every finite sequence of pairs whose keys and values are
at most `1<<40` bytes long, `ReadBackup` on the output of `Backup`, with a callback that
always succeeds, returns success and hands the callback, in the same order, every value as
stored and for every key `datastore.NewKey` of the stored key; when every key is a fixed
point of `datastore.NewKey` these are exactly the stored keys and values. -/
theorem C16_normalised_keys (es : List Entry) (hfit : fieldsFit es) :
    ReadBackup (backupBytes es) okCallback =
      some ⟨none, es.map (fun e => (datastore.NewKey e.1, e.2)), []⟩ ∧
    ((∀ e ∈ es, datastore.NewKey e.1 = e.1) →
      es.map (fun e => (datastore.NewKey e.1, e.2)) = es) := by
  have hs := checksumStage_byteString (entryStream es) (sha256.Sum256 (entryStream es)) []
    (delivered es) (by rw [sha256.Sum256_length])
  constructor
  · rw [backupBytes_eq, envelope, ReadBackup_stream okCallback es hfit (accepts_okCallback [] es),
      ← List.append_nil (byteString _), hs]
    simp [delivered]
  · intro hkeys
    exact delivered_fixed es hkeys

/-- A key that is a fixed point of `NewKey` and one that is not. -/
theorem C16_normalised_keys_witness :
    ReadBackup (backupBytes [([47, 97], [98]), ([97, 47, 47, 98], [1])]) okCallback =
      some ⟨none, [([47, 97], [98]), ([97, 47, 47, 98], [1])].map
        (fun e => (datastore.NewKey e.1, e.2)), []⟩ ∧
    datastore.NewKey [97, 47, 47, 98] = [47, 97, 47, 98] :=
  ⟨(C16_normalised_keys [([47, 97], [98]), ([97, 47, 47, 98], [1])]
    (by simp [fieldsFit, maxField])).1, by decide⟩

/-- Claim C16 fails as stated: both keys are fixed points of `datastore.NewKey`, yet
`ReadBackup` refuses what `Backup` wrote, at the value of `2^40 + 1` bytes of the second
pair, after the first pair was delivered. -/
theorem C16_counterexample :
    (datastore.NewKey [47, 97] = [47, 97] ∧ datastore.NewKey [47, 98] = [47, 98]) ∧
    Option.map (fun o => (o.err, o.calls))
        (ReadBackup (backupBytes [([47, 97], [98]), ([47, 98], oversizedValue)]) okCallback) =
      some (some (.readingValue (.tooLong 1099511627776)), [([47, 97], [98])]) := by
  refine ⟨by decide, ?_⟩
  have hl : oversizedValue.length = 1099511627777 := List.length_replicate _ _
  have hs : envelope [([47, 97], [98]), ([47, 98], oversizedValue)] =
      0x82 :: 0x9f :: (entriesBytes [([47, 97], [98])] ++
        (entryBytes ([47, 98], oversizedValue) ++
          (0xff :: byteString (sha256.Sum256
            (entryStream [([47, 97], [98]), ([47, 98], oversizedValue)]))))) := by
    simp only [envelope, entryStream, entriesBytes, List.append_nil, List.nil_append,
      List.cons_append, List.append_assoc, List.singleton_append]
  rw [backupBytes_eq, hs,
    ReadBackup_after okCallback [([47, 97], [98])] (by simp [fieldsFit, maxField])
      ⟨rfl, trivial⟩,
    readLoop_valueTooLong okCallback _ [47, 98] oversizedValue _ _ _
      (by decide) (by rw [hl]; decide) (by rw [hl]; decide)]
  decide

/-- Claim C17: `Backup` does not read the error field of a query result. Two result
streams with the same keys and values in the same order (and the same outcome of the
close) give the same outcome on every sink, whatever their error fields; with a sink that
never fails `Backup` returns success and writes the envelope with exactly one entry for
each result, made of its key and value fields as they are. -/
theorem C17_error_field_ignored (qr qr2 : query.Results) (sink : Sink)
    (hclose : qr.Close = qr2.Close) (hkv : entriesOf qr.Next = entriesOf qr2.Next) :
    Backup ⟨.ok qr⟩ sink = Backup ⟨.ok qr2⟩ sink ∧
    (Backup ⟨.ok qr⟩ neverFails).err = none ∧
    (Backup ⟨.ok qr⟩ neverFails).state.out =
      envelope (qr.Next.map (fun r => (r.Key, r.Value))) ∧
    (qr.Next.map (fun r => (r.Key, r.Value))).length = qr.Next.length := by
  refine ⟨?_, ?_, ?_, by simp⟩
  · simp only [Backup, deferClose, hclose, writeResults_congr sink qr.Next qr2.Next _ hkv]
  · rw [Backup_neverFails]
  · rw [Backup_neverFails]
    rfl

/-- Two results, the second carrying an error and an empty key and value. -/
theorem C17_error_field_ignored_witness :
    Backup ⟨.ok ⟨[⟨[47, 97], [98], none⟩, ⟨[], [], some ⟨"scan failed"⟩⟩], none⟩⟩ neverFails =
      Backup ⟨.ok ⟨[⟨[47, 97], [98], some ⟨"x"⟩⟩, ⟨[], [], none⟩], none⟩⟩ neverFails ∧
    (Backup ⟨.ok ⟨[⟨[47, 97], [98], none⟩, ⟨[], [], some ⟨"scan failed"⟩⟩], none⟩⟩
      neverFails).err = none ∧
    (Backup ⟨.ok ⟨[⟨[47, 97], [98], none⟩, ⟨[], [], some ⟨"scan failed"⟩⟩], none⟩⟩
      neverFails).state.out =
      envelope (([⟨[47, 97], [98], none⟩, ⟨[], [], some ⟨"scan failed"⟩⟩] :
        List query.Result).map (fun r => (r.Key, r.Value))) ∧
    (([⟨[47, 97], [98], none⟩, ⟨[], [], some ⟨"scan failed"⟩⟩] :
        List query.Result).map (fun r => (r.Key, r.Value))).length =
      ([⟨[47, 97], [98], none⟩, ⟨[], [], some ⟨"scan failed"⟩⟩] : List query.Result).length :=
  C17_error_field_ignored _ _ neverFails rfl rfl

/-- Claim C18: for any two finite sequences of key and value pairs (of lengths below
`2^64`, as every Go slice has), if `Backup` writes the same bytes for both to sinks that
never fail, the two sequences are the same: same length, order and content. -/
theorem C18_injective (es1 es2 : List Entry) (h1 : fieldsGo es1) (h2 : fieldsGo es2)
    (h : backupBytes es1 = backupBytes es2) : es1 = es2 := by
  rw [backupBytes_eq, backupBytes_eq, envelope_cons, envelope_cons] at h
  exact entriesBytes_inj es1 es2 _ _ h1 h2 (List.cons.inj (List.cons.inj h).2).2

/-- Two one-entry sequences with the same bytes written are the same sequence. -/
theorem C18_injective_witness :
    ([([47, 97], [98]), ([], [1, 2])] : List Entry) = [([47, 97], [98]), ([], [1, 2])] :=
  C18_injective [([47, 97], [98]), ([], [1, 2])] [([47, 97], [98]), ([], [1, 2])]
    (by simp [fieldsGo]) (by simp [fieldsGo]) rfl

/-- Claim C19: `ReadBackup` stops at the end of the checksum field. When it succeeds on a
source `E` with `rest` left unread (nothing, for an envelope), it succeeds on `E` followed
by any bytes `T` with the same invocations of the callback and leaves `rest` and `T`
unread, so it consumes the same bytes; the envelope written for well-formed entries is
such a source. After an entry stream, a checksum field whose length prefix declares
`l > 32` bytes is rejected with the error "reading expected checksum" wrapping the
"too long, maxlen: 32" error of the byte string reader, the unread source starting right
after the length prefix: no byte of the field is read or compared. -/
theorem C19_stops_at_checksum (cb : Callback) (E T rest : List Byte)
    (calls : List (datastore.Key × List Byte)) (es : List Entry) (l : Nat)
    (hE : ReadBackup E cb = some ⟨none, calls, rest⟩)
    (hfit : fieldsFit es) (hacc : accepts cb [] es) (hl : 32 < l) (hl64 : l < 2 ^ 64) :
    ReadBackup (E ++ T) cb = some ⟨none, calls, rest ++ T⟩ ∧
    ReadBackup (backupBytes es ++ T) cb = some ⟨none, delivered es, T⟩ ∧
    ReadBackup (0x82 :: (entryStream es ++ (majorTypeHeader MajByteString l ++ T))) cb =
      some ⟨some (.readingChecksum (.tooLong 32)), delivered es, T⟩ := by
  refine ⟨ReadBackup_append cb E T rest calls hE, ?_, ?_⟩
  · have hs := checksumStage_byteString (entryStream es) (sha256.Sum256 (entryStream es)) T
      (delivered es) (by rw [sha256.Sum256_length])
    rw [if_pos rfl] at hs
    rw [backupBytes_eq, envelope, List.cons_append, List.append_assoc,
      ReadBackup_stream cb es hfit hacc, hs]
  · rw [ReadBackup_stream cb es hfit hacc, checksumStage,
      ReadByteArray_declared l 32 T hl hl64]

set_option maxRecDepth 100000 in
/-- The empty store's backup followed by three bytes, and a checksum field declaring 33
bytes. -/
theorem C19_stops_at_checksum_witness :
    ReadBackup (backupBytes []) okCallback = some ⟨none, [], []⟩ ∧
    ReadBackup (backupBytes [] ++ [1, 2, 3]) okCallback = some ⟨none, [], [] ++ [1, 2, 3]⟩ ∧
    ReadBackup (0x82 :: (entryStream [] ++ (majorTypeHeader MajByteString 33 ++ [1, 2, 3])))
        okCallback = some ⟨some (.readingChecksum (.tooLong 32)), delivered [], [1, 2, 3]⟩ :=
  have hE : ReadBackup (backupBytes []) okCallback = some ⟨none, [], []⟩ := by decide
  have h := C19_stops_at_checksum okCallback (backupBytes []) [1, 2, 3] [] [] [] 33 hE
    (by simp [fieldsFit]) (accepts_okCallback [] []) (by decide) (by decide)
  ⟨hE, h.1, h.2.2⟩

end backupds

namespace build

/-- Claim C20: `UserVersion` is `BuildVersion`, which is "1.6.0-rc1", followed by the
build-type suffix, followed by `CurrentCommit`; the suffix is empty for build type 0,
"+mainnet" for 1, "+2k" for 2, "+debug" for 3, "+calibnet" for 4, "+butterflynet" for 7 and
"+huh?" for every other value, the declared constant `BuildInteropnet`, which is 8,
included. -/
theorem C20_user_version (BuildType : Int) (CurrentCommit : String) :
    UserVersion BuildType CurrentCommit = "1.6.0-rc1" ++ buildType BuildType ++ CurrentCommit ∧
    buildType 0 = "" ∧ buildType 1 = "+mainnet" ∧ buildType 2 = "+2k" ∧
    buildType 3 = "+debug" ∧ buildType 4 = "+calibnet" ∧ buildType 7 = "+butterflynet" ∧
    BuildInteropnet = 8 ∧ buildType BuildInteropnet = "+huh?" ∧
    (BuildType ∉ [0, 1, 2, 3, 4, 7] → buildType BuildType = "+huh?") := by
  refine ⟨rfl, rfl, rfl, rfl, rfl, rfl, rfl, rfl, rfl, ?_⟩
  intro h
  simp only [List.mem_cons, List.mem_singleton, List.not_mem_nil, not_or, or_false] at h
  obtain ⟨h0, h1, h2, h3, h4, h7⟩ := h
  unfold buildType
  rw [if_neg (show ¬ BuildType = BuildDefault from h0),
    if_neg (show ¬ BuildType = BuildMainnet from h1),
    if_neg (show ¬ BuildType = Build2k from h2),
    if_neg (show ¬ BuildType = BuildDebug from h3),
    if_neg (show ¬ BuildType = BuildCalibnet from h4),
    if_neg (show ¬ BuildType = BuildButterflynet from h7)]

end build
